import Mathlib

/-!
# Notification fan-out: the in-process hub and the Redis relay

A shallow embedding of `pkg/sse` (`hub.go`, `pubsub.go`).

Go objects with identity (channels, the inner `*sync.Map` of each user) live in
explicit heaps: an address is the index of the object in a list.  Every
operation is modelled at the granularity of one call, so a hub state is what an
observer sees between two calls.  A run-time panic is an `Except.error`.
-/

namespace sse

/-! ## Values -/

/-- A `time.Time`: an instant in nanoseconds since the Unix epoch and the offset of
its location from UTC in seconds. -/
structure Time where
  unixNano : Int
  zoneOffset : Int
  deriving DecidableEq, Repr

/-- The `Time.UTC` of Go: the same instant with the location set to UTC. -/
def Time.UTC (t : Time) : Time := { t with zoneOffset := 0 }

/-- JSON documents, as trees.  `num n` is the integer literal `n`; `dec mant exp` is
a number literal with a fraction or an exponent, of value `mant * 10 ^ exp` (`1.5`
is `dec 15 (-1)`, `1e+21` is `dec 1 21`).  `time t` is the RFC 3339 string that
`time.Time.MarshalJSON` writes for `t` (clock readings lie in the years 0 to 9999,
where that encoding is defined). -/
inductive Json where
  | null : Json
  | bool (b : Bool) : Json
  | num (n : Int) : Json
  | dec (mant : Int) (exp : Int) : Json
  | str (s : String) : Json
  | time (t : Time) : Json
  | arr (elems : List Json) : Json
  | obj (fields : List (String × Json)) : Json

/-- The value of member `key` among the members of a JSON object. -/
def memberOf (fields : List (String × Json)) (key : String) : Option Json :=
  match fields with
  | [] => none
  | (k, v) :: rest => if k = key then some v else memberOf rest key

/-- The value of member `key` of a JSON document (none when the document is not an
object or has no such member). -/
def Json.member (j : Json) (key : String) : Option Json :=
  match j with
  | .obj fields => memberOf fields key
  | _ => none

/-- The member names of a JSON document, in order (none for a non-object). -/
def Json.keys (j : Json) : List String :=
  match j with
  | .obj fields => fields.map (fun kv => kv.1)
  | _ => []

/-- A Go `interface{}` as far as this package looks at it: the nil interface, a
value that `json.Marshal` encodes as the document `j`, or a value that
`json.Marshal` rejects (a channel, a function, ...). -/
inductive Any where
  | nil : Any
  | val (j : Json) : Any
  | unsupported : Any

/-- The `Event` struct of hub.go (`Type_` for the field `Type`, a reserved word
here). -/
structure Event where
  Type_ : String
  Data : Any

/-- Run-time panics of the Go channel operations used by the hub. -/
inductive Panic where
  | sendOnClosedChannel : Panic
  | closeOfClosedChannel : Panic
  | closeOfNilChannel : Panic
  deriving DecidableEq, Repr

/-! ## Channels -/

/-- A buffered `chan Event`: queued events (oldest first), capacity, closed flag. -/
structure Chan where
  buf : List Event
  cap : Nat
  closed : Bool

/-- The `make(chan Event, n)` of Go. -/
def makeChan (n : Nat) : Chan := { buf := [], cap := n, closed := false }

/-- The statement `select { case ch <- ev: default: }` on one channel: a send on a
closed channel panics, a send on a channel with room enqueues, otherwise the
default branch runs and nothing happens. -/
def Chan.trySend (c : Chan) (ev : Event) : Except Panic Chan :=
  if c.closed then .error .sendOnClosedChannel
  else if c.buf.length < c.cap then .ok { c with buf := c.buf ++ [ev] }
  else .ok c

/-- The `close(ch)` of Go. -/
def Chan.close (c : Chan) : Except Panic Chan :=
  if c.closed then .error .closeOfClosedChannel
  else .ok { c with closed := true }

/-! ## sync.Map -/

/-- The `Load` of the outer `sync.Map` (user UUID to address of the inner map). -/
def syncMapLoad (m : List (String × Nat)) (key : String) : Option Nat :=
  match m with
  | [] => none
  | (k, v) :: rest => if k = key then some v else syncMapLoad rest key

/-- The `LoadOrStore` of the outer `sync.Map`: the stored value when the key is
present, otherwise `value` is stored and returned. -/
def syncMapLoadOrStore (m : List (String × Nat)) (key : String) (value : Nat) :
    Nat × List (String × Nat) :=
  match syncMapLoad m key with
  | some v => (v, m)
  | none => (value, m ++ [(key, value)])

/-- The `Store(ch, struct{}{})` of an inner `sync.Map` used as a set of channels. -/
def innerStore (keys : List Nat) (ch : Nat) : List Nat :=
  if ch ∈ keys then keys else keys ++ [ch]

/-- The `Delete(ch)` of an inner `sync.Map`. -/
def innerDelete (keys : List Nat) (ch : Nat) : List Nat :=
  keys.filter (fun k => k != ch)

/-! ## Hub -/

/-- The `Hub` of hub.go with the objects it owns.  `subscribers` is the outer
`sync.Map`; `inners` is the heap of inner `sync.Map`s (each the list of its keys,
all of dynamic type `chan Event`); `chans` is the heap of channels. -/
structure Hub where
  subscribers : List (String × Nat)
  inners : List (List Nat)
  chans : List Chan

/-- The `NewHub` of hub.go. -/
def NewHub : Hub := { subscribers := [], inners := [], chans := [] }

/-- Environment of the `unsubscribe` closure built by `Subscribe`: the captured
`inner` and `ch`. -/
structure Unsubscribe where
  inner : Nat
  ch : Nat
  deriving DecidableEq, Repr

/-- Result of `Hub.Subscribe`: the stream, the unsubscribe closure, the hub after. -/
structure Subscription where
  stream : Nat
  unsubscribe : Unsubscribe
  hub : Hub

/-- Update of the object at address `a` of a heap. -/
def heapUpdate {α : Type} (heap : List α) (a : Nat) (f : α → α) : List α :=
  match heap[a]? with
  | some x => heap.set a (f x)
  | none => heap

/-- The `Hub.Subscribe` of hub.go. -/
def Hub.Subscribe (h : Hub) (userUUID : String) : Subscription :=
  -- ch := make(chan Event, 16)
  let ch := h.chans.length
  let chans := h.chans ++ [makeChan 16]
  -- v, _ := h.subscribers.LoadOrStore(userUUID, &sync.Map{})
  let fresh := h.inners.length
  let inners := h.inners ++ [[]]
  let r := syncMapLoadOrStore h.subscribers userUUID fresh
  let inner := r.1
  -- inner.Store(ch, struct{}{})
  let inners := heapUpdate inners inner (fun keys => innerStore keys ch)
  { stream := ch
    unsubscribe := { inner := inner, ch := ch }
    hub := { subscribers := r.2, inners := inners, chans := chans } }

/-- The closure `unsubscribe` returned by `Hub.Subscribe`: `inner.Delete(ch)`, then
`close(ch)`.  An address outside the channel heap stands for the nil channel. -/
def Unsubscribe.call (f : Unsubscribe) (h : Hub) : Except Panic Hub :=
  let inners := heapUpdate h.inners f.inner (fun keys => innerDelete keys f.ch)
  match h.chans[f.ch]? with
  | none => .error .closeOfNilChannel
  | some c =>
    match c.close with
    | .error p => .error p
    | .ok c' => .ok { h with inners := inners, chans := h.chans.set f.ch c' }

/-- One call of the function passed to `inner.Range` in `Hub.Publish`. -/
def publishTo (ev : Event) (chans : List Chan) (ch : Nat) : Except Panic (List Chan) :=
  match chans[ch]? with
  | none => .ok chans
  | some c =>
    match c.trySend ev with
    | .error p => .error p
    | .ok c' => .ok (chans.set ch c')

/-- The `inner.Range(...)` of `Hub.Publish` over the keys of the inner map. -/
def publishRange (ev : Event) (chans : List Chan) (keys : List Nat) :
    Except Panic (List Chan) :=
  match keys with
  | [] => .ok chans
  | ch :: rest =>
    match publishTo ev chans ch with
    | .error p => .error p
    | .ok chans' => publishRange ev chans' rest

/-- The `Hub.Publish` of hub.go. -/
def Hub.Publish (h : Hub) (userUUID : String) (ev : Event) : Except Panic Hub :=
  match syncMapLoad h.subscribers userUUID with
  | none => .ok h
  | some inner =>
    match publishRange ev h.chans ((h.inners[inner]?).getD []) with
    | .error p => .error p
    | .ok chans => .ok { h with chans := chans }

/-- Outcome of a receive `ev, ok := <-events` by the reader of a stream. -/
inductive Recv where
  | item (ev : Event) (h : Hub) : Recv
  | closed : Recv
  | blocked : Recv

/-- The receive `ev, ok := <-events` on the channel at address `ch`. -/
def Hub.recv (h : Hub) (ch : Nat) : Recv :=
  match h.chans[ch]? with
  | none => .blocked
  | some c =>
    match c.buf with
    | ev :: rest => .item ev { h with chans := h.chans.set ch { c with buf := rest } }
    | [] => if c.closed then .closed else .blocked

/-- The queue of the channel at address `ch` (empty for an address never allocated). -/
def Hub.queue (h : Hub) (ch : Nat) : List Event :=
  match h.chans[ch]? with
  | some c => c.buf
  | none => []

/-- The channel at address `ch` has been closed. -/
def Hub.closed (h : Hub) (ch : Nat) : Bool :=
  match h.chans[ch]? with
  | some c => c.closed
  | none => false

/-- Channel `ch` is in the subscriber set of user `userUUID`. -/
def Hub.registered (h : Hub) (userUUID : String) (ch : Nat) : Prop :=
  match syncMapLoad h.subscribers userUUID with
  | some inner => ch ∈ (h.inners[inner]?).getD []
  | none => False

/-- A sequence of `Hub.Publish` calls made one after the other. -/
def Hub.publishAll (h : Hub) (calls : List (String × Event)) : Except Panic Hub :=
  match calls with
  | [] => .ok h
  | (userUUID, ev) :: rest =>
    match h.Publish userUUID ev with
    | .error p => .error p
    | .ok h' => h'.publishAll rest

/-! ## Redis bridge and publish entrypoint (pubsub.go) -/

/-- The constant `defaultRedisChannel` of pubsub.go. -/
def defaultRedisChannel : String := "go-video:notification:sse"

/-- The `redisEnvelope` struct of pubsub.go. -/
structure redisEnvelope where
  UserUUID : String
  Type_ : String
  Data : Any
  SentAt : Time

/-- The `json.Marshal(env)` of a `redisEnvelope`: one object whose members are the
struct fields in declaration order under their tag names; the tag of `Data` is
`data,omitempty`, so a nil interface there writes no member at all. -/
def redisEnvelope.marshal (env : redisEnvelope) : Except String Json :=
  match env.Data with
  | .unsupported => .error "json: unsupported type"
  | .nil =>
    .ok (.obj [("user_uuid", .str env.UserUUID), ("type", .str env.Type_),
      ("sent_at", .time env.SentAt)])
  | .val j =>
    .ok (.obj [("user_uuid", .str env.UserUUID), ("type", .str env.Type_),
      ("data", j), ("sent_at", .time env.SentAt)])

/-- The `redisPubSubBridge` struct of pubsub.go; the Redis client is outside the
program and is seen through `World` and `Process.published`. -/
structure redisPubSubBridge where
  channel : String
  deriving DecidableEq, Repr

/-- What the outside world answers during one call: the reading of `time.Now()` and
the error, if any, of `client.Publish(ctx, channel, body).Err()` (a transport
failure or the expiry of the two-second context). -/
structure World where
  now : Time
  publishErr : Option String

/-- A call recorded by the process: one made by `PublishNotification` to one of its
two targets, or the `DefaultHub().Publish` of the subscriber loop. -/
inductive Call where
  | bridgePublish (userUUID : String) (ev : Event) : Call
  | hubPublish (userUUID : String) (ev : Event) : Call
  | relayPublish (userUUID : String) (ev : Event) : Call

/-- The package-level variables of `sse` (`defaultHub`, `globalBridge`) and a record
of what the process did to the outside: the `client.Publish` calls (channel, body),
the error log lines, and the calls `PublishNotification` and the subscriber loop
made. -/
structure Process where
  defaultHub : Hub
  globalBridge : Option redisPubSubBridge
  published : List (String × Json)
  errorLog : List String
  dispatched : List Call

/-- A freshly started process: `defaultHub = NewHub()`, `globalBridge = nil`. -/
def Process.start : Process :=
  { defaultHub := NewHub, globalBridge := none, published := [], errorLog := [],
    dispatched := [] }

/-- The `InitRedisPubSub` of pubsub.go; `client` says whether the Redis client is
non-nil.  The subscriber goroutine it starts is a separate actor. -/
def InitRedisPubSub (p : Process) (client : Bool) (channel : String) : Process :=
  if !client then p
  else
    let channel := if channel = "" then defaultRedisChannel else channel
    { p with globalBridge := some { channel := channel } }

/-- The `redisPubSubBridge.publish` of pubsub.go. -/
def redisPubSubBridge.publish (b : redisPubSubBridge) (w : World) (p : Process)
    (userUUID : String) (ev : Event) : Process :=
  let env : redisEnvelope :=
    { UserUUID := userUUID, Type_ := ev.Type_, Data := ev.Data, SentAt := w.now.UTC }
  match env.marshal with
  | .error e =>
    { p with errorLog := p.errorLog ++ ["sse: encode redis envelope failed error=" ++ e] }
  | .ok body =>
    let p := { p with published := p.published ++ [(b.channel, body)] }
    match w.publishErr with
    | some e =>
      { p with errorLog := p.errorLog ++
          ["sse: publish redis message failed channel=" ++ b.channel ++ " error=" ++ e] }
    | none => p

/-- The `PublishNotification` of pubsub.go. -/
def PublishNotification (w : World) (p : Process) (userUUID : String) (ev : Event) :
    Except Panic Process :=
  if userUUID = "" ∨ ev.Type_ = "" then .ok p
  else
    match p.globalBridge with
    | some b =>
      .ok (b.publish w { p with dispatched := p.dispatched ++ [.bridgePublish userUUID ev] }
        userUUID ev)
    | none =>
      match p.defaultHub.Publish userUUID ev with
      | .error e => .error e
      | .ok h =>
        .ok { p with defaultHub := h,
                     dispatched := p.dispatched ++ [.hubPublish userUUID ev] }

/-! ## Reachable hub states -/

/-- Hub states reached from `NewHub` by calls that return, together with the
subscriptions handed out so far: the user passed to `Subscribe` and the closure it
returned (whose `ch` is the returned stream). -/
inductive Reachable : Hub → List (String × Unsubscribe) → Prop where
  | init : Reachable NewHub []
  | subscribe {h : Hub} {fs : List (String × Unsubscribe)} (userUUID : String) :
      Reachable h fs →
      Reachable (h.Subscribe userUUID).hub
        ((userUUID, (h.Subscribe userUUID).unsubscribe) :: fs)
  | publish {h h' : Hub} {fs : List (String × Unsubscribe)} (userUUID : String) (ev : Event) :
      Reachable h fs → h.Publish userUUID ev = .ok h' → Reachable h' fs
  | unsubscribe {h h' : Hub} {fs : List (String × Unsubscribe)} (userUUID : String)
      (f : Unsubscribe) :
      Reachable h fs → (userUUID, f) ∈ fs → f.call h = .ok h' → Reachable h' fs
  | recv {h h' : Hub} {fs : List (String × Unsubscribe)} (userUUID : String)
      (f : Unsubscribe) (ev : Event) :
      Reachable h fs → (userUUID, f) ∈ fs → h.recv f.ch = .item ev h' → Reachable h' fs

/-! ## Subscriber loop (pubsub.go) -/

/-- The payload of one inbound relay message, represented by what
`json.Unmarshal([]byte(msg.Payload), &env)` makes of it: an error, or the envelope
it fills in. -/
inductive Message where
  | undecodable (err : String) : Message
  | envelope (env : redisEnvelope) : Message

/-- The body of the loop `for msg := range ch` of `runSubscriber`, for one message. -/
def redisPubSubBridge.handleMessage (b : redisPubSubBridge) (p : Process)
    (msg : Message) : Except Panic Process :=
  match msg with
  | .undecodable err =>
    .ok { p with errorLog := p.errorLog ++
      ["sse: failed to decode redis message channel=" ++ b.channel ++ " error=" ++ err] }
  | .envelope env =>
    if env.UserUUID = "" ∨ env.Type_ = "" then .ok p
    else
      match p.defaultHub.Publish env.UserUUID { Type_ := env.Type_, Data := env.Data } with
      | .error e => .error e
      | .ok h =>
        .ok { p with
          defaultHub := h
          dispatched := p.dispatched ++
            [.relayPublish env.UserUUID { Type_ := env.Type_, Data := env.Data }] }

/-- The loop `for msg := range ch` of `runSubscriber` over the messages that arrive
until the channel is closed. -/
def redisPubSubBridge.handleAll (b : redisPubSubBridge) (p : Process)
    (msgs : List Message) : Except Panic Process :=
  match msgs with
  | [] => .ok p
  | msg :: rest =>
    match b.handleMessage p msg with
    | .error e => .error e
    | .ok p' => b.handleAll p' rest

/-- The `redisPubSubBridge.runSubscriber` of pubsub.go; `receiveErr` is the error, if
any, of the first `pubsub.Receive(ctx)`. -/
def redisPubSubBridge.runSubscriber (b : redisPubSubBridge) (p : Process)
    (receiveErr : Option String) (msgs : List Message) : Except Panic Process :=
  match receiveErr with
  | some e =>
    .ok { p with errorLog := p.errorLog ++
      ["sse: failed to subscribe to redis channel=" ++ b.channel ++ " error=" ++ e] }
  | none => b.handleAll p msgs

/-- A message that `json.Unmarshal` accepted. -/
def Message.decodable (msg : Message) : Bool :=
  match msg with
  | .undecodable _ => false
  | .envelope _ => true

/-- The part of a process state that the delivery of events is about: the hub, the
bridge variable, the broker publishes and the recorded calls (all but the log). -/
def Process.core (p : Process) : Hub × Option redisPubSubBridge × List (String × Json) × List Call :=
  (p.defaultHub, p.globalBridge, p.published, p.dispatched)

/-! ## Reading an envelope back (encoding/json) -/

/-- The `json.Marshal(v)` of an `interface{}`: `null` for the nil interface. -/
def Any.marshal (v : Any) : Except String Json :=
  match v with
  | .nil => .ok .null
  | .val j => .ok j
  | .unsupported => .error "json: unsupported type"

/-- The zero `time.Time`: January 1 of year 1, UTC. -/
def Time.zero : Time := { unixNano := -62135596800000000000, zoneOffset := 0 }

/-- The zero value of `redisEnvelope`, as `var env redisEnvelope` makes it. -/
def redisEnvelope.zero : redisEnvelope :=
  { UserUUID := "", Type_ := "", Data := .nil, SentAt := Time.zero }

/-- The least power of two that no float64 holds. -/
def float64Overflow : Nat := 2 ^ 1024

/-! ### Numbers (strconv) -/

/-- A non-negative rational number `num / den`. -/
structure Frac where
  num : Nat
  den : Nat

/-- The number `mant * base ^ exp` as a fraction. -/
def scaled (base : Nat) (mant : Nat) (exp : Int) : Frac :=
  if 0 ≤ exp then { num := mant * base ^ exp.toNat, den := 1 }
  else { num := mant, den := base ^ (-exp).toNat }

/-- Whether `a ≤ b`. -/
def Frac.le (a b : Frac) : Bool := decide (a.num * b.den ≤ b.num * a.den)

/-- Whether `a < b`. -/
def Frac.lt (a b : Frac) : Bool := decide (a.num * b.den < b.num * a.den)

/-- The rational number that a fraction stands for. -/
def Frac.value (a : Frac) : ℚ := (a.num : ℚ) / (a.den : ℚ)

/-- The number of halvings that bring `n` below 2, at most `fuel` of them. -/
def log2From (fuel : Nat) (n : Nat) : Nat :=
  match fuel with
  | 0 => 0
  | fuel + 1 => if n < 2 then 0 else log2From fuel (n / 2) + 1

/-- The position of the leading bit of `n`: the floor of its binary logarithm (0 for
0); `n` halvings always suffice. -/
def log2Floor (n : Nat) : Nat := log2From n n

/-- The floor of the binary logarithm of a positive fraction: the difference of the
leading bit positions, or one less. -/
def Frac.log2 (a : Frac) : Int :=
  let e : Int := (log2Floor a.num : Int) - (log2Floor a.den : Int)
  if (scaled 2 1 e).le a then e else e - 1

/-- The integer nearest to `n / d`, the even one of two equally near. -/
def roundHalfEven (n d : Nat) : Nat :=
  let q := n / d
  let r := n % d
  if d < 2 * r ∨ (2 * r = d ∧ q % 2 = 1) then q + 1 else q

/-- The magnitude `mant * 2 ^ exp` of a finite float64: `mant` below 2^53 and `exp`
from -1074 to 971, with `mant` at least 2^52 unless `exp` is -1074 (so that every
magnitude is written in one way only). -/
structure Float64 where
  mant : Nat
  exp : Int
  deriving DecidableEq, Repr

/-- The magnitudes that float64 has, each written in its one way. -/
def Float64.valid (f : Float64) : Prop :=
  f.mant < 2 ^ 53 ∧ -1074 ≤ f.exp ∧ f.exp ≤ 971 ∧ (f.mant < 2 ^ 52 → f.exp = -1074)

/-- The float64 that holds the positive integer `n` below 2^53. -/
def encodeNat (n : Nat) : Float64 :=
  { mant := n * 2 ^ (52 - log2Floor n), exp := (log2Floor n : Int) - 52 }

/-- The magnitude that `strconv.ParseFloat(s, 64)` returns for a literal of magnitude
`a`: the nearest float64, the one with even mantissa of two equally near; `none` is
the range error for a literal that rounds beyond the largest float64.  A literal
too small for any float64 is read as zero, without error. -/
def parseFloat (a : Frac) : Option Float64 :=
  if a.num = 0 then some { mant := 0, exp := -1074 }
  else
    let e := max (a.log2 - 52) (-1074)
    let unit := scaled 2 1 e
    let m := roundHalfEven (a.num * unit.den) (a.den * unit.num)
    let f : Float64 :=
      if m = 2 ^ 53 then { mant := 2 ^ 52, exp := e + 1 } else { mant := m, exp := e }
    if 971 < f.exp then none else some f

/-- The search of `strconv.FormatFloat(f, fmt, -1, 64)` for the fewest digits, from
the decimal position `x` downwards, for the float64 `f` of magnitude `a`: at each
position the value cut off there (`lo`) and the next one up are tried, and the first
that reads back as `f` is taken, the nearer to `a` when both do.  After `fuel`
positions the value is cut off where it stands. -/
def shortestFrom (f : Float64) (a : Frac) (fuel : Nat) (x : Int) : Nat × Int :=
  let unit := scaled 10 1 x
  let lo := (a.num * unit.den) / (a.den * unit.num)
  match fuel with
  | 0 => (lo, x)
  | fuel + 1 =>
    let okdown := parseFloat (scaled 10 lo x) == some f
    let okup := parseFloat (scaled 10 (lo + 1) x) == some f
    if okdown && okup then (roundHalfEven (a.num * unit.den) (a.den * unit.num), x)
    else if okdown then (lo, x)
    else if okup then (lo + 1, x)
    else shortestFrom f a fuel (x - 1)

/-- The digits `d` and the decimal exponent `x` of the shortest decimal `d * 10 ^ x`
that reads back as the non-zero float64 `f`.  The search starts at a position above
the leading digit (30103/100000 approximates the decimal logarithm of 2) and ends at
the latest at the position of the last digit of the exact expansion of `f`, which is
`f.exp` when that is negative and 0 otherwise. -/
def formatShortest (f : Float64) : Nat × Int :=
  let a := scaled 2 f.mant f.exp
  let x := (a.log2 + 1) * 30103 / 100000 + 2
  shortestFrom f a (x - min f.exp 0).toNat x

/-- The literal that `json.Marshal` writes for the float64 of sign `neg` and
magnitude `f`: the shortest digits that read back as it, in plain form for a
magnitude from 1e-6 up to 1e21 (an integer literal when there is no fraction) and
with an exponent otherwise. -/
def formatFloat (neg : Bool) (f : Float64) : Json :=
  if f.mant = 0 then .num 0
  else
    let digits := formatShortest f
    let sign : Int := if neg then -1 else 1
    if 0 ≤ digits.2 ∧ (scaled 2 f.mant f.exp).lt (scaled 10 1 21) then
      .num (sign * ((digits.1 * 10 ^ digits.2.toNat : Nat) : Int))
    else .dec (sign * (digits.1 : Int)) digits.2

/-- What `json.Marshal` writes for the float64 that `json.Unmarshal` reads from the
number literal `mant * 10 ^ exp` into an `interface{}`; `none` when the literal is
beyond the range of float64, which `json.Unmarshal` reports as an error. -/
def rereadNumber (mant : Int) (exp : Int) : Option Json :=
  match parseFloat (scaled 10 mant.natAbs exp) with
  | none => none
  | some f => some (formatFloat (decide (mant < 0)) f)

/-- The number `mant * 10 ^ exp` with up to `fuel` trailing zeros of the mantissa
moved into the exponent. -/
def stripZeros (fuel : Nat) (mant : Int) (exp : Int) : Int × Int :=
  match fuel with
  | 0 => (mant, exp)
  | fuel + 1 => if mant % 10 = 0 then stripZeros fuel (mant / 10) (exp + 1) else (mant, exp)

/-- The one way of writing the value `mant * 10 ^ exp` with a mantissa that does not
end in zero (zero itself as 0 and exponent 0). -/
def normNumber (mant : Int) (exp : Int) : Int × Int :=
  if mant = 0 then (0, 0) else stripZeros mant.natAbs mant exp

/-- The value of a number literal, written in that one way; none for a document that
is not a number. -/
def numberValue (j : Json) : Option (Int × Int) :=
  match j with
  | .num n => some (normNumber n 0)
  | .dec mant exp => some (normNumber mant exp)
  | _ => none

/-- Whether float64 reproduces the number `mant * 10 ^ exp`: it is within range and
what `json.Marshal` writes for the float64 read from it has the same value. -/
def exactNumber (mant : Int) (exp : Int) : Bool :=
  match rereadNumber mant exp with
  | none => false
  | some r => numberValue r == some (normNumber mant exp)

/-! ### Objects -/

/-- The order of strings by their characters, which is the order of their UTF-8
bytes, by which `json.Marshal` sorts the keys of a map. -/
def charsLess (a b : List Char) : Bool :=
  match a, b with
  | _, [] => false
  | [], _ :: _ => true
  | x :: xs, y :: ys =>
    if x.toNat < y.toNat then true
    else if x.toNat = y.toNat then charsLess xs ys
    else false

/-- Whether key `a` comes before key `b`. -/
def keyLess (a b : String) : Bool := charsLess a.toList b.toList

/-- A member put into members sorted by key, unless the key is there already. -/
def insertMember {α : Type} (key : String) (value : α) (members : List (String × α)) :
    List (String × α) :=
  match members with
  | [] => [(key, value)]
  | (k, v) :: rest =>
    if key = k then (k, v) :: rest
    else if keyLess key k then (key, value) :: (k, v) :: rest
    else (k, v) :: insertMember key value rest

/-- The members of the map that `json.Unmarshal` builds from the members of an
object, the last of a repeated key winning, in the order in which `json.Marshal`
writes a map: sorted by key. -/
def sortMembers {α : Type} (members : List (String × α)) : List (String × α) :=
  match members with
  | [] => []
  | (k, v) :: rest => insertMember k v (sortMembers rest)

/-- Member names in strictly increasing order. -/
def sortedMembers {α : Type} (members : List (String × α)) : Prop :=
  members.Pairwise (fun a b => keyLess a.1 b.1 = true)

/-- The members with each value replaced by its image. -/
def mapValues {α β : Type} (g : α → β) (members : List (String × α)) : List (String × β) :=
  members.map (fun kv => (kv.1, g kv.2))

/-! ### Documents -/

mutual
/-- What `json.Marshal` writes for the `interface{}` that `json.Unmarshal` read from
the document: numbers pass through float64, objects through `map[string]interface{}`;
`none` when a number in the document is beyond the range of float64, for which
`json.Unmarshal` returns an error. -/
def Json.reread : Json → Option Json
  | .num n => rereadNumber n 0
  | .dec mant exp => rereadNumber mant exp
  | .arr elems =>
    match rereadAll elems with
    | none => none
    | some elems' => some (.arr elems')
  | .obj fields =>
    match rereadMembers fields with
    | none => none
    | some fields' => some (.obj (sortMembers fields'))
  | j => some j
/-- The elements of an array, reread. -/
def rereadAll : List Json → Option (List Json)
  | [] => some []
  | j :: rest =>
    match j.reread, rereadAll rest with
    | some j', some rest' => some (j' :: rest')
    | _, _ => none
/-- The members of an object with their values reread. -/
def rereadMembers : List (String × Json) → Option (List (String × Json))
  | [] => some []
  | (k, j) :: rest =>
    match j.reread, rereadMembers rest with
    | some j', some rest' => some ((k, j') :: rest')
    | _, _ => none
end

mutual
/-- The JSON value of a document in normal form: numbers with a mantissa that does
not end in zero, the members of objects sorted by key with the last of a repeated
key winning.  Two documents are the same JSON value when their normal forms are
equal. -/
def Json.norm : Json → Json
  | .num n => .dec (normNumber n 0).1 (normNumber n 0).2
  | .dec mant exp => .dec (normNumber mant exp).1 (normNumber mant exp).2
  | .arr elems => .arr (normAll elems)
  | .obj fields => .obj (sortMembers (normMembers fields))
  | j => j
/-- The elements of an array in normal form. -/
def normAll : List Json → List Json
  | [] => []
  | j :: rest => j.norm :: normAll rest
/-- The members of an object with their values in normal form. -/
def normMembers : List (String × Json) → List (String × Json)
  | [] => []
  | (k, j) :: rest => (k, j.norm) :: normMembers rest
end

mutual
/-- Whether float64 reproduces every number in the document. -/
def Json.exact : Json → Bool
  | .num n => exactNumber n 0
  | .dec mant exp => exactNumber mant exp
  | .arr elems => exactAll elems
  | .obj fields => exactMembers fields
  | _ => true
/-- Whether float64 reproduces every number in the elements. -/
def exactAll : List Json → Bool
  | [] => true
  | j :: rest => j.exact && exactAll rest
/-- Whether float64 reproduces every number in the member values. -/
def exactMembers : List (String × Json) → Bool
  | [] => true
  | (_, j) :: rest => j.exact && exactMembers rest
end

mutual
/-- The nesting depth of a document: the greatest number of arrays and objects that
are open at once while it is read. -/
def Json.depth : Json → Nat
  | .arr elems => depthAll elems + 1
  | .obj fields => depthMembers fields + 1
  | _ => 0
/-- The greatest nesting depth among the elements. -/
def depthAll : List Json → Nat
  | [] => 0
  | j :: rest => max j.depth (depthAll rest)
/-- The greatest nesting depth among the member values. -/
def depthMembers : List (String × Json) → Nat
  | [] => 0
  | (_, j) :: rest => max j.depth (depthMembers rest)
end

/-- The constant `maxNestingDepth` of encoding/json: `json.Unmarshal` rejects a
document that opens more arrays and objects at once. -/
def maxNestingDepth : Nat := 10000

/-- What `json.Unmarshal` does with one member value and the field it is bound to:
it assigns the field, leaves it alone (JSON `null` on a string or time field),
records an error and goes on (a value the field cannot take), or does something
that lies outside the fragment of encoding/json modelled here (the text of a
timestamp). -/
inductive Read (α : Type) where
  | assign (a : α) : Read α
  | keep : Read α
  | mismatch : Read α
  | unmodelled : Read α

/-- Reading a member value into a `string` field.  A timestamp string is a string;
its text is not computed here. -/
def readString (j : Json) : Read String :=
  match j with
  | .str s => .assign s
  | .null => .keep
  | .time _ => .unmodelled
  | _ => .mismatch

/-- Reading a member value into a `time.Time` field.  Whether an arbitrary string
parses as RFC 3339 is not computed here. -/
def readTime (j : Json) : Read Time :=
  match j with
  | .time t => .assign t
  | .null => .keep
  | .str _ => .unmodelled
  | _ => .mismatch

/-- The `interface{}` that holds the generic value written as the document `r`: the
nil interface for `null`. -/
def Any.ofJson (r : Json) : Any :=
  match r with
  | .null => .nil
  | r => .val r

/-- Reading a member value into an `interface{}` field: a number beyond the range of
float64 anywhere in the value is an error, and any other value is held as the
generic value read from it (nil for `null`), represented by the document that
`json.Marshal` writes for that value. -/
def readAny (j : Json) : Read Any :=
  match j.reread with
  | none => .mismatch
  | some r => .assign (Any.ofJson r)

/-- The data that `json.Unmarshal` reads into the envelope from what `json.Marshal`
wrote for the envelope with data `v` (nil for nil data, whose member is omitted, and
for `null`); `none` when nothing is written or the reading fails: the data, inside
the envelope object, are nested deeper than `maxNestingDepth`, or hold a number
beyond the range of float64. -/
def Any.reread (v : Any) : Option Any :=
  match v with
  | .nil => some .nil
  | .val j =>
    if maxNestingDepth ≤ j.depth then none
    else
      match j.reread with
      | none => none
      | some r => some (Any.ofJson r)
  | .unsupported => none

/-- Whether the data is serialisable and float64 reproduces every number in it. -/
def Any.exact (v : Any) : Bool :=
  match v with
  | .nil => true
  | .val j => j.exact
  | .unsupported => false

/-- An envelope being filled in, and whether an error has been recorded. -/
structure Decoding where
  env : redisEnvelope
  failed : Bool

/-- One member of the object being decoded into a `redisEnvelope`.  Only the four
tag names are in the fragment (any other name would need the case-folding match
of encoding/json). -/
def Decoding.member (d : Decoding) (key : String) (value : Json) : Option Decoding :=
  if key = "user_uuid" then
    match readString value with
    | .assign s => some { d with env := { d.env with UserUUID := s } }
    | .keep => some d
    | .mismatch => some { d with failed := true }
    | .unmodelled => none
  else if key = "type" then
    match readString value with
    | .assign s => some { d with env := { d.env with Type_ := s } }
    | .keep => some d
    | .mismatch => some { d with failed := true }
    | .unmodelled => none
  else if key = "data" then
    match readAny value with
    | .assign v => some { d with env := { d.env with Data := v } }
    | .keep => some d
    | .mismatch => some { d with failed := true }
    | .unmodelled => none
  else if key = "sent_at" then
    match readTime value with
    | .assign t => some { d with env := { d.env with SentAt := t } }
    | .keep => some d
    | .mismatch => some { d with failed := true }
    | .unmodelled => none
  else none

/-- The members of an object, in order (a later member overrides an earlier one). -/
def Decoding.members (d : Decoding) (fields : List (String × Json)) : Option Decoding :=
  match fields with
  | [] => some d
  | (key, value) :: rest =>
    match d.member key value with
    | none => none
    | some d' => d'.members rest

/-- What `json.Unmarshal(bytes, &env)` makes of the bytes of the document `j`, for a
fresh `env`, on the fragment of encoding/json modelled here; `none` outside it.  The
document is first checked as a whole, which fails when it is nested too deep. -/
def redisEnvelope.unmarshal (j : Json) : Option Message :=
  if maxNestingDepth < j.depth then some (.undecodable "exceeded max depth")
  else
    match j with
    | .null => some (.envelope redisEnvelope.zero)
    | .obj fields =>
      match Decoding.members { env := redisEnvelope.zero, failed := false } fields with
      | none => none
      | some d =>
        if d.failed then some (.undecodable "json: cannot unmarshal value into Go struct field")
        else some (.envelope d.env)
    | _ =>
      some (.undecodable "json: cannot unmarshal value into Go value of type sse.redisEnvelope")

/-! ## Sequences of hub operations -/

/-- One call on the hub: `Subscribe`, `Publish`, or the call of an unsubscribe
closure. -/
inductive Op where
  | subscribe (userUUID : String) : Op
  | publish (userUUID : String) (ev : Event) : Op
  | unsubscribe (f : Unsubscribe) : Op

/-- The effect of one call on the hub. -/
def Hub.apply (h : Hub) (op : Op) : Except Panic Hub :=
  match op with
  | .subscribe userUUID => .ok (h.Subscribe userUUID).hub
  | .publish userUUID ev => h.Publish userUUID ev
  | .unsubscribe f => f.call h

/-- A sequence of calls on the hub, one after the other. -/
def Hub.applyAll (h : Hub) (ops : List Op) : Except Panic Hub :=
  match ops with
  | [] => .ok h
  | op :: rest =>
    match h.apply op with
    | .error p => .error p
    | .ok h' => h'.applyAll rest

/-- The user IDs that have an entry in the registry. -/
def Hub.users (h : Hub) : List String := h.subscribers.map (fun e => e.1)

/-- What happens to one stream: a `Publish(userUUID, ev)` for its user, or a receive
by its reader. -/
inductive StreamOp where
  | publish (ev : Event) : StreamOp
  | receive : StreamOp

/-- A run of publishes and receives on one stream: the hub, the events received so
far, and the events whose `Publish` made the queue grow (the send case of the
select was taken). -/
structure FifoRun where
  hub : Hub
  received : List Event
  enqueued : List Event

/-- One step of such a run on the stream `ch` of user `userUUID`.  A receive on an
empty queue finds nothing and leaves the run as it is. -/
def FifoRun.step (userUUID : String) (ch : Nat) (r : FifoRun) (op : StreamOp) :
    Except Panic FifoRun :=
  match op with
  | .publish ev =>
    match r.hub.Publish userUUID ev with
    | .error p => .error p
    | .ok h' =>
      .ok { hub := h', received := r.received,
            enqueued := if (r.hub.queue ch).length < (h'.queue ch).length
              then r.enqueued ++ [ev] else r.enqueued }
  | .receive =>
    match r.hub.recv ch with
    | .item ev h' => .ok { hub := h', received := r.received ++ [ev], enqueued := r.enqueued }
    | _ => .ok r

/-- A sequence of publishes and receives on one stream. -/
def FifoRun.run (userUUID : String) (ch : Nat) (r : FifoRun) (ops : List StreamOp) :
    Except Panic FifoRun :=
  match ops with
  | [] => .ok r
  | op :: rest =>
    match r.step userUUID ch op with
    | .error p => .error p
    | .ok r' => r'.run userUUID ch rest

/-- The events of the publishes of a sequence, in order. -/
def publishedEvents (ops : List StreamOp) : List Event :=
  match ops with
  | [] => []
  | .publish ev :: rest => ev :: publishedEvents rest
  | .receive :: rest => publishedEvents rest

/-- The drop-on-full policy in the words of the specification: with `n` events
queued, a published event is accepted when `n < 16` and dropped otherwise, and a
receive takes one queued event away. -/
def acceptedEvents (n : Nat) (ops : List StreamOp) : List Event :=
  match ops with
  | [] => []
  | .publish ev :: rest =>
    if n < 16 then ev :: acceptedEvents (n + 1) rest else acceptedEvents n rest
  | .receive :: rest => acceptedEvents (n - 1) rest

/-! ## Publish and unsubscribe, step by step -/

/-- Where a running `Hub.Publish(userUUID, ev)` stands: before the `Load`; inside
`inner.Range` between two calls of the function, with the keys visited so far; in
the function called with key `ch`, before its select; returned. -/
inductive Publishing where
  | loading : Publishing
  | ranging (inner : Nat) (visited : List Nat) : Publishing
  | sending (inner : Nat) (visited : List Nat) (ch : Nat) : Publishing
  | returned : Publishing

/-- Where a running unsubscribe closure stands: before `inner.Delete(ch)`, before
`close(ch)`, returned. -/
inductive Unsubscribing where
  | deleting : Unsubscribing
  | closing : Unsubscribing
  | returned : Unsubscribing

/-- One goroutine in `Hub.Publish` and one in an unsubscribe closure, on one hub. -/
structure Race where
  hub : Hub
  publisher : Publishing
  unsubscriber : Unsubscribing

/-- Which of the two goroutines takes the next step. -/
inductive Turn where
  | publisher : Turn
  | unsubscriber : Turn

/-- One atomic step (one `sync.Map` or channel operation) of the goroutine whose turn
it is; a goroutine that has returned does nothing.  `Range` is taken to visit, at
each call, the first key of the inner map that it has not visited yet. -/
def Race.step (userUUID : String) (ev : Event) (f : Unsubscribe) (r : Race) (t : Turn) :
    Except Panic Race :=
  match t with
  | .publisher =>
    match r.publisher with
    | .loading =>
      match syncMapLoad r.hub.subscribers userUUID with
      | none => .ok { r with publisher := .returned }
      | some inner => .ok { r with publisher := .ranging inner [] }
    | .ranging inner visited =>
      match ((r.hub.inners[inner]?).getD []).find? (fun k => !visited.contains k) with
      | none => .ok { r with publisher := .returned }
      | some ch => .ok { r with publisher := .sending inner (visited ++ [ch]) ch }
    | .sending inner visited ch =>
      match publishTo ev r.hub.chans ch with
      | .error p => .error p
      | .ok chans =>
        .ok { r with hub := { r.hub with chans := chans }, publisher := .ranging inner visited }
    | .returned => .ok r
  | .unsubscriber =>
    match r.unsubscriber with
    | .deleting =>
      .ok { r with
        hub := { r.hub with
          inners := heapUpdate r.hub.inners f.inner (fun keys => innerDelete keys f.ch) }
        unsubscriber := .closing }
    | .closing =>
      match r.hub.chans[f.ch]? with
      | none => .error .closeOfNilChannel
      | some c =>
        match c.close with
        | .error p => .error p
        | .ok c' =>
          .ok { r with
            hub := { r.hub with chans := r.hub.chans.set f.ch c' }
            unsubscriber := .returned }
    | .returned => .ok r

/-- The steps of a schedule, one after the other. -/
def Race.run (userUUID : String) (ev : Event) (f : Unsubscribe) (r : Race)
    (schedule : List Turn) : Except Panic Race :=
  match schedule with
  | [] => .ok r
  | t :: rest =>
    match r.step userUUID ev f t with
    | .error p => .error p
    | .ok r' => r'.run userUUID ev f rest

/-! ## Sample inputs -/

/-- The event of the concrete scenario: `notification.created` with
`{"unread_count": 3}`. -/
def sampleEvent : Event :=
  { Type_ := "notification.created", Data := .val (.obj [("unread_count", .num 3)]) }

/-- The hub after `Subscribe("u1")` on a new hub: channel 0 under `u1`. -/
def hubOne : Hub := (NewHub.Subscribe "u1").hub

/-- The closure returned by that first `Subscribe("u1")`. -/
def unsubOne : Unsubscribe := (NewHub.Subscribe "u1").unsubscribe

/-- The hub `hubOne` after sixteen `Publish("u1", sampleEvent)`: channel 0 is full. -/
def hubFull : Hub :=
  { subscribers := [("u1", 0)], inners := [[0]],
    chans := [{ buf := List.replicate 16 sampleEvent, cap := 16, closed := false }] }

/-- The hub `hubOne` after its subscriber has unsubscribed: `u1` keeps an empty set
and channel 0 is closed. -/
def hubGone : Hub :=
  { subscribers := [("u1", 0)], inners := [[]],
    chans := [{ buf := [], cap := 16, closed := true }] }

/-- The hub `hubOne` after a second `Subscribe("u1")`: channels 0 and 1 under `u1`. -/
def hubTwo : Hub := (hubOne.Subscribe "u1").hub

/-- The closure returned by that second `Subscribe("u1")`. -/
def unsubTwo : Unsubscribe := (hubOne.Subscribe "u1").unsubscribe

/-- The hub `hubOne` after `Subscribe("u2")`: channel 0 under `u1`, channel 1 under
`u2`. -/
def hubBoth : Hub := (hubOne.Subscribe "u2").hub

/-- The closure returned by that `Subscribe("u2")`. -/
def unsubOther : Unsubscribe := (hubOne.Subscribe "u2").unsubscribe

/-- The event the benchmarks of hub_bench_test.go publish: `Event{Type: "bench"}`,
whose `Data` is the nil interface. -/
def benchEvent : Event := { Type_ := "bench", Data := .nil }

/-- A clock reading in a zone eight hours east of UTC, and a broker that accepts. -/
def sampleWorld : World :=
  { now := { unixNano := 1700000000000000000, zoneOffset := 28800 }, publishErr := none }

/-- The bridge that `InitRedisPubSub(client, "")` installs. -/
def sampleBridge : redisPubSubBridge := { channel := defaultRedisChannel }

/-- What `sampleBridge` publishes for `"user-1"` and `benchEvent` at the clock of
`sampleWorld`. -/
def benchBody : Json :=
  .obj [("user_uuid", .str "user-1"), ("type", .str "bench"),
    ("sent_at", .time { unixNano := 1700000000000000000, zoneOffset := 0 })]

/-- A process without bridge whose hub has had `Subscribe("u1")`. -/
def procLocal : Process := { Process.start with defaultHub := hubOne }

/-- The process `procLocal` after `InitRedisPubSub(client, "")` with a client. -/
def procBridged : Process := InitRedisPubSub procLocal true ""

/-- The hub `hubOne` after `Publish("u1", sampleEvent)`, the unsubscribe of its only
subscriber and `Subscribe("u2")`: `u1` keeps its entry with an empty set. -/
def hubChurned : Hub :=
  { subscribers := [("u1", 0), ("u2", 1)], inners := [[], [1]],
    chans := [{ buf := [sampleEvent], cap := 16, closed := true }, makeChan 16] }

/-- The envelope that `json.Unmarshal` fills in from the relay message of
`sampleEvent` for `u1`. -/
def sampleEnvelope : redisEnvelope :=
  { UserUUID := "u1", Type_ := sampleEvent.Type_, Data := sampleEvent.Data,
    SentAt := sampleWorld.now.UTC }

/-- An event whose data is the integer 2^1024 (a `*big.Int`, say), which
`json.Marshal` writes in full and no float64 holds. -/
def hugeEvent : Event :=
  { Type_ := "notification.created", Data := .val (.num (float64Overflow : Nat)) }

/-- An event whose data is the integer 2^53 + 1 (an `int64` identifier, say), which
lies between two float64. -/
def preciseEvent : Event :=
  { Type_ := "notification.created", Data := .val (.num 9007199254740993) }

/-- The empty array inside `n` arrays of one element each: `[[...[]...]]`. -/
def nestedArrays (n : Nat) : Json :=
  match n with
  | 0 => .arr []
  | n + 1 => .arr [nestedArrays n]

/-- An event whose data is 10000 arrays one inside the other (a `[]interface{}`
holding a `[]interface{}` and so on), which `json.Marshal` writes and which holds no
number at all. -/
def deepEvent : Event :=
  { Type_ := "notification.created", Data := .val (nestedArrays 9999) }

/-- An event whose data is an object as a struct or a map gives it: members in no
particular order, an integer, numbers with a fraction, an array, a nested object. -/
def richEvent : Event :=
  { Type_ := "notification.created"
    Data := .val (.obj [("title", .str "hi"), ("unread_count", .num 3),
      ("ratio", .dec 15 (-1)),
      ("tags", .arr [.str "a", .dec 1 (-1), .null, .bool true]),
      ("nested", .obj [("b", .num (-7)), ("a", .dec 25 (-2))])]) }

/-- The data of `richEvent` as the receiving side holds it. -/
def richReread : Json :=
  .obj [("nested", .obj [("a", .dec 25 (-2)), ("b", .num (-7))]),
    ("ratio", .dec 15 (-1)),
    ("tags", .arr [.str "a", .dec 1 (-1), .null, .bool true]),
    ("title", .str "hi"), ("unread_count", .num 3)]

/-- What the send of `Chan.trySend` leaves of an open channel: the event is queued
when there is room and the channel is unchanged when it is full. -/
def Chan.offer (c : Chan) (ev : Event) : Chan :=
  if c.buf.length < c.cap then { c with buf := c.buf ++ [ev] } else c

/-- The consistency of a hub state with the closures handed out: what every
reachable state satisfies. -/
structure Inv (h : Hub) (fs : List (String × Unsubscribe)) : Prop where
  inner_lt : ∀ (u : String) (i : Nat), syncMapLoad h.subscribers u = some i → i < h.inners.length
  inner_inj : ∀ (u v : String) (i : Nat), syncMapLoad h.subscribers u = some i →
    syncMapLoad h.subscribers v = some i → u = v
  key_open : ∀ (i k : Nat), k ∈ (h.inners[i]?).getD [] →
    ∃ c : Chan, h.chans[k]? = some c ∧ c.closed = false
  key_unique : ∀ (i j k : Nat), k ∈ (h.inners[i]?).getD [] → k ∈ (h.inners[j]?).getD [] → i = j
  key_nodup : ∀ i : Nat, ((h.inners[i]?).getD []).Nodup
  chan_cap : ∀ (k : Nat) (c : Chan), h.chans[k]? = some c → c.cap = 16 ∧ c.buf.length ≤ 16
  handle : ∀ (u : String) (f : Unsubscribe), (u, f) ∈ fs →
    syncMapLoad h.subscribers u = some f.inner ∧
    ∃ c : Chan, h.chans[f.ch]? = some c ∧
      (c.closed = false → f.ch ∈ (h.inners[f.inner]?).getD [])
  issued : ∀ (i k : Nat), k ∈ (h.inners[i]?).getD [] →
    ∃ u : String, syncMapLoad h.subscribers u = some i ∧ (u, Unsubscribe.mk i k) ∈ fs

end sse

/-! # Request objects (ddd/application/cqe) -/

namespace cqe

/-- The `CreateNotificationReq` struct of notification_cqe.go. -/
structure CreateNotificationReq where
  UserUUID : String
  Type_ : String
  Title : String
  Content : String
  ExtraJSON : String

/-- The `CreateNotificationReq.Validate` of notification_cqe.go; the receiver is a
pointer, `none` being nil. -/
def CreateNotificationReq.Validate (r : Option CreateNotificationReq) : Bool :=
  match r with
  | none => false
  | some r => r.UserUUID != "" && r.Type_ != "" && r.Title != "" && r.Content != ""

/-- The value of a Go `int` expression whose exact value is `x`, on a 64-bit
platform: `x` wrapped around into the range from -2^63 to 2^63 - 1. -/
def wrapInt (x : Int) : Int := (x + 2 ^ 63) % 2 ^ 64 - 2 ^ 63

/-- The values that a Go `int` takes on a 64-bit platform. -/
def isInt (x : Int) : Prop := -(2 ^ 63) ≤ x ∧ x < 2 ^ 63

/-- The `ListNotificationsReq` struct of notification_cqe.go. -/
structure ListNotificationsReq where
  Page : Int
  PageSize : Int

/-- The `ListNotificationsReq.Normalize` of notification_cqe.go (the request after
the call). -/
def ListNotificationsReq.Normalize (r : ListNotificationsReq) : ListNotificationsReq :=
  let r := if r.Page ≤ 0 then { r with Page := 1 } else r
  if r.PageSize ≤ 0 ∨ r.PageSize > 100 then { r with PageSize := 20 } else r

end cqe

/-! # The list use case (ddd/application/app) -/

namespace app

/-- The start of `notificationAppImpl.ListNotifications`, up to the call
`a.repo.ListByUser(ctx, userUUID, offset, req.PageSize)`: the error
`errno.ErrUnauthorized` (`none`), or the offset and the limit passed to the
repository. -/
def ListNotifications (userUUID : String) (req : cqe.ListNotificationsReq) :
    Option (Int × Int) :=
  if userUUID = "" then none
  else
    let req := req.Normalize
    let offset := cqe.wrapInt (cqe.wrapInt (req.Page - 1) * req.PageSize)
    some (offset, req.PageSize)

/-- A request with a page and a page size out of range. -/
def sloppyPage : cqe.ListNotificationsReq := { Page := 0, PageSize := 500 }

/-- A request for a page beyond 2^62 with two entries per page. -/
def farPage : cqe.ListNotificationsReq := { Page := 2 ^ 62 + 1, PageSize := 2 }

end app

/-! # Assertions (pkg/assert) -/

namespace assert

/-- The `frames.Next()` of `runtime.CallersFrames`: the next frame's function name,
whether a further call will return a valid frame, and the frames left; the zero
frame when all frames have been returned. -/
def framesNext (frames : List String) : String × Bool × List String :=
  match frames with
  | [] => ("", false, [])
  | f :: rest => (f, !rest.isEmpty, rest)

/-- The loop `for more { ... }` of `NotCircular`; an error is the panic value. -/
def notCircularLoop (current : String) (more : Bool) (frames : List String) :
    Except String Unit :=
  match more, frames with
  | false, _ => .ok ()
  | true, [] =>
    -- next is the zero frame, more becomes false
    if current = "" then .error "found circular dependency" else .ok ()
  | true, next :: rest =>
    if current = next then .error "found circular dependency"
    else notCircularLoop current (!rest.isEmpty) rest

/-- The `NotCircular` of assert.go.  `stack` holds the function names of the frames
of the calling goroutine from the caller of `NotCircular` outwards; `runtime.Callers`
fills at most the 100 entries of `pc`, each taken as one frame. -/
def NotCircular (stack : List String) : Except String Unit :=
  let frames := stack.take 100
  let first := framesNext frames
  notCircularLoop first.1 first.2.1 first.2.2

/-- Two adjacent frames of the stack have the same function name. -/
def adjacentRepeat (stack : List String) : Bool :=
  match stack with
  | [] => false
  | [_] => false
  | a :: b :: rest => a == b || adjacentRepeat (b :: rest)

/-- A stack in which `main.build` calls itself once and then `main.initHub`, the
caller of `NotCircular`. -/
def recursiveStack : List String := ["main.initHub", "main.build", "main.build", "main.main"]

end assert

/-! # The stream handler (ddd/adapter/http) -/

namespace http

open sse

/-- What `Stream` reads of the request: the header `X-User-UUID`, the query
parameter `user_uuid` (empty when absent), and whether the response writer is an
`http.Flusher`. -/
structure Request where
  headerUserUUID : String
  queryUserUUID : String
  flusher : Bool

/-- The `extractUserUUID` of notification_controller.go; `none` is the error
`errno.ErrParameterInvalid`. -/
def extractUserUUID (req : Request) : Option String :=
  let userUUID := req.headerUserUUID
  let userUUID := if userUUID = "" then req.queryUserUUID else userUUID
  if userUUID = "" then none else some userUUID

/-- The argument of one `w.Write`: literal text, or the bytes that `json.Marshal`
returned for a document. -/
inductive Chunk where
  | text (s : String) : Chunk
  | json (j : Json) : Chunk

/-- What comes next while `Stream` is in its loop: a case of the select is ready
(`notify`, `heartbeat` together with whether the ping write fails, `events`
together with the position, if any, of the first `Write` of the round that fails),
or, meanwhile, another goroutine calls `DefaultHub().Publish`. -/
inductive Ready where
  | notify : Ready
  | heartbeat (writeErr : Bool) : Ready
  | events (failingWrite : Option Nat) : Ready
  | published (userUUID : String) (ev : Event) : Ready

/-- Why `Stream` returned. -/
inductive Exit where
  | badRequest : Exit
  | noFlusher : Exit
  | cancelled : Exit
  | heartbeatWriteFailed : Exit
  | eventWriteFailed : Exit
  | streamClosed : Exit
  deriving DecidableEq, Repr

/-- The hub and the response: the successful writes, in order, and the number of
flushes. -/
structure Conn where
  hub : Hub
  writes : List Chunk
  flushes : Nat

/-- A successful `w.Write`. -/
def Conn.write (c : Conn) (chunk : Chunk) : Conn := { c with writes := c.writes ++ [chunk] }

/-- A `flusher.Flush()`. -/
def Conn.flush (c : Conn) : Conn := { c with flushes := c.flushes + 1 }

/-- The case `ev, ok := <-events` of the select for a received event: the exit
reason, if the round ends the handler. -/
def onEvent (c : Conn) (ev : Event) (failingWrite : Option Nat) : Conn × Option Exit :=
  match ev.Data.marshal with
  | .error _ => (c, none)
  | .ok data =>
    if failingWrite = some 0 then (c, some .eventWriteFailed)
    else
      let c := c.write (.text ("event: " ++ ev.Type_ ++ "\n"))
      if failingWrite = some 1 then (c, some .eventWriteFailed)
      else
        let c := c.write (.text "data: ")
        if failingWrite = some 2 then (c, some .eventWriteFailed)
        else
          let c := c.write (.json data)
          if failingWrite = some 3 then (c, some .eventWriteFailed)
          else
            let c := c.write (.text "\n\n")
            (c.flush, none)

/-- How the loop of `Stream` stands at the end of a script: it has returned, or it
is waiting in its select. -/
inductive Loop where
  | exit (reason : Exit) : Loop
  | waiting : Loop

/-- The loop `for { select { ... } }` of `Stream` on the stream `events`.  An
`events` entry while the queue is empty and open is a case that is not ready. -/
def streamLoop (events : Nat) (c : Conn) (script : List Ready) : Conn × Loop :=
  match script with
  | [] => (c, .waiting)
  | .notify :: _ => (c, .exit .cancelled)
  | .heartbeat writeErr :: rest =>
    if writeErr then (c, .exit .heartbeatWriteFailed)
    else streamLoop events (c.write (.text ": ping\n\n")).flush rest
  | .events failingWrite :: rest =>
    match c.hub.recv events with
    | .blocked => streamLoop events c rest
    | .closed => (c, .exit .streamClosed)
    | .item ev h' =>
      match onEvent { c with hub := h' } ev failingWrite with
      | (c', some reason) => (c', .exit reason)
      | (c', none) => streamLoop events c' rest
  | .published userUUID ev :: rest =>
    match c.hub.Publish userUUID ev with
    | .ok h' => streamLoop events { c with hub := h' } rest
    | .error _ => streamLoop events c rest

/-- A call that `Stream` makes on the hub. -/
inductive HubCall where
  | subscribe (userUUID : String) : HubCall
  | unsubscribe (f : Unsubscribe) : HubCall

/-- How an execution of `Stream` stands at the end of a script. -/
inductive Outcome where
  | waiting : Outcome
  | returned (reason : Exit) : Outcome
  | panicked (p : Panic) : Outcome

/-- An execution of `Stream`: the hub and the response, the HTTP status of an error
response, the calls made on the hub in order, and the outcome. -/
structure Served where
  conn : Conn
  status : Option Nat
  calls : List HubCall
  outcome : Outcome

/-- The part of `Stream` from `defer unsubscribe()` on, for the subscription `sub`
that `Subscribe(userUUID)` returned: the first write, the loop, and on return the
deferred calls, last in first out (`heartbeat.Stop()`, then `unsubscribe()`).
`okWriteErr` says whether the first write (`": ok"`) fails. -/
def streamSubscribed (userUUID : String) (sub : Subscription) (okWriteErr : Bool)
    (script : List Ready) : Served :=
  let c : Conn := { hub := sub.hub, writes := [], flushes := 0 }
  let c := if okWriteErr then c else (c.write (.text ": ok\n\n")).flush
  match streamLoop sub.stream c script with
  | (c, .waiting) =>
    { conn := c, status := none, calls := [.subscribe userUUID], outcome := .waiting }
  | (c, .exit reason) =>
    match sub.unsubscribe.call c.hub with
    | .ok h' =>
      { conn := { c with hub := h' }, status := none,
        calls := [.subscribe userUUID, .unsubscribe sub.unsubscribe],
        outcome := .returned reason }
    | .error p =>
      { conn := c, status := none,
        calls := [.subscribe userUUID, .unsubscribe sub.unsubscribe],
        outcome := .panicked p }

/-- The `notificationControllerImpl.Stream` of notification_controller.go. -/
def Stream (req : Request) (hub : Hub) (okWriteErr : Bool) (script : List Ready) : Served :=
  match extractUserUUID req with
  | none =>
    { conn := { hub := hub, writes := [], flushes := 0 }, status := some 400, calls := [],
      outcome := .returned .badRequest }
  | some userUUID =>
    if !req.flusher then
      { conn := { hub := hub, writes := [], flushes := 0 }, status := some 500, calls := [],
        outcome := .returned .noFlusher }
    else
      -- events, unsubscribe := sse.DefaultHub().Subscribe(userUUID); defer unsubscribe()
      streamSubscribed userUUID (hub.Subscribe userUUID) okWriteErr script

/-- A request of user `u1` on a writer that can flush. -/
def sampleRequest : Request := { headerUserUUID := "u1", queryUserUUID := "", flusher := true }

/-- A script for `Stream`: another goroutine publishes to `u1`, the event is taken
and written, then the request is cancelled. -/
def sampleScript : List Ready := [.published "u1" sampleEvent, .events none, .notify]

/-- A connection of the stream writer on `hubFull`, after the first write. -/
def sampleConn : Conn := { hub := hubFull, writes := [.text ": ok\n\n"], flushes := 1 }

/-- The hub `hubFull` after one receive on channel 0. -/
def hubFullTaken : Hub :=
  { subscribers := [("u1", 0)], inners := [[0]],
    chans := [{ buf := List.replicate 15 sampleEvent, cap := 16, closed := false }] }

/-- One unit of the response body as far as lines go: a character of a written
text, or the bytes that `json.Marshal` returned for a document, which hold no line
feed (it writes no white space between tokens and escapes the control characters
inside strings). -/
inductive Piece where
  | char (c : Char) : Piece
  | json (j : Json) : Piece

/-- The units of one written chunk. -/
def Chunk.pieces (chunk : Chunk) : List Piece :=
  match chunk with
  | .text s => s.toList.map .char
  | .json j => [.json j]

/-- Whether a unit is the line feed. -/
def Piece.isLineFeed (p : Piece) : Bool :=
  match p with
  | .char c => c == '\n'
  | .json _ => false

/-- The lines of a byte sequence read after the unfinished line `cur`: the lines
ended by a line feed, in order, and what follows the last line feed. -/
def splitLines (ps : List Piece) (cur : List Piece) : List (List Piece) × List Piece :=
  match ps with
  | [] => ([], cur)
  | p :: rest =>
    if p.isLineFeed then (cur :: (splitLines rest []).1, (splitLines rest []).2)
    else splitLines rest (cur ++ [p])

/-- The lines of the bytes of a sequence of writes. -/
def linesOf (chunks : List Chunk) : List (List Piece) × List Piece :=
  splitLines (chunks.map Chunk.pieces).flatten []

/-- An event whose type holds a line feed; `PublishNotification` and the subscriber
loop accept every non-empty type. -/
def splitEvent : Event :=
  { Type_ := "notification.created\nid: 7", Data := .val (.obj [("unread_count", .num 3)]) }

/-- The hub `hubOne` after `Publish("u1", splitEvent)`. -/
def hubSplit : Hub :=
  { subscribers := [("u1", 0)], inners := [[0]],
    chans := [{ buf := [splitEvent], cap := 16, closed := false }] }

end http

namespace sse

/-! ## Heaps and maps -/

theorem heapUpdate_length {α : Type} (heap : List α) (a : Nat) (f : α → α) :
    (heapUpdate heap a f).length = heap.length := by
  unfold heapUpdate
  cases heap[a]? <;> simp

theorem heapUpdate_getElem? {α : Type} (heap : List α) (a i : Nat) (f : α → α) :
    (heapUpdate heap a f)[i]? = if i = a then (heap[a]?).map f else heap[i]? := by
  unfold heapUpdate
  cases hx : heap[a]? with
  | none =>
    by_cases hi : i = a
    · subst hi; simp [hx]
    · simp [hi]
  | some x =>
    by_cases hi : i = a
    · subst hi
      have hlt : i < heap.length := (List.getElem?_eq_some_iff.mp hx).1
      simp [hx, List.getElem?_set, hlt]
    · have hne : ¬ a = i := fun e => hi e.symm
      simp [hi, List.getElem?_set, hne]

theorem syncMapLoad_append (m : List (String × Nat)) (key k : String) (v : Nat) :
    syncMapLoad (m ++ [(k, v)]) key =
      match syncMapLoad m key with
      | some x => some x
      | none => if k = key then some v else none := by
  induction m with
  | nil => simp [syncMapLoad]
  | cons e rest ih =>
    obtain ⟨k', v'⟩ := e
    by_cases hk : k' = key
    · simp [syncMapLoad, hk]
    · simp [syncMapLoad, hk, ih]

theorem mem_innerStore (keys : List Nat) (ch k : Nat) :
    k ∈ innerStore keys ch ↔ k ∈ keys ∨ k = ch := by
  unfold innerStore
  by_cases h : ch ∈ keys
  · simp only [h, if_true]
    constructor
    · intro hk; exact Or.inl hk
    · rintro (hk | rfl)
      · exact hk
      · exact h
  · simp [h]

theorem nodup_innerStore (keys : List Nat) (ch : Nat) (h : keys.Nodup) :
    (innerStore keys ch).Nodup := by
  unfold innerStore
  by_cases hc : ch ∈ keys
  · simpa [hc] using h
  · simp only [hc, if_false]
    rw [List.nodup_append]
    refine ⟨h, List.nodup_singleton _, ?_⟩
    intro a ha hb
    simp at hb
    subst hb
    exact hc ha

theorem mem_innerDelete (keys : List Nat) (ch k : Nat) :
    k ∈ innerDelete keys ch ↔ k ∈ keys ∧ k ≠ ch := by
  simp [innerDelete]

/-! ## Publish, call by call -/

theorem Chan.trySend_open (c : Chan) (ev : Event) (h : c.closed = false) :
    c.trySend ev = .ok (c.offer ev) := by
  unfold Chan.trySend Chan.offer
  by_cases hl : c.buf.length < c.cap <;> simp [h, hl]

theorem publishTo_open (ev : Event) (chans : List Chan) (ch : Nat)
    (hopen : ∀ c : Chan, chans[ch]? = some c → c.closed = false) :
    ∃ chans', publishTo ev chans ch = .ok chans' ∧ chans'.length = chans.length ∧
      ∀ k : Nat, chans'[k]? =
        if k = ch then (chans[k]?).map (fun c => c.offer ev) else chans[k]? := by
  unfold publishTo
  cases hc : chans[ch]? with
  | none =>
    refine ⟨chans, rfl, rfl, ?_⟩
    intro k
    by_cases hk : k = ch
    · subst hk; simp [hc]
    · simp [hk]
  | some c =>
    have hlt : ch < chans.length := (List.getElem?_eq_some_iff.mp hc).1
    simp only [Chan.trySend_open c ev (hopen c hc)]
    refine ⟨chans.set ch (c.offer ev), rfl, by simp, ?_⟩
    intro k
    by_cases hk : k = ch
    · subst hk; simp [hc, List.getElem?_set, hlt]
    · have hne : ¬ ch = k := fun e => hk e.symm
      simp [hk, List.getElem?_set, hne]

theorem publishRange_open (ev : Event) (keys : List Nat) :
    ∀ chans : List Chan, keys.Nodup →
      (∀ k ∈ keys, ∀ c : Chan, chans[k]? = some c → c.closed = false) →
      ∃ chans', publishRange ev chans keys = .ok chans' ∧ chans'.length = chans.length ∧
        ∀ k : Nat, chans'[k]? =
          if k ∈ keys then (chans[k]?).map (fun c => c.offer ev) else chans[k]? := by
  induction keys with
  | nil =>
    intro chans _ _
    exact ⟨chans, rfl, rfl, fun k => by simp⟩
  | cons ch rest ih =>
    intro chans hnd hopen
    have hnd' := List.nodup_cons.mp hnd
    obtain ⟨chans1, h1, hlen1, hget1⟩ :=
      publishTo_open ev chans ch (fun c hc => hopen ch (List.mem_cons_self _ _) c hc)
    have hopen1 : ∀ k ∈ rest, ∀ c : Chan, chans1[k]? = some c → c.closed = false := by
      intro k hk c hc
      have hne : k ≠ ch := fun e => hnd'.1 (e ▸ hk)
      rw [hget1 k, if_neg hne] at hc
      exact hopen k (List.mem_cons_of_mem _ hk) c hc
    obtain ⟨chans2, h2, hlen2, hget2⟩ := ih chans1 hnd'.2 hopen1
    refine ⟨chans2, ?_, hlen2.trans hlen1, ?_⟩
    · simp only [publishRange, h1]
      exact h2
    · intro k
      rw [hget2 k, hget1 k]
      by_cases hk : k = ch
      · subst hk
        simp [hnd'.1]
      · simp [hk]

theorem Hub.registered_iff (h : Hub) (u : String) (k : Nat) :
    h.registered u k ↔
      ∃ i, syncMapLoad h.subscribers u = some i ∧ k ∈ (h.inners[i]?).getD [] := by
  unfold Hub.registered
  cases hl : syncMapLoad h.subscribers u with
  | none => simp
  | some i => simp

theorem Chan.offer_closed (c : Chan) (ev : Event) : (c.offer ev).closed = c.closed := by
  unfold Chan.offer
  split <;> rfl

theorem Chan.offer_cap (c : Chan) (ev : Event) : (c.offer ev).cap = c.cap := by
  unfold Chan.offer
  split <;> rfl

theorem Chan.offer_length (c : Chan) (ev : Event) (h : c.buf.length ≤ c.cap) :
    (c.offer ev).buf.length ≤ c.cap := by
  unfold Chan.offer
  split
  · simp; omega
  · exact h

/-- On a consistent hub `Publish` returns; it touches neither map, and offers the
event to exactly the channels registered under the user. -/
theorem Hub.Publish_spec {h : Hub} {fs : List (String × Unsubscribe)} (hinv : Inv h fs)
    (u : String) (ev : Event) :
    ∃ h', h.Publish u ev = .ok h' ∧ h'.subscribers = h.subscribers ∧
      h'.inners = h.inners ∧
      (∀ k : Nat, h.registered u k → h'.chans[k]? = (h.chans[k]?).map (fun c => c.offer ev)) ∧
      (∀ k : Nat, ¬ h.registered u k → h'.chans[k]? = h.chans[k]?) := by
  unfold Hub.Publish
  cases hl : syncMapLoad h.subscribers u with
  | none =>
    refine ⟨h, rfl, rfl, rfl, ?_, fun _ _ => rfl⟩
    intro k hk
    rw [Hub.registered_iff] at hk
    obtain ⟨i, hi, _⟩ := hk
    rw [hl] at hi
    cases hi
  | some i =>
    have hopen : ∀ k ∈ (h.inners[i]?).getD [], ∀ c : Chan,
        h.chans[k]? = some c → c.closed = false := by
      intro k hk c hc
      obtain ⟨c', hc', hcl⟩ := hinv.key_open i k hk
      rw [hc] at hc'
      cases hc'
      exact hcl
    obtain ⟨chans', hr, _, hget⟩ :=
      publishRange_open ev ((h.inners[i]?).getD []) h.chans (hinv.key_nodup i) hopen
    refine ⟨{ h with chans := chans' }, ?_, rfl, rfl, ?_, ?_⟩
    · simp only [hr]
    · intro k hk
      rw [Hub.registered_iff] at hk
      obtain ⟨j, hj, hkj⟩ := hk
      rw [hl] at hj
      cases hj
      simp only [hget k, if_pos hkj]
    · intro k hk
      have hnot : k ∉ (h.inners[i]?).getD [] := by
        intro hmem
        exact hk ((Hub.registered_iff h u k).mpr ⟨i, hl, hmem⟩)
      simp only [hget k, if_neg hnot]

/-! ## The invariant holds in every reachable state -/

theorem Inv.of_chans {h h' : Hub} {fs : List (String × Unsubscribe)} (hinv : Inv h fs)
    (hs : h'.subscribers = h.subscribers) (hi : h'.inners = h.inners)
    (hfwd : ∀ (k : Nat) (c : Chan), h.chans[k]? = some c →
      ∃ c' : Chan, h'.chans[k]? = some c' ∧ c'.closed = c.closed)
    (hcap : ∀ (k : Nat) (c' : Chan), h'.chans[k]? = some c' →
      c'.cap = 16 ∧ c'.buf.length ≤ 16) : Inv h' fs where
  inner_lt := by rw [hs, hi]; exact hinv.inner_lt
  inner_inj := by rw [hs]; exact hinv.inner_inj
  key_open := by
    rw [hi]
    intro i k hk
    obtain ⟨c, hc, hcl⟩ := hinv.key_open i k hk
    obtain ⟨c', hc', hcl'⟩ := hfwd k c hc
    exact ⟨c', hc', hcl'.trans hcl⟩
  key_unique := by rw [hi]; exact hinv.key_unique
  key_nodup := by rw [hi]; exact hinv.key_nodup
  chan_cap := hcap
  handle := by
    rw [hi, hs]
    intro u f hf
    obtain ⟨hload, c, hc, himp⟩ := hinv.handle u f hf
    obtain ⟨c', hc', hcl'⟩ := hfwd f.ch c hc
    exact ⟨hload, c', hc', fun hopen => himp (hcl'.symm.trans hopen)⟩
  issued := by rw [hi, hs]; exact hinv.issued

theorem Inv.init : Inv NewHub [] where
  inner_lt := by intro u i h; simp [NewHub, syncMapLoad] at h
  inner_inj := by intro u v i h; simp [NewHub, syncMapLoad] at h
  key_open := by intro i k h; simp [NewHub] at h
  key_unique := by intro i j k h; simp [NewHub] at h
  key_nodup := by intro i; simp [NewHub]
  chan_cap := by intro k c h; simp [NewHub] at h
  handle := by intro u f hf; simp at hf
  issued := by intro i k h; simp [NewHub] at h

theorem Inv.publish {h h' : Hub} {fs : List (String × Unsubscribe)} (hinv : Inv h fs)
    (u : String) (ev : Event) (hp : h.Publish u ev = .ok h') : Inv h' fs := by
  classical
  obtain ⟨h2, hp2, hs, hi, hreg, hnreg⟩ := Hub.Publish_spec hinv u ev
  rw [hp] at hp2
  cases hp2
  have hget : ∀ k : Nat, h'.chans[k]? = h.chans[k]? ∨
      h'.chans[k]? = (h.chans[k]?).map (fun c => c.offer ev) := by
    intro k
    by_cases hk : h.registered u k
    · exact Or.inr (hreg k hk)
    · exact Or.inl (hnreg k hk)
  refine Inv.of_chans hinv hs hi ?_ ?_
  · intro k c hc
    rcases hget k with hk | hk
    · exact ⟨c, hk.trans hc, rfl⟩
    · refine ⟨c.offer ev, ?_, Chan.offer_closed c ev⟩
      rw [hk, hc]; rfl
  · intro k c' hc'
    rcases hget k with hk | hk
    · exact hinv.chan_cap k c' (hk ▸ hc')
    · rw [hk] at hc'
      cases hc : h.chans[k]? with
      | none => rw [hc] at hc'; cases hc'
      | some c =>
        rw [hc] at hc'
        simp only [Option.map_some', Option.some.injEq] at hc'
        subst hc'
        have hcap := hinv.chan_cap k c hc
        refine ⟨(Chan.offer_cap c ev).trans hcap.1, ?_⟩
        have := Chan.offer_length c ev (by omega)
        omega

theorem Inv.recv {h h' : Hub} {fs : List (String × Unsubscribe)} (hinv : Inv h fs)
    (ch : Nat) (ev : Event) (hr : h.recv ch = .item ev h') : Inv h' fs := by
  unfold Hub.recv at hr
  cases hc : h.chans[ch]? with
  | none => rw [hc] at hr; cases hr
  | some c =>
    rw [hc] at hr
    cases hb : c.buf with
    | nil =>
      simp only [hb] at hr
      split at hr <;> cases hr
    | cons e rest =>
      simp only [hb, Recv.item.injEq] at hr
      obtain ⟨_, rfl⟩ := hr
      have hlt : ch < h.chans.length := (List.getElem?_eq_some_iff.mp hc).1
      have hcap := hinv.chan_cap ch c hc
      refine Inv.of_chans hinv rfl rfl ?_ ?_
      · intro k c0 hc0
        by_cases hk : ch = k
        · subst hk
          rw [hc] at hc0
          cases hc0
          exact ⟨{ c with buf := rest }, by simp [List.getElem?_set, hlt], rfl⟩
        · exact ⟨c0, by simp [List.getElem?_set, hk, hc0], rfl⟩
      · intro k c' hc'
        by_cases hk : ch = k
        · subst hk
          simp [List.getElem?_set, hlt] at hc'
          subst hc'
          rw [hb] at hcap
          simp at hcap
          exact ⟨hcap.1, by simp; omega⟩
        · simp [List.getElem?_set, hk] at hc'
          exact hinv.chan_cap k c' hc'

theorem keys_heapUpdate (heap : List (List Nat)) (a i : Nat) (f : List Nat → List Nat) :
    ((heapUpdate heap a f)[i]?).getD [] =
      if i = a ∧ a < heap.length then f ((heap[a]?).getD []) else (heap[i]?).getD [] := by
  rw [heapUpdate_getElem?]
  by_cases hi : i = a
  · subst hi
    by_cases hlt : i < heap.length
    · simp [hlt, List.getElem?_eq_getElem hlt]
    · have hnone : heap[i]? = none := List.getElem?_eq_none (by omega)
      simp [hlt, hnone]
  · simp [hi]

theorem keys_append_nil (heap : List (List Nat)) (i : Nat) :
    (((heap ++ [[]])[i]?).getD [] : List Nat) = (heap[i]?).getD [] := by
  by_cases hlt : i < heap.length
  · rw [List.getElem?_append_left hlt]
  · have hnone : heap[i]? = none := List.getElem?_eq_none (by omega)
    rw [hnone]
    by_cases he : i = heap.length
    · subst he; simp
    · have : (heap ++ [[]])[i]? = none := List.getElem?_eq_none (by simp; omega)
      rw [this]

/-- What `Subscribe` does to a consistent hub, component by component. -/
theorem Hub.Subscribe_spec {h : Hub} {fs : List (String × Unsubscribe)} (hinv : Inv h fs)
    (u : String) :
    (h.Subscribe u).stream = h.chans.length ∧
    (h.Subscribe u).unsubscribe.ch = h.chans.length ∧
    (h.Subscribe u).hub.chans = h.chans ++ [makeChan 16] ∧
    (h.Subscribe u).unsubscribe.inner ≤ h.inners.length ∧
    syncMapLoad (h.Subscribe u).hub.subscribers u = some (h.Subscribe u).unsubscribe.inner ∧
    (∀ (v : String) (j : Nat), syncMapLoad (h.Subscribe u).hub.subscribers v = some j ↔
      (syncMapLoad h.subscribers v = some j ∨
        (syncMapLoad h.subscribers u = none ∧ v = u ∧ j = h.inners.length))) ∧
    (h.Subscribe u).hub.inners.length = h.inners.length + 1 ∧
    (∀ j : Nat, ((h.Subscribe u).hub.inners[j]?).getD [] =
      if j = (h.Subscribe u).unsubscribe.inner
      then innerStore ((h.inners[j]?).getD []) h.chans.length
      else (h.inners[j]?).getD []) := by
  cases hl : syncMapLoad h.subscribers u with
  | some i =>
    have hlt := hinv.inner_lt u i hl
    refine ⟨rfl, rfl, rfl, ?_, ?_, ?_, ?_, ?_⟩
    · simp only [Hub.Subscribe, syncMapLoadOrStore, hl]; omega
    · simp only [Hub.Subscribe, syncMapLoadOrStore, hl]
    · intro v j
      simp only [Hub.Subscribe, syncMapLoadOrStore, hl]
      simp
    · simp only [Hub.Subscribe, syncMapLoadOrStore, hl, heapUpdate_length]
      simp
    · intro j
      simp only [Hub.Subscribe, syncMapLoadOrStore, hl]
      rw [keys_heapUpdate]
      by_cases hj : j = i
      · subst hj
        have : j < (h.inners ++ [[]]).length := by simp; omega
        simp only [this, and_self, if_true, keys_append_nil]
      · simp only [hj, false_and, if_false, keys_append_nil]
  | none =>
    refine ⟨rfl, rfl, rfl, ?_, ?_, ?_, ?_, ?_⟩
    · simp only [Hub.Subscribe, syncMapLoadOrStore, hl]; omega
    · simp only [Hub.Subscribe, syncMapLoadOrStore, hl, syncMapLoad_append]
      simp
    · intro v j
      simp only [Hub.Subscribe, syncMapLoadOrStore, hl, syncMapLoad_append]
      cases hv : syncMapLoad h.subscribers v with
      | some x =>
        have hvu : ¬ v = u := fun e => by rw [e, hl] at hv; cases hv
        simp [hvu]
      | none =>
        by_cases huv : u = v
        · subst huv
          simp [eq_comm]
        · have hvu : ¬ v = u := fun e => huv e.symm
          simp [huv, hvu]
    · simp only [Hub.Subscribe, syncMapLoadOrStore, hl, heapUpdate_length]
      simp
    · intro j
      simp only [Hub.Subscribe, syncMapLoadOrStore, hl]
      rw [keys_heapUpdate]
      by_cases hj : j = h.inners.length
      · subst hj
        simp [keys_append_nil]
      · simp only [hj, false_and, if_false, keys_append_nil]

theorem Hub.Subscribe_mem_keys {h : Hub} {fs : List (String × Unsubscribe)} (hinv : Inv h fs)
    (u : String) (j k : Nat) :
    k ∈ ((h.Subscribe u).hub.inners[j]?).getD [] ↔
      (k ∈ (h.inners[j]?).getD [] ∨
        (j = (h.Subscribe u).unsubscribe.inner ∧ k = h.chans.length)) := by
  obtain ⟨_, _, _, _, _, _, _, hkeys⟩ := Hub.Subscribe_spec hinv u
  rw [hkeys j]
  by_cases hj : j = (h.Subscribe u).unsubscribe.inner
  · simp only [hj, if_true, mem_innerStore, true_and]
  · simp only [hj, if_false, false_and, or_false]

theorem Inv.key_lt {h : Hub} {fs : List (String × Unsubscribe)} (hinv : Inv h fs) (i k : Nat)
    (hk : k ∈ (h.inners[i]?).getD []) : k < h.chans.length := by
  obtain ⟨c, hc, _⟩ := hinv.key_open i k hk
  exact (List.getElem?_eq_some_iff.mp hc).1

theorem Inv.subscribe {h : Hub} {fs : List (String × Unsubscribe)} (hinv : Inv h fs) (u : String) :
    Inv (h.Subscribe u).hub ((u, (h.Subscribe u).unsubscribe) :: fs) := by
  obtain ⟨_, hch, hchans, hle, hload, hsubs, hlen, hkeys⟩ := Hub.Subscribe_spec hinv u
  have hmem := Hub.Subscribe_mem_keys hinv u
  have hold : ∀ (k : Nat) (c : Chan), h.chans[k]? = some c →
      (h.Subscribe u).hub.chans[k]? = some c := by
    intro k c hc
    rw [hchans, List.getElem?_append_left (List.getElem?_eq_some_iff.mp hc).1]
    exact hc
  have hnew : (h.Subscribe u).hub.chans[h.chans.length]? = some (makeChan 16) := by
    rw [hchans]; simp
  constructor
  · intro v j hv
    rw [hlen]
    rcases (hsubs v j).mp hv with hv0 | ⟨_, _, hj⟩
    · have := hinv.inner_lt v j hv0; omega
    · omega
  · intro v w j hv hw
    rcases (hsubs v j).mp hv with hv0 | ⟨_, hvu, hj⟩
    · rcases (hsubs w j).mp hw with hw0 | ⟨_, _, hj⟩
      · exact hinv.inner_inj v w j hv0 hw0
      · have := hinv.inner_lt v j hv0; omega
    · rcases (hsubs w j).mp hw with hw0 | ⟨_, hwu, _⟩
      · have := hinv.inner_lt w j hw0; omega
      · rw [hvu, hwu]
  · intro i k hk
    rcases (hmem i k).mp hk with hk0 | ⟨_, hkc⟩
    · obtain ⟨c, hc, hcl⟩ := hinv.key_open i k hk0
      exact ⟨c, hold k c hc, hcl⟩
    · rw [hkc]
      exact ⟨makeChan 16, hnew, rfl⟩
  · intro i j k hi hj
    rcases (hmem i k).mp hi with hi0 | ⟨hia, hkc⟩
    · rcases (hmem j k).mp hj with hj0 | ⟨_, hkc⟩
      · exact hinv.key_unique i j k hi0 hj0
      · have := hinv.key_lt i k hi0; omega
    · rcases (hmem j k).mp hj with hj0 | ⟨hja, _⟩
      · have := hinv.key_lt j k hj0; omega
      · rw [hia, hja]
  · intro i
    rw [hkeys i]
    split
    · exact nodup_innerStore _ _ (hinv.key_nodup i)
    · exact hinv.key_nodup i
  · intro k c hc
    rw [hchans] at hc
    by_cases hlt : k < h.chans.length
    · rw [List.getElem?_append_left hlt] at hc
      exact hinv.chan_cap k c hc
    · by_cases he : k = h.chans.length
      · subst he
        simp at hc
        subst hc
        simp [makeChan]
      · have : (h.chans ++ [makeChan 16])[k]? = none :=
          List.getElem?_eq_none (by simp; omega)
        rw [this] at hc
        cases hc
  · intro v f hf
    rcases List.mem_cons.mp hf with he | hf0
    · cases he
      refine ⟨hload, makeChan 16, ?_, fun _ => ?_⟩
      · rw [hch]; exact hnew
      · rw [hch]
        exact (hmem _ _).mpr (Or.inr ⟨rfl, rfl⟩)
    · obtain ⟨hl, c, hc, himp⟩ := hinv.handle v f hf0
      exact ⟨(hsubs v f.inner).mpr (Or.inl hl), c, hold _ c hc,
        fun ho => (hmem _ _).mpr (Or.inl (himp ho))⟩
  · intro i k hk
    rcases (hmem i k).mp hk with hk0 | ⟨hia, hkc⟩
    · obtain ⟨v, hv, hmemv⟩ := hinv.issued i k hk0
      exact ⟨v, (hsubs v i).mpr (Or.inl hv), List.mem_cons_of_mem _ hmemv⟩
    · refine ⟨u, hia ▸ hload, ?_⟩
      have he : Unsubscribe.mk i k = (h.Subscribe u).unsubscribe := by
        rw [hia, hkc, ← hch]
      rw [he]
      exact List.mem_cons_self _ _

theorem Unsubscribe.call_spec {h h' : Hub} {fs : List (String × Unsubscribe)} (hinv : Inv h fs)
    (u : String) (f : Unsubscribe) (hf : (u, f) ∈ fs) (hcall : f.call h = .ok h') :
    ∃ c : Chan, h.chans[f.ch]? = some c ∧ c.closed = false ∧
      f.ch ∈ (h.inners[f.inner]?).getD [] ∧
      h'.subscribers = h.subscribers ∧
      h'.inners = heapUpdate h.inners f.inner (fun keys => innerDelete keys f.ch) ∧
      h'.chans = h.chans.set f.ch { c with closed := true } := by
  obtain ⟨_, c, hc, himp⟩ := hinv.handle u f hf
  unfold Unsubscribe.call at hcall
  simp only [hc] at hcall
  unfold Chan.close at hcall
  by_cases hcl : c.closed = true
  · simp [hcl] at hcall
  · have hcl' : c.closed = false := by simpa using hcl
    simp only [hcl', Bool.false_eq_true, if_false, Except.ok.injEq] at hcall
    subst hcall
    exact ⟨c, hc, hcl', himp hcl', rfl, rfl, rfl⟩

theorem Unsubscribe.call_mem_keys (h : Hub) (f : Unsubscribe) (j k : Nat) :
    k ∈ ((heapUpdate h.inners f.inner (fun keys => innerDelete keys f.ch))[j]?).getD [] ↔
      (k ∈ (h.inners[j]?).getD [] ∧ ¬ (j = f.inner ∧ k = f.ch)) := by
  rw [keys_heapUpdate]
  by_cases hj : j = f.inner
  · subst hj
    by_cases hlt : f.inner < h.inners.length
    · simp [hlt, mem_innerDelete]
    · have hnone : h.inners[f.inner]? = none := List.getElem?_eq_none (by omega)
      simp [hlt, hnone]
  · simp [hj]

theorem Inv.unsubscribe {h h' : Hub} {fs : List (String × Unsubscribe)} (hinv : Inv h fs)
    (u : String) (f : Unsubscribe) (hf : (u, f) ∈ fs) (hcall : f.call h = .ok h') :
    Inv h' fs := by
  obtain ⟨c, hc, hcl, hreg, hs, hi, hch⟩ := Unsubscribe.call_spec hinv u f hf hcall
  have hlt : f.ch < h.chans.length := (List.getElem?_eq_some_iff.mp hc).1
  have hmem : ∀ j k : Nat, k ∈ (h'.inners[j]?).getD [] ↔
      (k ∈ (h.inners[j]?).getD [] ∧ ¬ (j = f.inner ∧ k = f.ch)) := by
    intro j k
    rw [hi]
    exact Unsubscribe.call_mem_keys h f j k
  have hother : ∀ k : Nat, k ≠ f.ch → h'.chans[k]? = h.chans[k]? := by
    intro k hk
    have hne : ¬ f.ch = k := fun e => hk e.symm
    rw [hch]
    simp [List.getElem?_set, hne]
  have hself : h'.chans[f.ch]? = some { c with closed := true } := by
    rw [hch]
    simp [List.getElem?_set, hlt]
  constructor
  · rw [hs, hi, heapUpdate_length]
    exact hinv.inner_lt
  · rw [hs]
    exact hinv.inner_inj
  · intro i k hk
    obtain ⟨hk0, hnot⟩ := (hmem i k).mp hk
    have hne : k ≠ f.ch := by
      intro e
      subst e
      exact hnot ⟨hinv.key_unique i f.inner f.ch hk0 hreg, rfl⟩
    rw [hother k hne]
    exact hinv.key_open i k hk0
  · intro i j k hi0 hj0
    exact hinv.key_unique i j k ((hmem i k).mp hi0).1 ((hmem j k).mp hj0).1
  · intro i
    rw [hi, keys_heapUpdate]
    split
    · exact (hinv.key_nodup f.inner).filter _
    · exact hinv.key_nodup i
  · intro k c' hc'
    by_cases hk : k = f.ch
    · subst hk
      rw [hself] at hc'
      cases hc'
      exact hinv.chan_cap _ c hc
    · rw [hother k hk] at hc'
      exact hinv.chan_cap k c' hc'
  · intro v g hg
    obtain ⟨hl, c0, hc0, himp⟩ := hinv.handle v g hg
    refine ⟨hs ▸ hl, ?_⟩
    by_cases hk : g.ch = f.ch
    · refine ⟨{ c with closed := true }, ?_, ?_⟩
      · rw [hk]; exact hself
      · intro hopen
        cases hopen
    · refine ⟨c0, ?_, ?_⟩
      · rw [hother g.ch hk]; exact hc0
      · intro hopen
        exact (hmem g.inner g.ch).mpr ⟨himp hopen, fun hboth => hk hboth.2⟩
  · intro i k hk
    rw [hs]
    exact hinv.issued i k ((hmem i k).mp hk).1

/-- Every reachable hub state is consistent. -/
theorem Reachable.inv {h : Hub} {fs : List (String × Unsubscribe)} (hr : Reachable h fs) :
    Inv h fs := by
  induction hr with
  | init => exact Inv.init
  | subscribe u _ ih => exact ih.subscribe u
  | publish u ev _ hp ih => exact ih.publish u ev hp
  | unsubscribe u f _ hf hcall ih => exact ih.unsubscribe u f hf hcall
  | recv u f ev _ _ hrecv ih => exact ih.recv f.ch ev hrecv

/-! ## Registered channels -/

theorem Hub.queue_congr {h h' : Hub} {k : Nat} (hk : h'.chans[k]? = h.chans[k]?) :
    h'.queue k = h.queue k := by
  unfold Hub.queue
  rw [hk]

theorem Inv.registered_chan {h : Hub} {fs : List (String × Unsubscribe)} (hinv : Inv h fs)
    {u : String} {k : Nat} (hreg : h.registered u k) :
    ∃ c : Chan, h.chans[k]? = some c ∧ c.closed = false ∧ c.cap = 16 ∧
      c.buf = h.queue k := by
  obtain ⟨i, _, hk⟩ := (Hub.registered_iff h u k).mp hreg
  obtain ⟨c, hc, hcl⟩ := hinv.key_open i k hk
  refine ⟨c, hc, hcl, (hinv.chan_cap k c hc).1, ?_⟩
  unfold Hub.queue
  rw [hc]

theorem Inv.registered_unique {h : Hub} {fs : List (String × Unsubscribe)} (hinv : Inv h fs)
    {u v : String} {k : Nat} (hu : h.registered u k) (hv : h.registered v k) : u = v := by
  obtain ⟨i, hi, hki⟩ := (Hub.registered_iff h u k).mp hu
  obtain ⟨j, hj, hkj⟩ := (Hub.registered_iff h v k).mp hv
  have hij := hinv.key_unique i j k hki hkj
  subst hij
  exact hinv.inner_inj u v i hi hj

theorem Inv.closed_not_registered {h : Hub} {fs : List (String × Unsubscribe)} (hinv : Inv h fs)
    {k : Nat} {c : Chan} (hc : h.chans[k]? = some c) (hcl : c.closed = true)
    (u : String) : ¬ h.registered u k := by
  intro hreg
  obtain ⟨c', hc', hopen, _⟩ := hinv.registered_chan hreg
  rw [hc] at hc'
  cases hc'
  rw [hcl] at hopen
  cases hopen

/-- The stream handed out by `Subscribe(u)` is registered under `u`, open and empty. -/
theorem Hub.Subscribe_registered {h : Hub} {fs : List (String × Unsubscribe)} (hinv : Inv h fs)
    (u : String) :
    (h.Subscribe u).hub.registered u (h.Subscribe u).stream ∧
      (h.Subscribe u).hub.chans[(h.Subscribe u).stream]? = some (makeChan 16) := by
  obtain ⟨hst, _, hchans, _, hload, _, _, _⟩ := Hub.Subscribe_spec hinv u
  constructor
  · rw [Hub.registered_iff]
    refine ⟨_, hload, ?_⟩
    rw [hst]
    exact (Hub.Subscribe_mem_keys hinv u _ _).mpr (Or.inr ⟨rfl, rfl⟩)
  · rw [hst, hchans]
    simp

theorem Reachable.publishAll {h : Hub} {fs : List (String × Unsubscribe)} (hr : Reachable h fs)
    (calls : List (String × Event)) {h' : Hub} (hp : h.publishAll calls = .ok h') :
    Reachable h' fs := by
  induction calls generalizing h with
  | nil =>
    simp only [Hub.publishAll, Except.ok.injEq] at hp
    subst hp
    exact hr
  | cons e rest ih =>
    obtain ⟨u, ev⟩ := e
    simp only [Hub.publishAll] at hp
    cases h1 : h.Publish u ev with
    | error p => rw [h1] at hp; cases hp
    | ok h2 =>
      rw [h1] at hp
      exact ih (hr.publish u ev h1) hp

theorem Inv.live_registered {h : Hub} {fs : List (String × Unsubscribe)} (hinv : Inv h fs)
    {u : String} {f : Unsubscribe} (hf : (u, f) ∈ fs) (hlive : h.closed f.ch = false) :
    h.registered u f.ch := by
  obtain ⟨hl, c, hc, himp⟩ := hinv.handle u f hf
  rw [Hub.registered_iff]
  refine ⟨f.inner, hl, himp ?_⟩
  unfold Hub.closed at hlive
  rw [hc] at hlive
  exact hlive

/-- A channel is registered under `u` exactly when it is the stream of a
`Subscribe(u)` whose closure has not closed it yet. -/
theorem Inv.registered_iff_live {h : Hub} {fs : List (String × Unsubscribe)}
    (hinv : Inv h fs) (u : String) (k : Nat) :
    h.registered u k ↔ ∃ f : Unsubscribe, (u, f) ∈ fs ∧ f.ch = k ∧ h.closed k = false := by
  constructor
  · intro hreg
    obtain ⟨i, hi, hk⟩ := (Hub.registered_iff h u k).mp hreg
    obtain ⟨v, hv, hmem⟩ := hinv.issued i k hk
    have huv : u = v := hinv.inner_inj u v i hi hv
    subst huv
    obtain ⟨c, hc, hcl⟩ := hinv.key_open i k hk
    refine ⟨Unsubscribe.mk i k, hmem, rfl, ?_⟩
    unfold Hub.closed
    rw [hc]
    exact hcl
  · rintro ⟨f, hf, rfl, hlive⟩
    exact hinv.live_registered hf hlive

theorem reachable_hubOne : Reachable hubOne [("u1", unsubOne)] :=
  Reachable.subscribe "u1" Reachable.init

theorem reachable_hubFull : Reachable hubFull [("u1", unsubOne)] :=
  reachable_hubOne.publishAll (List.replicate 16 ("u1", sampleEvent)) rfl

theorem reachable_hubGone : Reachable hubGone [("u1", unsubOne)] :=
  Reachable.unsubscribe "u1" unsubOne reachable_hubOne (List.mem_singleton.mpr rfl) rfl

theorem reachable_hubTwo : Reachable hubTwo [("u1", unsubTwo), ("u1", unsubOne)] :=
  Reachable.subscribe "u1" reachable_hubOne

theorem reachable_hubBoth : Reachable hubBoth [("u2", unsubOther), ("u1", unsubOne)] :=
  Reachable.subscribe "u2" reachable_hubOne

theorem Hub.closed_congr {h h' : Hub} {k : Nat} (hk : h'.chans[k]? = h.chans[k]?) :
    h'.closed k = h.closed k := by
  unfold Hub.closed
  rw [hk]

theorem Inv.closed_unregistered {h : Hub} {fs : List (String × Unsubscribe)}
    (hinv : Inv h fs) {k : Nat} (hcl : h.closed k = true) (u : String) :
    ¬ h.registered u k := by
  unfold Hub.closed at hcl
  cases hc : h.chans[k]? with
  | none => rw [hc] at hcl; cases hcl
  | some c =>
    rw [hc] at hcl
    exact hinv.closed_not_registered hc hcl u

/-- No sequence of `Publish` calls touches a closed channel, and every call of the
sequence returns. -/
theorem Inv.publishAll_closed (calls : List (String × Event)) :
    ∀ {h : Hub} {fs : List (String × Unsubscribe)}, Inv h fs → ∀ k : Nat,
      h.closed k = true →
      ∃ h', h.publishAll calls = .ok h' ∧ h'.chans[k]? = h.chans[k]? := by
  induction calls with
  | nil =>
    intro h fs _ k _
    exact ⟨h, rfl, rfl⟩
  | cons e rest ih =>
    intro h fs hinv k hcl
    obtain ⟨u, ev⟩ := e
    obtain ⟨h1, hp, _, _, _, hskip⟩ := Hub.Publish_spec hinv u ev
    have hk1 : h1.chans[k]? = h.chans[k]? := hskip k (hinv.closed_unregistered hcl u)
    obtain ⟨h2, hp2, hk2⟩ :=
      ih (hinv.publish u ev hp) k ((Hub.closed_congr hk1).trans hcl)
    refine ⟨h2, ?_, hk2.trans hk1⟩
    simp only [Hub.publishAll, hp]
    exact hp2

/-- A registered channel with room gets the event at the end of its queue. -/
theorem Inv.publish_enqueue {h h' : Hub} {fs : List (String × Unsubscribe)}
    (hinv : Inv h fs) {u : String} {ev : Event} {k : Nat}
    (hsend : h'.chans[k]? = (h.chans[k]?).map (fun c => c.offer ev))
    (hreg : h.registered u k) (hroom : (h.queue k).length < 16) :
    h'.queue k = h.queue k ++ [ev] := by
  obtain ⟨c, hc, _, hcap, hbuf⟩ := hinv.registered_chan hreg
  rw [hc] at hsend
  have hlt : c.buf.length < c.cap := by rw [hbuf, hcap]; exact hroom
  unfold Hub.queue
  rw [hsend, hc]
  simp [Chan.offer, hlt]

/-- With no channel registered under the user, `Publish` returns the hub as it was. -/
theorem Hub.Publish_unregistered (h : Hub) (u : String) (ev : Event)
    (hnone : ∀ k : Nat, ¬ h.registered u k) : h.Publish u ev = .ok h := by
  unfold Hub.Publish
  cases hl : syncMapLoad h.subscribers u with
  | none => rfl
  | some i =>
    have hempty : (h.inners[i]?).getD [] = [] := by
      apply List.eq_nil_iff_forall_not_mem.mpr
      intro k hk
      exact hnone k ((Hub.registered_iff h u k).mpr ⟨i, hl, hk⟩)
    simp only [hempty, publishRange]

/-! ## The claims -/

/-- C1, broadcast correctness: in every reachable hub state, for a stream that was
returned by `Subscribe(U)`, has not been unsubscribed and has an empty queue,
`Publish(U, E)` returns and the next item received from the stream is exactly `E`. -/
theorem broadcast_correctness {h : Hub} {fs : List (String × Unsubscribe)}
    (hr : Reachable h fs) (U : String) (E : Event) (f : Unsubscribe)
    (hsub : (U, f) ∈ fs) (hlive : h.closed f.ch = false) (hq : h.queue f.ch = []) :
    ∃ h', h.Publish U E = .ok h' ∧ ∃ h'', h'.recv f.ch = .item E h'' := by
  have hinv := hr.inv
  have hreg := hinv.live_registered hsub hlive
  obtain ⟨c, hc, _, hcap, hbuf⟩ := hinv.registered_chan hreg
  obtain ⟨h', hp, _, _, hsend, _⟩ := Hub.Publish_spec hinv U E
  refine ⟨h', hp, ?_⟩
  have hget := hsend f.ch hreg
  rw [hc] at hget
  have hoffer : (c.offer E).buf = [E] := by
    unfold Chan.offer
    rw [hbuf, hq, hcap]
    simp
  unfold Hub.recv
  simp only [hget, Option.map_some', hoffer]
  exact ⟨_, rfl⟩

theorem broadcast_correctness_witness :
    Reachable hubOne [("u1", unsubOne)] ∧ ("u1", unsubOne) ∈ [("u1", unsubOne)] ∧
      hubOne.closed unsubOne.ch = false ∧ hubOne.queue unsubOne.ch = [] ∧
      ∃ h', hubOne.Publish "u1" sampleEvent = .ok h' ∧
        ∃ h'', h'.recv unsubOne.ch = .item sampleEvent h'' :=
  ⟨reachable_hubOne, List.mem_singleton.mpr rfl, rfl, rfl,
    broadcast_correctness reachable_hubOne "u1" sampleEvent unsubOne
      (List.mem_singleton.mpr rfl) rfl rfl⟩

/-- C2, drop on full: in every reachable hub state every channel has capacity 16 (the
one `Subscribe` makes included), and `Publish(U, E)` returns without error and
leaves unchanged every channel of a subscription of `U` whose queue already holds
16 events. -/
theorem drop_on_full {h : Hub} {fs : List (String × Unsubscribe)}
    (hr : Reachable h fs) (U : String) (E : Event) :
    (∀ (k : Nat) (c : Chan), h.chans[k]? = some c → c.cap = 16) ∧
    (∀ V : String, (h.Subscribe V).hub.chans[(h.Subscribe V).stream]? = some (makeChan 16)) ∧
    ∃ h', h.Publish U E = .ok h' ∧
      ∀ f : Unsubscribe, (U, f) ∈ fs → (h.queue f.ch).length = 16 →
        h'.chans[f.ch]? = h.chans[f.ch]? ∧ h'.queue f.ch = h.queue f.ch := by
  classical
  have hinv := hr.inv
  refine ⟨fun k c hc => (hinv.chan_cap k c hc).1,
    fun V => (Hub.Subscribe_registered hinv V).2, ?_⟩
  obtain ⟨h', hp, _, _, hsend, hskip⟩ := Hub.Publish_spec hinv U E
  refine ⟨h', hp, ?_⟩
  intro f _ hfull
  have hsame : h'.chans[f.ch]? = h.chans[f.ch]? := by
    by_cases hreg : h.registered U f.ch
    · obtain ⟨c, hc, _, hcap, hbuf⟩ := hinv.registered_chan hreg
      rw [hsend f.ch hreg, hc]
      have : c.offer E = c := by
        unfold Chan.offer
        rw [hbuf, hfull, hcap]
        simp
      simp [this]
    · exact hskip f.ch hreg
  exact ⟨hsame, Hub.queue_congr hsame⟩

theorem drop_on_full_witness :
    Reachable hubFull [("u1", unsubOne)] ∧ (hubFull.queue unsubOne.ch).length = 16 ∧
    ((∀ (k : Nat) (c : Chan), hubFull.chans[k]? = some c → c.cap = 16) ∧
    (∀ V : String,
      (hubFull.Subscribe V).hub.chans[(hubFull.Subscribe V).stream]? = some (makeChan 16)) ∧
    ∃ h', hubFull.Publish "u1" sampleEvent = .ok h' ∧
      ∀ f : Unsubscribe, ("u1", f) ∈ [("u1", unsubOne)] →
        (hubFull.queue f.ch).length = 16 →
        h'.chans[f.ch]? = hubFull.chans[f.ch]? ∧ h'.queue f.ch = hubFull.queue f.ch) :=
  ⟨reachable_hubFull, rfl, drop_on_full reachable_hubFull "u1" sampleEvent⟩

/-- C3, post-unsubscribe silence: in every reachable hub state, once the unsubscribe
closure of a subscription has returned (right after its call, and in any later
state, where its channel is closed), every sequence of `Publish` calls, for
whatever users, returns and leaves the queue of that subscription as it was. -/
theorem post_unsubscribe_silence {h : Hub} {fs : List (String × Unsubscribe)}
    (hr : Reachable h fs) (U : String) (f : Unsubscribe) (hsub : (U, f) ∈ fs) :
    (∀ h1 : Hub, f.call h = .ok h1 → ∀ calls : List (String × Event),
      ∃ h2, h1.publishAll calls = .ok h2 ∧ h2.queue f.ch = h1.queue f.ch) ∧
    (h.closed f.ch = true → ∀ calls : List (String × Event),
      ∃ h2, h.publishAll calls = .ok h2 ∧ h2.queue f.ch = h.queue f.ch) := by
  have hinv := hr.inv
  constructor
  · intro h1 hcall calls
    have hinv1 := hinv.unsubscribe U f hsub hcall
    obtain ⟨c, hc, _, _, _, _, hch⟩ := Unsubscribe.call_spec hinv U f hsub hcall
    have hlt : f.ch < h.chans.length := (List.getElem?_eq_some_iff.mp hc).1
    have hcl : h1.closed f.ch = true := by
      unfold Hub.closed
      rw [hch]
      simp [List.getElem?_set, hlt]
    obtain ⟨h2, hp, hk⟩ := hinv1.publishAll_closed calls f.ch hcl
    exact ⟨h2, hp, Hub.queue_congr hk⟩
  · intro hcl calls
    obtain ⟨h2, hp, hk⟩ := hinv.publishAll_closed calls f.ch hcl
    exact ⟨h2, hp, Hub.queue_congr hk⟩

theorem post_unsubscribe_silence_witness :
    Reachable hubOne [("u1", unsubOne)] ∧ ("u1", unsubOne) ∈ [("u1", unsubOne)] ∧
      unsubOne.call hubOne = .ok hubGone ∧
      ((∀ h1 : Hub, unsubOne.call hubOne = .ok h1 → ∀ calls : List (String × Event),
        ∃ h2, h1.publishAll calls = .ok h2 ∧ h2.queue unsubOne.ch = h1.queue unsubOne.ch) ∧
      (hubOne.closed unsubOne.ch = true → ∀ calls : List (String × Event),
        ∃ h2, hubOne.publishAll calls = .ok h2 ∧
          h2.queue unsubOne.ch = hubOne.queue unsubOne.ch)) :=
  ⟨reachable_hubOne, List.mem_singleton.mpr rfl, rfl,
    post_unsubscribe_silence reachable_hubOne "u1" unsubOne (List.mem_singleton.mpr rfl)⟩

/-- C4, multi-subscriber fan-out: in every reachable hub state, if two distinct
subscriptions obtained from `Subscribe(U)` are both still registered and neither
queue is full, then one `Publish(U, E)` returns and appends the same `E` to the
queue of each of the two (distinct) channels. -/
theorem multi_subscriber_fan_out {h : Hub} {fs : List (String × Unsubscribe)}
    (hr : Reachable h fs) (U : String) (E : Event) (f g : Unsubscribe)
    (hf : (U, f) ∈ fs) (hg : (U, g) ∈ fs) (hne : f ≠ g)
    (hfreg : h.registered U f.ch) (hgreg : h.registered U g.ch)
    (hfroom : (h.queue f.ch).length < 16) (hgroom : (h.queue g.ch).length < 16) :
    f.ch ≠ g.ch ∧
    ∃ h', h.Publish U E = .ok h' ∧ h'.queue f.ch = h.queue f.ch ++ [E] ∧
      h'.queue g.ch = h.queue g.ch ++ [E] := by
  have hinv := hr.inv
  constructor
  · intro hch
    apply hne
    have hfi := (hinv.handle U f hf).1
    have hgi := (hinv.handle U g hg).1
    rw [hfi] at hgi
    cases f
    cases g
    simp only [Option.some.injEq] at hgi
    simp only at hch
    rw [hgi, hch]
  · obtain ⟨h', hp, _, _, hsend, _⟩ := Hub.Publish_spec hinv U E
    exact ⟨h', hp, hinv.publish_enqueue (hsend f.ch hfreg) hfreg hfroom,
      hinv.publish_enqueue (hsend g.ch hgreg) hgreg hgroom⟩

/-- C5, no-subscriber no-op: in every reachable hub state, if user `U` has no active
subscription (none was ever handed out for `U`, or each one has been unsubscribed),
then `Publish(U, E)` returns and the whole hub (both maps and every channel) is
unchanged. -/
theorem no_subscriber_noop {h : Hub} {fs : List (String × Unsubscribe)}
    (hr : Reachable h fs) (U : String) (E : Event)
    (hnone : ∀ f : Unsubscribe, (U, f) ∈ fs → h.closed f.ch = true) :
    h.Publish U E = .ok h := by
  have hinv := hr.inv
  apply Hub.Publish_unregistered
  intro k hreg
  obtain ⟨f, hf, hk, hlive⟩ := (hinv.registered_iff_live U k).mp hreg
  have hcl := hnone f hf
  rw [hk, hlive] at hcl
  cases hcl

/-- C6, per-user isolation: in every reachable hub state, the stream of a
subscription handed out by `Subscribe(U)` is registered under no user other than
`U` (and under `U` as long as it is not unsubscribed), and for users `U ≠ V` the
call `Publish(U, E)` returns and leaves every channel registered under `V`
unchanged. -/
theorem per_user_isolation {h : Hub} {fs : List (String × Unsubscribe)}
    (hr : Reachable h fs) :
    (∀ (U V : String) (f : Unsubscribe), (U, f) ∈ fs →
      (h.registered V f.ch → V = U) ∧ (h.closed f.ch = false → h.registered U f.ch)) ∧
    (∀ U : String, (h.Subscribe U).hub.registered U (h.Subscribe U).stream) ∧
    (∀ (U V : String) (E : Event), U ≠ V →
      ∃ h', h.Publish U E = .ok h' ∧
        ∀ k : Nat, h.registered V k →
          h'.chans[k]? = h.chans[k]? ∧ h'.queue k = h.queue k) := by
  have hinv := hr.inv
  refine ⟨?_, fun U => (Hub.Subscribe_registered hinv U).1, ?_⟩
  · intro U V f hf
    refine ⟨?_, fun hlive => hinv.live_registered hf hlive⟩
    intro hreg
    obtain ⟨g, hg, hk, hlive⟩ := (hinv.registered_iff_live V f.ch).mp hreg
    have hU := hinv.live_registered hf hlive
    exact hinv.registered_unique hreg hU
  · intro U V E hUV
    obtain ⟨h', hp, _, _, _, hskip⟩ := Hub.Publish_spec hinv U E
    refine ⟨h', hp, ?_⟩
    intro k hreg
    have hnot : ¬ h.registered U k := fun hU => hUV (hinv.registered_unique hU hreg)
    exact ⟨hskip k hnot, Hub.queue_congr (hskip k hnot)⟩

theorem multi_subscriber_fan_out_witness :
    Reachable hubTwo [("u1", unsubTwo), ("u1", unsubOne)] ∧
    unsubOne ≠ unsubTwo ∧ hubTwo.registered "u1" unsubOne.ch ∧
    hubTwo.registered "u1" unsubTwo.ch ∧
    (unsubOne.ch ≠ unsubTwo.ch ∧
      ∃ h', hubTwo.Publish "u1" sampleEvent = .ok h' ∧
        h'.queue unsubOne.ch = hubTwo.queue unsubOne.ch ++ [sampleEvent] ∧
        h'.queue unsubTwo.ch = hubTwo.queue unsubTwo.ch ++ [sampleEvent]) :=
  have hone : hubTwo.registered "u1" unsubOne.ch := by
    show (0 : Nat) ∈ [0, 1]
    decide
  have htwo : hubTwo.registered "u1" unsubTwo.ch := by
    show (1 : Nat) ∈ [0, 1]
    decide
  ⟨reachable_hubTwo, by decide, hone, htwo,
    multi_subscriber_fan_out reachable_hubTwo "u1" sampleEvent unsubOne unsubTwo
      (by decide) (by decide) (by decide) hone htwo (by decide) (by decide)⟩

theorem no_subscriber_noop_witness :
    Reachable hubGone [("u1", unsubOne)] ∧
    (∀ f : Unsubscribe, ("u1", f) ∈ [("u1", unsubOne)] → hubGone.closed f.ch = true) ∧
    hubGone.Publish "u1" sampleEvent = .ok hubGone :=
  have hnone : ∀ f : Unsubscribe, ("u1", f) ∈ [("u1", unsubOne)] →
      hubGone.closed f.ch = true := by
    intro f hf
    have he : f = unsubOne := by simpa using hf
    rw [he]
    rfl
  ⟨reachable_hubGone, hnone, no_subscriber_noop reachable_hubGone "u1" sampleEvent hnone⟩

theorem per_user_isolation_witness :
    Reachable hubBoth [("u2", unsubOther), ("u1", unsubOne)] ∧
    hubBoth.registered "u2" unsubOther.ch ∧
    ((∀ (U V : String) (f : Unsubscribe), (U, f) ∈ [("u2", unsubOther), ("u1", unsubOne)] →
      (hubBoth.registered V f.ch → V = U) ∧
        (hubBoth.closed f.ch = false → hubBoth.registered U f.ch)) ∧
    (∀ U : String, (hubBoth.Subscribe U).hub.registered U (hubBoth.Subscribe U).stream) ∧
    (∀ (U V : String) (E : Event), U ≠ V →
      ∃ h', hubBoth.Publish U E = .ok h' ∧
        ∀ k : Nat, hubBoth.registered V k →
          h'.chans[k]? = hubBoth.chans[k]? ∧ h'.queue k = hubBoth.queue k)) :=
  have hreg : hubBoth.registered "u2" unsubOther.ch := by
    show (1 : Nat) ∈ [1]
    decide
  ⟨reachable_hubBoth, hreg, per_user_isolation reachable_hubBoth⟩

/-! ## The publish entrypoint -/

theorem PublishNotification_invalid (w : World) (p : Process) (u : String) (ev : Event)
    (hbad : u = "" ∨ ev.Type_ = "") : PublishNotification w p u ev = .ok p := by
  unfold PublishNotification
  rw [if_pos hbad]

theorem PublishNotification_bridge (w : World) (p : Process) (u : String) (ev : Event)
    (b : redisPubSubBridge) (hb : p.globalBridge = some b) (hu : u ≠ "")
    (ht : ev.Type_ ≠ "") :
    PublishNotification w p u ev =
      .ok (b.publish w { p with dispatched := p.dispatched ++ [.bridgePublish u ev] }
        u ev) := by
  unfold PublishNotification
  have hgood : ¬ (u = "" ∨ ev.Type_ = "") := fun h => h.elim hu ht
  rw [if_neg hgood]
  simp only [hb]

theorem PublishNotification_local (w : World) (p : Process) (u : String) (ev : Event)
    (hb : p.globalBridge = none) (hu : u ≠ "") (ht : ev.Type_ ≠ "") :
    PublishNotification w p u ev =
      (p.defaultHub.Publish u ev).map (fun h =>
        { p with defaultHub := h, dispatched := p.dispatched ++ [.hubPublish u ev] }) := by
  unfold PublishNotification
  have hgood : ¬ (u = "" ∨ ev.Type_ = "") := fun h => h.elim hu ht
  rw [if_neg hgood]
  simp only [hb]
  cases p.defaultHub.Publish u ev <;> rfl

/-- The bridge's `publish` touches neither the hub nor the bridge nor the record of
dispatched calls, and makes at most one `client.Publish` call, on its channel. -/
theorem redisPubSubBridge.publish_frame (b : redisPubSubBridge) (w : World)
    (p : Process) (u : String) (ev : Event) :
    (b.publish w p u ev).defaultHub = p.defaultHub ∧
    (b.publish w p u ev).globalBridge = p.globalBridge ∧
    (b.publish w p u ev).dispatched = p.dispatched ∧
    ((b.publish w p u ev).published = p.published ∨
      ∃ body : Json, (b.publish w p u ev).published = p.published ++ [(b.channel, body)]) := by
  simp only [redisPubSubBridge.publish]
  split
  · exact ⟨rfl, rfl, rfl, Or.inl rfl⟩
  · split
    · exact ⟨rfl, rfl, rfl, Or.inr ⟨_, rfl⟩⟩
    · exact ⟨rfl, rfl, rfl, Or.inr ⟨_, rfl⟩⟩

/-- What the bridge's `publish` hands to `client.Publish` for an event whose data
`json.Marshal` accepts. -/
theorem redisPubSubBridge.publish_body (b : redisPubSubBridge) (w : World)
    (p : Process) (u : String) (ev : Event) (hser : ev.Data ≠ .unsupported) :
    ∃ body : Json,
      redisEnvelope.marshal
        { UserUUID := u, Type_ := ev.Type_, Data := ev.Data, SentAt := w.now.UTC } =
          .ok body ∧
      (b.publish w p u ev).published = p.published ++ [(b.channel, body)] := by
  cases hd : ev.Data with
  | unsupported => exact absurd hd hser
  | nil =>
    refine ⟨.obj [("user_uuid", .str u), ("type", .str ev.Type_),
      ("sent_at", .time w.now.UTC)], rfl, ?_⟩
    simp only [redisPubSubBridge.publish, redisEnvelope.marshal, hd]
    split <;> rfl
  | val j =>
    refine ⟨.obj [("user_uuid", .str u), ("type", .str ev.Type_), ("data", j),
      ("sent_at", .time w.now.UTC)], rfl, ?_⟩
    simp only [redisPubSubBridge.publish, redisEnvelope.marshal, hd]
    split <;> rfl

/-- C7, input validation of `PublishNotification`: on a reachable hub the call
returns.  When the user or the event type is empty the whole process state is
unchanged (no hub change, no broker publish), with or without bridge.  When both
are non-empty, whatever the event data, the event is dispatched: with a bridge the
state afterwards is that of the one call `globalBridge.publish(userUUID, ev)`, which
leaves the hub alone and hands the encoded envelope to the broker whenever
`json.Marshal` accepts the data; without bridge it is that of the one call
`DefaultHub().Publish(userUUID, ev)`, which returns and offers the event to every
channel registered under the user, and nothing goes to the broker.  So a dispatch is
recorded if and only if both are non-empty. -/
theorem publish_notification_validation (w : World) (p : Process) (u : String)
    (ev : Event) {fs : List (String × Unsubscribe)} (hr : Reachable p.defaultHub fs) :
    ∃ p', PublishNotification w p u ev = .ok p' ∧
      ((u ≠ "" ∧ ev.Type_ ≠ "") ↔ ∃ c : Call, p'.dispatched = p.dispatched ++ [c]) ∧
      ((u ≠ "" ∧ ev.Type_ ≠ "") → p'.dispatched = p.dispatched ++
        [match p.globalBridge with
         | some _ => Call.bridgePublish u ev
         | none => Call.hubPublish u ev]) ∧
      ((u = "" ∨ ev.Type_ = "") → p' = p) ∧
      ((u ≠ "" ∧ ev.Type_ ≠ "") → ∀ b : redisPubSubBridge, p.globalBridge = some b →
        p' = b.publish w { p with dispatched := p.dispatched ++ [.bridgePublish u ev] } u ev ∧
        p'.defaultHub = p.defaultHub ∧
        (ev.Data ≠ .unsupported → ∃ body : Json,
          redisEnvelope.marshal
            { UserUUID := u, Type_ := ev.Type_, Data := ev.Data, SentAt := w.now.UTC } =
              .ok body ∧
          p'.published = p.published ++ [(b.channel, body)])) ∧
      ((u ≠ "" ∧ ev.Type_ ≠ "") → p.globalBridge = none →
        ∃ h' : Hub, p.defaultHub.Publish u ev = .ok h' ∧
          p' = { p with defaultHub := h', dispatched := p.dispatched ++ [.hubPublish u ev] } ∧
          (∀ k : Nat, p.defaultHub.registered u k →
            h'.chans[k]? = (p.defaultHub.chans[k]?).map (fun c => c.offer ev)) ∧
          p'.published = p.published) := by
  by_cases hbad : u = "" ∨ ev.Type_ = ""
  · have hno : ¬ (u ≠ "" ∧ ev.Type_ ≠ "") := fun hgood => hbad.elim hgood.1 hgood.2
    refine ⟨p, PublishNotification_invalid w p u ev hbad, ?_, fun hgood => absurd hgood hno,
      fun _ => rfl, fun hgood => absurd hgood hno, fun hgood => absurd hgood hno⟩
    constructor
    · intro hgood
      exact absurd hgood hno
    · rintro ⟨c, hc⟩
      have := congrArg List.length hc
      simp at this
  · have hu : u ≠ "" := fun h => hbad (Or.inl h)
    have ht : ev.Type_ ≠ "" := fun h => hbad (Or.inr h)
    cases hb : p.globalBridge with
    | some b =>
      obtain ⟨hhub, _, hdis, _⟩ := redisPubSubBridge.publish_frame b w
        { p with dispatched := p.dispatched ++ [.bridgePublish u ev] } u ev
      refine ⟨_, PublishNotification_bridge w p u ev b hb hu ht, ?_, fun _ => hdis,
        fun h => absurd h hbad, ?_, ?_⟩
      · constructor
        · intro _
          exact ⟨_, hdis⟩
        · intro _
          exact ⟨hu, ht⟩
      · intro _ b' hb'
        cases hb'
        exact ⟨by rw [hb], hhub, fun hser => redisPubSubBridge.publish_body b w _ u ev hser⟩
      · intro _ hnone
        cases hnone
    | none =>
      obtain ⟨h', hp, _, _, hreg, _⟩ := Hub.Publish_spec hr.inv u ev
      refine ⟨{ p with defaultHub := h',
                       dispatched := p.dispatched ++ [.hubPublish u ev] }, ?_, ?_,
        fun _ => rfl, fun h => absurd h hbad, ?_, ?_⟩
      · rw [PublishNotification_local w p u ev hb hu ht, hp]
        rfl
      · constructor
        · intro _
          exact ⟨_, rfl⟩
        · intro _
          exact ⟨hu, ht⟩
      · intro _ b' hb'
        cases hb'
      · intro _ _
        exact ⟨h', hp, by rw [hb], hreg, rfl⟩

theorem publish_notification_validation_witness :
    Reachable procLocal.defaultHub [("u1", unsubOne)] ∧
    PublishNotification sampleWorld procLocal "u1" sampleEvent =
      .ok { procLocal with
        defaultHub := { hubOne with chans := [{ buf := [sampleEvent], cap := 16, closed := false }] }
        dispatched := [.hubPublish "u1" sampleEvent] } ∧
    ∃ p', PublishNotification sampleWorld procLocal "u1" sampleEvent = .ok p' ∧
      (("u1" ≠ "" ∧ sampleEvent.Type_ ≠ "") ↔
        ∃ c : Call, p'.dispatched = procLocal.dispatched ++ [c]) ∧
      (("u1" ≠ "" ∧ sampleEvent.Type_ ≠ "") → p'.dispatched = procLocal.dispatched ++
        [match procLocal.globalBridge with
         | some _ => Call.bridgePublish "u1" sampleEvent
         | none => Call.hubPublish "u1" sampleEvent]) ∧
      (("u1" = "" ∨ sampleEvent.Type_ = "") → p' = procLocal) ∧
      (("u1" ≠ "" ∧ sampleEvent.Type_ ≠ "") →
        ∀ b : redisPubSubBridge, procLocal.globalBridge = some b →
        p' = b.publish sampleWorld { procLocal with
          dispatched := procLocal.dispatched ++ [.bridgePublish "u1" sampleEvent] }
            "u1" sampleEvent ∧
        p'.defaultHub = procLocal.defaultHub ∧
        (sampleEvent.Data ≠ .unsupported → ∃ body : Json,
          redisEnvelope.marshal
            { UserUUID := "u1", Type_ := sampleEvent.Type_, Data := sampleEvent.Data,
              SentAt := sampleWorld.now.UTC } = .ok body ∧
          p'.published = procLocal.published ++ [(b.channel, body)])) ∧
      (("u1" ≠ "" ∧ sampleEvent.Type_ ≠ "") → procLocal.globalBridge = none →
        ∃ h' : Hub, procLocal.defaultHub.Publish "u1" sampleEvent = .ok h' ∧
          p' = { procLocal with
            defaultHub := h'
            dispatched := procLocal.dispatched ++ [.hubPublish "u1" sampleEvent] } ∧
          (∀ k : Nat, procLocal.defaultHub.registered "u1" k →
            h'.chans[k]? = (procLocal.defaultHub.chans[k]?).map (fun c => c.offer sampleEvent)) ∧
          p'.published = procLocal.published) :=
  ⟨reachable_hubOne, rfl,
    publish_notification_validation sampleWorld procLocal "u1" sampleEvent reachable_hubOne⟩

/-- C8, bridge bypass: with no bridge configured, for a non-empty user and an event
of non-empty type, `PublishNotification` is `DefaultHub().Publish` on the hub (same
hub afterwards, same panic if any) and changes nothing else but the record of the
call; in the scenario `Subscribe("u1")`, then `PublishNotification("u1",
{notification.created, {"unread_count": 3}})`, the stream yields that same event
and nothing goes to the broker. -/
theorem bridge_bypass (w : World) (p : Process) (u : String) (ev : Event)
    (hb : p.globalBridge = none) (hu : u ≠ "") (ht : ev.Type_ ≠ "") :
    PublishNotification w p u ev =
      (p.defaultHub.Publish u ev).map (fun h =>
        { p with defaultHub := h, dispatched := p.dispatched ++ [.hubPublish u ev] }) ∧
    ∃ p' h'', PublishNotification w { Process.start with
        defaultHub := (Process.start.defaultHub.Subscribe "u1").hub } "u1" sampleEvent =
          .ok p' ∧
      p'.defaultHub.recv (Process.start.defaultHub.Subscribe "u1").stream =
        .item sampleEvent h'' ∧
      p'.published = [] :=
  ⟨PublishNotification_local w p u ev hb hu ht, _, _, rfl, rfl, rfl⟩

theorem bridge_bypass_witness :
    procLocal.globalBridge = none ∧ "u1" ≠ "" ∧ sampleEvent.Type_ ≠ "" ∧
    (PublishNotification sampleWorld procLocal "u1" sampleEvent =
      (procLocal.defaultHub.Publish "u1" sampleEvent).map (fun h =>
        { procLocal with
          defaultHub := h
          dispatched := procLocal.dispatched ++ [.hubPublish "u1" sampleEvent] }) ∧
    ∃ p' h'', PublishNotification sampleWorld { Process.start with
        defaultHub := (Process.start.defaultHub.Subscribe "u1").hub } "u1" sampleEvent =
          .ok p' ∧
      p'.defaultHub.recv (Process.start.defaultHub.Subscribe "u1").stream =
        .item sampleEvent h'' ∧
      p'.published = []) :=
  ⟨rfl, by decide, by decide,
    bridge_bypass sampleWorld procLocal "u1" sampleEvent rfl (by decide) (by decide)⟩

/-- C9, single-choice dispatch with an active bridge: with a bridge active, for a
non-empty user and an event of non-empty type, `PublishNotification` returns and the
state afterwards is that of the one call `globalBridge.publish(userUUID, ev)`: when
`json.Marshal` accepts the data exactly one message, the encoded envelope, is handed
to the broker on the bridge's channel (whatever the broker answers), otherwise none;
the local hub and the bridge variable are unchanged, so nothing is injected into the
local hub by the call itself. -/
theorem bridge_single_dispatch (w : World) (p : Process) (u : String) (ev : Event)
    (b : redisPubSubBridge) (hb : p.globalBridge = some b) (hu : u ≠ "")
    (ht : ev.Type_ ≠ "") :
    ∃ p', PublishNotification w p u ev = .ok p' ∧
      p'.defaultHub = p.defaultHub ∧
      p'.globalBridge = some b ∧
      p'.dispatched = p.dispatched ++ [.bridgePublish u ev] ∧
      (p'.published = p.published ∨
        ∃ body : Json, p'.published = p.published ++ [(b.channel, body)]) ∧
      p' = b.publish w { p with dispatched := p.dispatched ++ [.bridgePublish u ev] } u ev ∧
      (ev.Data ≠ .unsupported → ∃ body : Json,
        redisEnvelope.marshal
          { UserUUID := u, Type_ := ev.Type_, Data := ev.Data, SentAt := w.now.UTC } =
            .ok body ∧
        p'.published = p.published ++ [(b.channel, body)]) ∧
      (ev.Data = .unsupported → p'.published = p.published) := by
  refine ⟨_, PublishNotification_bridge w p u ev b hb hu ht, ?_⟩
  obtain ⟨hhub, hbr, hdis, hpub⟩ := redisPubSubBridge.publish_frame b w
    { p with dispatched := p.dispatched ++ [.bridgePublish u ev] } u ev
  refine ⟨hhub, hbr.trans hb, hdis, hpub, rfl,
    fun hser => redisPubSubBridge.publish_body b w _ u ev hser, ?_⟩
  intro hun
  simp only [redisPubSubBridge.publish, redisEnvelope.marshal, hun]

theorem bridge_single_dispatch_witness :
    procBridged.globalBridge = some sampleBridge ∧ "u1" ≠ "" ∧ sampleEvent.Type_ ≠ "" ∧
    PublishNotification sampleWorld procBridged "u1" sampleEvent =
      .ok { procBridged with
        published := [(defaultRedisChannel,
          .obj [("user_uuid", .str "u1"), ("type", .str "notification.created"),
            ("data", .obj [("unread_count", .num 3)]),
            ("sent_at", .time { unixNano := 1700000000000000000, zoneOffset := 0 })])]
        dispatched := [.bridgePublish "u1" sampleEvent] } ∧
    ∃ p', PublishNotification sampleWorld procBridged "u1" sampleEvent = .ok p' ∧
      p'.defaultHub = procBridged.defaultHub ∧
      p'.globalBridge = some sampleBridge ∧
      p'.dispatched = procBridged.dispatched ++ [.bridgePublish "u1" sampleEvent] ∧
      (p'.published = procBridged.published ∨
        ∃ body : Json,
          p'.published = procBridged.published ++ [(sampleBridge.channel, body)]) ∧
      p' = sampleBridge.publish sampleWorld { procBridged with
        dispatched := procBridged.dispatched ++ [.bridgePublish "u1" sampleEvent] }
          "u1" sampleEvent ∧
      (sampleEvent.Data ≠ .unsupported → ∃ body : Json,
        redisEnvelope.marshal
          { UserUUID := "u1", Type_ := sampleEvent.Type_, Data := sampleEvent.Data,
            SentAt := sampleWorld.now.UTC } = .ok body ∧
        p'.published = procBridged.published ++ [(sampleBridge.channel, body)]) ∧
      (sampleEvent.Data = .unsupported → p'.published = procBridged.published) :=
  ⟨rfl, by decide, by decide, rfl,
    bridge_single_dispatch sampleWorld procBridged "u1" sampleEvent sampleBridge rfl
      (by decide) (by decide)⟩

/-- C10 as stated fails: for `Event{Type: "bench"}`, whose data is the nil interface
(which `json.Marshal` accepts), the message handed to the broker has the members
`user_uuid`, `type` and `sent_at` only; it has no member `data`. -/
theorem relay_wire_format_nil_data :
    benchEvent.Data ≠ Any.unsupported ∧
    (sampleBridge.publish sampleWorld procBridged "user-1" benchEvent).published =
      [(defaultRedisChannel, benchBody)] ∧
    benchBody.keys = ["user_uuid", "type", "sent_at"] ∧
    benchBody.member "data" = none ∧
    ¬ ∃ (body d : Json),
      (sampleBridge.publish sampleWorld procBridged "user-1" benchEvent).published =
        procBridged.published ++ [(sampleBridge.channel, body)] ∧
      body.member "data" = some d := by
  refine ⟨fun h => Any.noConfusion h, rfl, rfl, rfl, ?_⟩
  rintro ⟨body, d, hpub, hd⟩
  have hval : (sampleBridge.publish sampleWorld procBridged "user-1" benchEvent).published =
      [(defaultRedisChannel, benchBody)] := rfl
  rw [hval] at hpub
  have hbody : benchBody = body := by
    have h2 : [(defaultRedisChannel, benchBody)] = [(sampleBridge.channel, body)] := hpub
    simp only [List.cons.injEq, Prod.mk.injEq, and_true] at h2
    exact h2.2
  rw [← hbody] at hd
  exact Option.noConfusion (show (none : Option Json) = some d from hd)

/-- C10, amended: for an event whose data `json.Marshal` accepts, the bridge's
publish hands exactly one message to the broker on the bridge's channel (whatever
the broker then answers): it is the encoding of the envelope, one JSON object with
`user_uuid` equal to the user, `type` equal to the event type and `sent_at` equal to
the clock reading in UTC, and with `data` equal to the event data when that is not
the nil interface; for nil data the object has no member `data`. -/
theorem relay_wire_format (b : redisPubSubBridge) (w : World) (p : Process)
    (u : String) (ev : Event) (hser : ev.Data ≠ .unsupported) :
    ∃ body : Json,
      (b.publish w p u ev).published = p.published ++ [(b.channel, body)] ∧
      body.member "user_uuid" = some (.str u) ∧
      body.member "type" = some (.str ev.Type_) ∧
      body.member "sent_at" = some (.time w.now.UTC) ∧
      w.now.UTC.unixNano = w.now.unixNano ∧ w.now.UTC.zoneOffset = 0 ∧
      (∀ j : Json, ev.Data = .val j →
        body.member "data" = some j ∧
          body.keys = ["user_uuid", "type", "data", "sent_at"]) ∧
      (ev.Data = .nil →
        body.member "data" = none ∧ body.keys = ["user_uuid", "type", "sent_at"]) := by
  obtain ⟨body, hm, hpub⟩ := redisPubSubBridge.publish_body b w p u ev hser
  refine ⟨body, hpub, ?_⟩
  cases hd : ev.Data with
  | unsupported => exact absurd hd hser
  | nil =>
    simp only [redisEnvelope.marshal, hd, Except.ok.injEq] at hm
    subst hm
    refine ⟨rfl, rfl, rfl, rfl, rfl, ?_, fun _ => ⟨rfl, rfl⟩⟩
    intro j hj
    cases hj
  | val j =>
    simp only [redisEnvelope.marshal, hd, Except.ok.injEq] at hm
    subst hm
    refine ⟨rfl, rfl, rfl, rfl, rfl, ?_, ?_⟩
    · intro j' hj
      cases hj
      exact ⟨rfl, rfl⟩
    · intro hnil
      cases hnil

theorem relay_wire_format_witness :
    sampleEvent.Data ≠ Any.unsupported ∧
    ∃ body : Json,
      (sampleBridge.publish sampleWorld procBridged "u1" sampleEvent).published =
        procBridged.published ++ [(sampleBridge.channel, body)] ∧
      body.member "user_uuid" = some (.str "u1") ∧
      body.member "type" = some (.str sampleEvent.Type_) ∧
      body.member "sent_at" = some (.time sampleWorld.now.UTC) ∧
      sampleWorld.now.UTC.unixNano = sampleWorld.now.unixNano ∧
      sampleWorld.now.UTC.zoneOffset = 0 ∧
      (∀ j : Json, sampleEvent.Data = .val j →
        body.member "data" = some j ∧
          body.keys = ["user_uuid", "type", "data", "sent_at"]) ∧
      (sampleEvent.Data = .nil →
        body.member "data" = none ∧ body.keys = ["user_uuid", "type", "sent_at"]) :=
  ⟨fun h => Any.noConfusion h,
    relay_wire_format sampleBridge sampleWorld procBridged "u1" sampleEvent
      (fun h => Any.noConfusion h)⟩

/-! ## Unsubscribe, call by call -/

theorem Unsubscribe.call_ok {h : Hub} {fs : List (String × Unsubscribe)} (hinv : Inv h fs)
    (u : String) (f : Unsubscribe) (hf : (u, f) ∈ fs) (hlive : h.closed f.ch = false) :
    ∃ h1, f.call h = .ok h1 := by
  obtain ⟨_, c, hc, _⟩ := hinv.handle u f hf
  have hcl : c.closed = false := by
    unfold Hub.closed at hlive
    rw [hc] at hlive
    exact hlive
  refine ⟨{ h with
    inners := heapUpdate h.inners f.inner (fun keys => innerDelete keys f.ch)
    chans := h.chans.set f.ch { c with closed := true } }, ?_⟩
  simp only [Unsubscribe.call, hc, Chan.close, hcl]
  rfl

theorem Inv.registered_open {h : Hub} {fs : List (String × Unsubscribe)} (hinv : Inv h fs)
    {u : String} {k : Nat} (hreg : h.registered u k) : h.closed k = false := by
  obtain ⟨c, hc, hcl, _⟩ := hinv.registered_chan hreg
  unfold Hub.closed
  rw [hc]
  exact hcl

/-- What a returning unsubscribe call does: its own channel is closed and registered
nowhere, every other channel keeps its registration and its content. -/
theorem Unsubscribe.call_frame {h h1 : Hub} {fs : List (String × Unsubscribe)}
    (hinv : Inv h fs) (u : String) (f : Unsubscribe) (hf : (u, f) ∈ fs)
    (hcall : f.call h = .ok h1) :
    h1.closed f.ch = true ∧ (∀ v : String, ¬ h1.registered v f.ch) ∧
    ∀ (v : String) (k : Nat), k ≠ f.ch →
      (h1.registered v k ↔ h.registered v k) ∧ h1.chans[k]? = h.chans[k]? := by
  obtain ⟨c, hc, _, _, hs, hi, hch⟩ := Unsubscribe.call_spec hinv u f hf hcall
  have hlt : f.ch < h.chans.length := (List.getElem?_eq_some_iff.mp hc).1
  have hcl : h1.closed f.ch = true := by
    unfold Hub.closed
    rw [hch]
    simp [List.getElem?_set, hlt]
  have hinv1 := hinv.unsubscribe u f hf hcall
  refine ⟨hcl, fun v => hinv1.closed_unregistered hcl v, ?_⟩
  intro v k hk
  constructor
  · rw [Hub.registered_iff, Hub.registered_iff, hs, hi]
    constructor
    · rintro ⟨i, hl, hmem⟩
      exact ⟨i, hl, ((Unsubscribe.call_mem_keys h f i k).mp hmem).1⟩
    · rintro ⟨i, hl, hmem⟩
      exact ⟨i, hl, (Unsubscribe.call_mem_keys h f i k).mpr ⟨hmem, fun hb => hk hb.2⟩⟩
  · have hne : ¬ f.ch = k := fun e => hk e.symm
    rw [hch]
    simp [List.getElem?_set, hne]

/-- C16, unsubscribe affects only its own subscription: in every reachable hub
state, the call of the unsubscribe closure of a registered subscription returns,
leaves its channel closed and registered under no user, and leaves every other
registered channel, of the same user or of another, registered, open and with the
same queue. -/
theorem unsubscribe_only_own {h : Hub} {fs : List (String × Unsubscribe)}
    (hr : Reachable h fs) (U : String) (f : Unsubscribe) (hsub : (U, f) ∈ fs)
    (hreg : h.registered U f.ch) :
    ∃ h1, f.call h = .ok h1 ∧ h1.closed f.ch = true ∧
      (∀ V : String, ¬ h1.registered V f.ch) ∧
      ∀ (V : String) (k : Nat), k ≠ f.ch → h.registered V k →
        h1.registered V k ∧ h1.closed k = false ∧ h1.queue k = h.queue k := by
  have hinv := hr.inv
  obtain ⟨h1, hcall⟩ := Unsubscribe.call_ok hinv U f hsub (hinv.registered_open hreg)
  obtain ⟨hcl, hgone, hrest⟩ := Unsubscribe.call_frame hinv U f hsub hcall
  refine ⟨h1, hcall, hcl, hgone, ?_⟩
  intro V k hk hVk
  obtain ⟨hiff, hsame⟩ := hrest V k hk
  exact ⟨hiff.mpr hVk, (Hub.closed_congr hsame).trans (hinv.registered_open hVk),
    Hub.queue_congr hsame⟩

theorem unsubscribe_only_own_witness :
    Reachable hubTwo [("u1", unsubTwo), ("u1", unsubOne)] ∧
    hubTwo.registered "u1" unsubOne.ch ∧ hubTwo.registered "u1" unsubTwo.ch ∧
    ∃ h1, unsubOne.call hubTwo = .ok h1 ∧ h1.closed unsubOne.ch = true ∧
      (∀ V : String, ¬ h1.registered V unsubOne.ch) ∧
      ∀ (V : String) (k : Nat), k ≠ unsubOne.ch → hubTwo.registered V k →
        h1.registered V k ∧ h1.closed k = false ∧ h1.queue k = hubTwo.queue k :=
  have hone : hubTwo.registered "u1" unsubOne.ch := by
    show (0 : Nat) ∈ [0, 1]
    decide
  have htwo : hubTwo.registered "u1" unsubTwo.ch := by
    show (1 : Nat) ∈ [0, 1]
    decide
  ⟨reachable_hubTwo, hone, htwo,
    unsubscribe_only_own reachable_hubTwo "u1" unsubOne (by decide) hone⟩

/-! ## First in, first out -/

/-- The queue of a registered channel after `Publish` for its user. -/
theorem Inv.publish_queue {h h' : Hub} {fs : List (String × Unsubscribe)}
    (hinv : Inv h fs) {u : String} {ev : Event} {k : Nat}
    (hsend : h'.chans[k]? = (h.chans[k]?).map (fun c => c.offer ev))
    (hreg : h.registered u k) :
    h'.queue k = if (h.queue k).length < 16 then h.queue k ++ [ev] else h.queue k := by
  by_cases hroom : (h.queue k).length < 16
  · rw [if_pos hroom]
    exact hinv.publish_enqueue hsend hreg hroom
  · rw [if_neg hroom]
    obtain ⟨c, hc, _, hcap, hbuf⟩ := hinv.registered_chan hreg
    rw [hc] at hsend
    have hfull : ¬ c.buf.length < c.cap := by rw [hbuf, hcap]; exact hroom
    unfold Hub.queue
    rw [hsend, hc]
    simp [Chan.offer, hfull]

theorem Hub.registered_congr {h h' : Hub} (hs : h'.subscribers = h.subscribers)
    (hi : h'.inners = h.inners) (u : String) (k : Nat) :
    h'.registered u k ↔ h.registered u k := by
  rw [Hub.registered_iff, Hub.registered_iff, hs, hi]

theorem acceptedEvents_sublist (ops : List StreamOp) :
    ∀ n : Nat, (acceptedEvents n ops).Sublist (publishedEvents ops) := by
  induction ops with
  | nil => intro n; exact List.Sublist.slnil
  | cons op rest ih =>
    intro n
    cases op with
    | publish ev =>
      simp only [acceptedEvents, publishedEvents]
      split
      · exact (ih (n + 1)).cons₂ ev
      · exact (ih n).cons ev
    | receive =>
      simp only [acceptedEvents, publishedEvents]
      exact ih (n - 1)

/-- A run of publishes and receives on a registered stream returns; what was
received followed by what is still queued is the initial queue followed by the
enqueued events, and the enqueued events are those the drop-on-full policy accepts. -/
theorem FifoRun.run_spec {fs : List (String × Unsubscribe)} (u : String) (ch : Nat)
    (ops : List StreamOp) :
    ∀ r : FifoRun, Inv r.hub fs → r.hub.registered u ch →
      ∃ r', r.run u ch ops = .ok r' ∧
        r'.received ++ r'.hub.queue ch =
          r.received ++ r.hub.queue ch ++ acceptedEvents (r.hub.queue ch).length ops ∧
        r'.enqueued = r.enqueued ++ acceptedEvents (r.hub.queue ch).length ops := by
  induction ops with
  | nil =>
    intro r _ _
    exact ⟨r, rfl, by simp [acceptedEvents], by simp [acceptedEvents]⟩
  | cons op rest ih =>
    intro r hinv hreg
    cases op with
    | publish ev =>
      obtain ⟨h', hp, hs, hi, hsend, _⟩ := Hub.Publish_spec hinv u ev
      have hq := hinv.publish_queue (hsend ch hreg) hreg
      have hinv' := hinv.publish u ev hp
      have hreg' : h'.registered u ch := (Hub.registered_congr hs hi u ch).mpr hreg
      by_cases hroom : (r.hub.queue ch).length < 16
      · rw [if_pos hroom] at hq
        have hgrow : (r.hub.queue ch).length < (h'.queue ch).length := by
          rw [hq]; simp
        obtain ⟨r', hrun, hrec, henq⟩ :=
          ih { hub := h', received := r.received, enqueued := r.enqueued ++ [ev] }
            hinv' hreg'
        refine ⟨r', ?_, ?_, ?_⟩
        · simp only [FifoRun.run, FifoRun.step, hp, if_pos hgrow]
          exact hrun
        · rw [hrec]
          simp only [hq, acceptedEvents, if_pos hroom, List.length_append,
            List.length_singleton, List.append_assoc, List.singleton_append]
        · rw [henq]
          simp only [hq, acceptedEvents, if_pos hroom, List.length_append,
            List.length_singleton, List.append_assoc, List.singleton_append]
      · rw [if_neg hroom] at hq
        have hsame : ¬ (r.hub.queue ch).length < (h'.queue ch).length := by
          rw [hq]; exact Nat.lt_irrefl _
        obtain ⟨r', hrun, hrec, henq⟩ :=
          ih { hub := h', received := r.received, enqueued := r.enqueued } hinv' hreg'
        refine ⟨r', ?_, ?_, ?_⟩
        · simp only [FifoRun.run, FifoRun.step, hp, if_neg hsame]
          exact hrun
        · rw [hrec]
          simp only [hq, acceptedEvents, if_neg hroom]
        · rw [henq]
          simp only [hq, acceptedEvents, if_neg hroom]
    | receive =>
      obtain ⟨c, hc, hopen, _, hbuf⟩ := hinv.registered_chan hreg
      have hlt : ch < r.hub.chans.length := (List.getElem?_eq_some_iff.mp hc).1
      cases hb : c.buf with
      | nil =>
        have hq : r.hub.queue ch = [] := by rw [← hbuf, hb]
        have hrecv : r.hub.recv ch = .blocked := by
          simp only [Hub.recv, hc, hb, hopen]
          rfl
        obtain ⟨r', hrun, hrec, henq⟩ := ih r hinv hreg
        refine ⟨r', ?_, ?_, ?_⟩
        · simp only [FifoRun.run, FifoRun.step, hrecv]
          exact hrun
        · rw [hrec]
          simp only [hq, acceptedEvents, List.length_nil]
        · rw [henq]
          simp only [hq, acceptedEvents, List.length_nil]
      | cons e tail =>
        have hq : r.hub.queue ch = e :: tail := by rw [← hbuf, hb]
        have hrecv : r.hub.recv ch = .item e
            { r.hub with chans := r.hub.chans.set ch { c with buf := tail } } := by
          simp only [Hub.recv, hc, hb]
        have hinv' := hinv.recv ch e hrecv
        have hq' : Hub.queue
            { r.hub with chans := r.hub.chans.set ch { c with buf := tail } } ch = tail := by
          simp [Hub.queue, List.getElem?_set, hlt]
        obtain ⟨r', hrun, hrec, henq⟩ :=
          ih { hub := { r.hub with chans := r.hub.chans.set ch { c with buf := tail } },
               received := r.received ++ [e], enqueued := r.enqueued }
            hinv' ((Hub.registered_congr rfl rfl u ch).mpr hreg)
        refine ⟨r', ?_, ?_, ?_⟩
        · simp only [FifoRun.run, FifoRun.step, hrecv]
          exact hrun
        · rw [hrec]
          simp only [hq, hq', acceptedEvents, List.length_cons, Nat.add_sub_cancel,
            List.append_assoc, List.singleton_append]
        · rw [henq]
          simp only [hq, hq', acceptedEvents, List.length_cons, Nat.add_sub_cancel]

/-- C17, per-subscription FIFO: in every reachable hub state, for a live
subscription of `U` and every sequence of `Publish(U, ·)` calls and receives on its
stream, every call returns; the events received, followed by those still queued,
are the initially queued events followed by the successfully enqueued ones, in the
order of their `Publish` calls; the enqueued events form a subsequence of the
published ones, from which exactly the events published onto a full queue are
missing. -/
theorem per_subscription_fifo {h : Hub} {fs : List (String × Unsubscribe)}
    (hr : Reachable h fs) (U : String) (f : Unsubscribe) (hsub : (U, f) ∈ fs)
    (hlive : h.closed f.ch = false) (ops : List StreamOp) :
    ∃ r : FifoRun,
      FifoRun.run U f.ch { hub := h, received := [], enqueued := [] } ops = .ok r ∧
      r.received ++ r.hub.queue f.ch = h.queue f.ch ++ r.enqueued ∧
      r.received <+: h.queue f.ch ++ r.enqueued ∧
      r.enqueued.Sublist (publishedEvents ops) ∧
      r.enqueued = acceptedEvents (h.queue f.ch).length ops := by
  have hinv := hr.inv
  have hreg := hinv.live_registered hsub hlive
  obtain ⟨r, hrun, hrec, henq⟩ :=
    FifoRun.run_spec U f.ch ops { hub := h, received := [], enqueued := [] } hinv hreg
  simp only [List.nil_append] at hrec henq
  have heq : r.received ++ r.hub.queue f.ch = h.queue f.ch ++ r.enqueued := by
    rw [hrec, henq]
  refine ⟨r, hrun, heq, ⟨r.hub.queue f.ch, heq⟩, ?_, henq⟩
  rw [henq]
  exact acceptedEvents_sublist ops _

theorem per_subscription_fifo_witness :
    Reachable hubOne [("u1", unsubOne)] ∧ ("u1", unsubOne) ∈ [("u1", unsubOne)] ∧
    hubOne.closed unsubOne.ch = false ∧
    ∃ r : FifoRun,
      FifoRun.run "u1" unsubOne.ch { hub := hubOne, received := [], enqueued := [] }
        [.publish sampleEvent, .publish benchEvent, .receive] = .ok r ∧
      r.received ++ r.hub.queue unsubOne.ch = hubOne.queue unsubOne.ch ++ r.enqueued ∧
      r.received <+: hubOne.queue unsubOne.ch ++ r.enqueued ∧
      r.enqueued.Sublist
        (publishedEvents [.publish sampleEvent, .publish benchEvent, .receive]) ∧
      r.enqueued = acceptedEvents (hubOne.queue unsubOne.ch).length
        [.publish sampleEvent, .publish benchEvent, .receive] :=
  ⟨reachable_hubOne, List.mem_singleton.mpr rfl, rfl,
    per_subscription_fifo reachable_hubOne "u1" unsubOne (List.mem_singleton.mpr rfl) rfl
      [.publish sampleEvent, .publish benchEvent, .receive]⟩

/-! ## The registry only grows -/

theorem Hub.Publish_maps {h h' : Hub} {u : String} {ev : Event}
    (hp : h.Publish u ev = .ok h') :
    h'.subscribers = h.subscribers ∧ h'.inners = h.inners := by
  unfold Hub.Publish at hp
  cases hl : syncMapLoad h.subscribers u with
  | none =>
    simp only [hl, Except.ok.injEq] at hp
    subst hp
    exact ⟨rfl, rfl⟩
  | some i =>
    simp only [hl] at hp
    cases hr : publishRange ev h.chans ((h.inners[i]?).getD []) with
    | error p => rw [hr] at hp; cases hp
    | ok chans =>
      rw [hr] at hp
      simp only [Except.ok.injEq] at hp
      subst hp
      exact ⟨rfl, rfl⟩

theorem Unsubscribe.call_subscribers {h h' : Hub} {f : Unsubscribe}
    (hcall : f.call h = .ok h') : h'.subscribers = h.subscribers := by
  unfold Unsubscribe.call at hcall
  cases hc : h.chans[f.ch]? with
  | none => simp only [hc] at hcall; cases hcall
  | some c =>
    simp only [hc] at hcall
    cases hcl : c.close with
    | error p => rw [hcl] at hcall; cases hcall
    | ok c' =>
      rw [hcl] at hcall
      simp only [Except.ok.injEq] at hcall
      subst hcall
      rfl

theorem Hub.Subscribe_load (h : Hub) (v u : String) (i : Nat)
    (hl : syncMapLoad h.subscribers u = some i) :
    syncMapLoad (h.Subscribe v).hub.subscribers u = some i := by
  simp only [Hub.Subscribe, syncMapLoadOrStore]
  cases hv : syncMapLoad h.subscribers v with
  | some j => exact hl
  | none =>
    simp only [syncMapLoad_append, hl]

theorem Hub.apply_load {h h' : Hub} {op : Op} (hop : h.apply op = .ok h') (u : String)
    (i : Nat) (hl : syncMapLoad h.subscribers u = some i) :
    syncMapLoad h'.subscribers u = some i := by
  cases op with
  | subscribe v =>
    simp only [Hub.apply, Except.ok.injEq] at hop
    subst hop
    exact Hub.Subscribe_load h v u i hl
  | publish v ev =>
    rw [(Hub.Publish_maps hop).1]
    exact hl
  | unsubscribe f =>
    rw [Unsubscribe.call_subscribers hop]
    exact hl

theorem Hub.applyAll_load (ops : List Op) :
    ∀ {h h' : Hub}, h.applyAll ops = .ok h' → ∀ (u : String) (i : Nat),
      syncMapLoad h.subscribers u = some i → syncMapLoad h'.subscribers u = some i := by
  induction ops with
  | nil =>
    intro h h' hrun u i hl
    simp only [Hub.applyAll, Except.ok.injEq] at hrun
    subst hrun
    exact hl
  | cons op rest ih =>
    intro h h' hrun u i hl
    simp only [Hub.applyAll] at hrun
    cases hop : h.apply op with
    | error p => rw [hop] at hrun; cases hrun
    | ok h1 =>
      rw [hop] at hrun
      exact ih hrun u i (Hub.apply_load hop u i hl)

theorem Hub.mem_users_iff (h : Hub) (u : String) :
    u ∈ h.users ↔ ∃ i, syncMapLoad h.subscribers u = some i := by
  unfold Hub.users
  induction h.subscribers with
  | nil => simp [syncMapLoad]
  | cons e rest ih =>
    obtain ⟨k, v⟩ := e
    by_cases hk : k = u
    · simp [syncMapLoad, hk]
    · have hne : ¬ u = k := fun e => hk e.symm
      simp [syncMapLoad, hk, hne, ih]

/-- C19, the registry never reclaims user entries: from every reachable hub state,
after every returning sequence of `Subscribe`, `Publish` and unsubscribe calls
each user that had an entry still has it (bound to the same inner set), so the set
of user IDs never shrinks; and when the last live subscription of `U` is
unsubscribed, `U` still has its entry, now with an empty subscriber set. -/
theorem registry_never_reclaims {h : Hub} {fs : List (String × Unsubscribe)}
    (hr : Reachable h fs) (ops : List Op) (h' : Hub) (hrun : h.applyAll ops = .ok h') :
    (∀ (u : String) (i : Nat), syncMapLoad h.subscribers u = some i →
      syncMapLoad h'.subscribers u = some i) ∧
    (∀ u : String, u ∈ h.users → u ∈ h'.users) ∧
    (∀ (U : String) (f : Unsubscribe) (h1 : Hub), (U, f) ∈ fs →
      (∀ g : Unsubscribe, (U, g) ∈ fs → g ≠ f → h.closed g.ch = true) →
      f.call h = .ok h1 →
        U ∈ h1.users ∧ syncMapLoad h1.subscribers U = some f.inner ∧
        (h1.inners[f.inner]?).getD [] = [] ∧ ∀ k : Nat, ¬ h1.registered U k) := by
  have hinv := hr.inv
  refine ⟨Hub.applyAll_load ops hrun, ?_, ?_⟩
  · intro u hu
    obtain ⟨i, hi⟩ := (Hub.mem_users_iff h u).mp hu
    exact (Hub.mem_users_iff h' u).mpr ⟨i, Hub.applyAll_load ops hrun u i hi⟩
  · intro U f h1 hsub hlast hcall
    obtain ⟨c, hc, _, _, hs, hi, _⟩ := Unsubscribe.call_spec hinv U f hsub hcall
    have hload : syncMapLoad h1.subscribers U = some f.inner := by
      rw [hs]
      exact (hinv.handle U f hsub).1
    have hempty : (h1.inners[f.inner]?).getD [] = [] := by
      apply List.eq_nil_iff_forall_not_mem.mpr
      intro k hk
      rw [hi] at hk
      obtain ⟨hk0, hnot⟩ := (Unsubscribe.call_mem_keys h f f.inner k).mp hk
      have hkne : k ≠ f.ch := fun e => hnot ⟨rfl, e⟩
      obtain ⟨v, hv, hmem⟩ := hinv.issued f.inner k hk0
      have hvU : v = U := hinv.inner_inj v U f.inner hv (hinv.handle U f hsub).1
      subst hvU
      have hne : Unsubscribe.mk f.inner k ≠ f := by
        intro e
        apply hkne
        rw [← e]
      have hcl := hlast _ hmem hne
      obtain ⟨c', hc', hopen⟩ := hinv.key_open f.inner k hk0
      unfold Hub.closed at hcl
      simp only [hc'] at hcl
      rw [hcl] at hopen
      cases hopen
    refine ⟨(Hub.mem_users_iff h1 U).mpr ⟨_, hload⟩, hload, hempty, ?_⟩
    intro k hreg
    obtain ⟨i, hi', hk⟩ := (Hub.registered_iff h1 U k).mp hreg
    rw [hload] at hi'
    cases hi'
    rw [hempty] at hk
    cases hk

theorem registry_never_reclaims_witness :
    Reachable hubOne [("u1", unsubOne)] ∧
    hubOne.applyAll [.publish "u1" sampleEvent, .unsubscribe unsubOne, .subscribe "u2"] =
      .ok hubChurned ∧
    ((∀ (u : String) (i : Nat), syncMapLoad hubOne.subscribers u = some i →
      syncMapLoad hubChurned.subscribers u = some i) ∧
    (∀ u : String, u ∈ hubOne.users → u ∈ hubChurned.users) ∧
    (∀ (U : String) (f : Unsubscribe) (h1 : Hub), (U, f) ∈ [("u1", unsubOne)] →
      (∀ g : Unsubscribe, (U, g) ∈ [("u1", unsubOne)] → g ≠ f →
        hubOne.closed g.ch = true) →
      f.call hubOne = .ok h1 →
        U ∈ h1.users ∧ syncMapLoad h1.subscribers U = some f.inner ∧
        (h1.inners[f.inner]?).getD [] = [] ∧ ∀ k : Nat, ¬ h1.registered U k)) :=
  ⟨reachable_hubOne, rfl,
    registry_never_reclaims reachable_hubOne
      [.publish "u1" sampleEvent, .unsubscribe unsubOne, .subscribe "u2"] hubChurned rfl⟩

/-! ## Failures of the bridge -/

/-- C18, bridge publish failures are non-fatal: the bridge's publish always returns
a process state, with hub and bridge untouched.  When the envelope cannot be
serialised nothing is handed to the broker and one error line is logged; otherwise
exactly one message is handed to the broker, and one error line is logged exactly
when the broker call fails.  In every case at most one broker publish is made, and
`PublishNotification` through an active bridge returns normally. -/
theorem bridge_publish_nonfatal (b : redisPubSubBridge) (w : World) (p : Process)
    (u : String) (ev : Event) :
    (b.publish w p u ev).defaultHub = p.defaultHub ∧
    (b.publish w p u ev).globalBridge = p.globalBridge ∧
    (ev.Data = .unsupported →
      (b.publish w p u ev).published = p.published ∧
      ∃ line : String, (b.publish w p u ev).errorLog = p.errorLog ++ [line]) ∧
    (ev.Data ≠ .unsupported →
      (∃ body : Json, (b.publish w p u ev).published = p.published ++ [(b.channel, body)]) ∧
      (w.publishErr = none → (b.publish w p u ev).errorLog = p.errorLog) ∧
      (∀ e : String, w.publishErr = some e →
        ∃ line : String, (b.publish w p u ev).errorLog = p.errorLog ++ [line])) ∧
    (b.publish w p u ev).published.length ≤ p.published.length + 1 ∧
    (p.globalBridge = some b → ∃ p', PublishNotification w p u ev = .ok p') := by
  obtain ⟨hhub, hbr, _, hpub⟩ := redisPubSubBridge.publish_frame b w p u ev
  refine ⟨hhub, hbr, ?_, ?_, ?_, ?_⟩
  · intro hd
    have hres : b.publish w p u ev =
        { p with errorLog := p.errorLog ++
          ["sse: encode redis envelope failed error=" ++ "json: unsupported type"] } := by
      simp only [redisPubSubBridge.publish, redisEnvelope.marshal, hd]
    rw [hres]
    exact ⟨rfl, _, rfl⟩
  · intro hser
    obtain ⟨body, _, hbody⟩ := redisPubSubBridge.publish_body b w p u ev hser
    refine ⟨⟨body, hbody⟩, ?_, ?_⟩
    · intro hnone
      cases hd : ev.Data with
      | unsupported => exact absurd hd hser
      | nil => simp only [redisPubSubBridge.publish, redisEnvelope.marshal, hd, hnone]
      | val j => simp only [redisPubSubBridge.publish, redisEnvelope.marshal, hd, hnone]
    · intro e he
      cases hd : ev.Data with
      | unsupported => exact absurd hd hser
      | nil =>
        simp only [redisPubSubBridge.publish, redisEnvelope.marshal, hd, he]
        exact ⟨_, rfl⟩
      | val j =>
        simp only [redisPubSubBridge.publish, redisEnvelope.marshal, hd, he]
        exact ⟨_, rfl⟩
  · rcases hpub with hsame | ⟨body, hone⟩
    · rw [hsame]; omega
    · rw [hone]; simp
  · intro hb
    unfold PublishNotification
    split
    · exact ⟨_, rfl⟩
    · simp only [hb]
      exact ⟨_, rfl⟩

/-! ## The subscriber loop -/

theorem redisPubSubBridge.handleMessage_core (b : redisPubSubBridge) {p p' : Process}
    (hc : p.core = p'.core) (msg : Message) :
    (b.handleMessage p msg).map Process.core = (b.handleMessage p' msg).map Process.core := by
  simp only [Process.core, Prod.mk.injEq] at hc
  obtain ⟨hh, hb, hp, hd⟩ := hc
  cases msg with
  | undecodable err =>
    simp only [redisPubSubBridge.handleMessage, Except.map, Process.core, hh, hb, hp, hd]
  | envelope env =>
    simp only [redisPubSubBridge.handleMessage]
    split
    · simp only [Except.map, Process.core, hh, hb, hp, hd]
    · rw [hh]
      cases p'.defaultHub.Publish env.UserUUID { Type_ := env.Type_, Data := env.Data } with
      | error e => rfl
      | ok h => simp only [Except.map, Process.core, hb, hp, hd]

theorem redisPubSubBridge.handleAll_core (b : redisPubSubBridge) (msgs : List Message) :
    ∀ {p p' : Process}, p.core = p'.core →
      (b.handleAll p msgs).map Process.core = (b.handleAll p' msgs).map Process.core := by
  induction msgs with
  | nil =>
    intro p p' hc
    simp only [redisPubSubBridge.handleAll, Except.map, hc]
  | cons msg rest ih =>
    intro p p' hc
    have hstep := redisPubSubBridge.handleMessage_core b hc msg
    simp only [redisPubSubBridge.handleAll]
    cases h1 : b.handleMessage p msg with
    | error e =>
      cases h2 : b.handleMessage p' msg with
      | error e' =>
        rw [h1, h2] at hstep
        simp only [Except.map, Except.error.injEq] at hstep
        simp only [Except.map, hstep]
      | ok q' =>
        rw [h1, h2] at hstep
        simp [Except.map] at hstep
    | ok q =>
      cases h2 : b.handleMessage p' msg with
      | error e' =>
        rw [h1, h2] at hstep
        simp [Except.map] at hstep
      | ok q' =>
        rw [h1, h2] at hstep
        simp only [Except.map, Except.ok.injEq] at hstep
        exact ih hstep

theorem redisPubSubBridge.handleMessage_undecodable_core (b : redisPubSubBridge)
    (p : Process) (err : String) :
    ∃ q, b.handleMessage p (.undecodable err) = .ok q ∧ q.core = p.core :=
  ⟨_, rfl, rfl⟩

theorem redisPubSubBridge.handleAll_skip (b : redisPubSubBridge) (p : Process)
    (err : String) (rest : List Message) :
    (b.handleAll p (.undecodable err :: rest)).map Process.core =
      (b.handleAll p rest).map Process.core := by
  obtain ⟨q, hq, hcore⟩ := redisPubSubBridge.handleMessage_undecodable_core b p err
  simp only [redisPubSubBridge.handleAll, hq]
  exact redisPubSubBridge.handleAll_core b rest hcore

theorem redisPubSubBridge.handleAll_filter (b : redisPubSubBridge) (msgs : List Message) :
    ∀ p : Process, (b.handleAll p msgs).map Process.core =
      (b.handleAll p (msgs.filter Message.decodable)).map Process.core := by
  induction msgs with
  | nil => intro p; rfl
  | cons msg rest ih =>
    intro p
    cases msg with
    | undecodable err =>
      rw [redisPubSubBridge.handleAll_skip]
      simp only [List.filter, Message.decodable]
      exact ih p
    | envelope env =>
      simp only [List.filter, Message.decodable, redisPubSubBridge.handleAll]
      cases b.handleMessage p (.envelope env) with
      | error e => rfl
      | ok q => exact ih q

/-- C12, malformed relay resilience: for every sequence of inbound messages, the
loop ends with the same hub, the same broker publishes and the same recorded calls
(or the same panic) as on the sequence without its undecodable payloads; an
undecodable payload is skipped and the loop goes on with the rest; in particular
the event of a well-formed message that follows a non-JSON one reaches the stream
of its user. -/
theorem malformed_relay_resilience (b : redisPubSubBridge) (p : Process)
    (msgs : List Message) :
    (b.handleAll p msgs).map Process.core =
      (b.handleAll p (msgs.filter Message.decodable)).map Process.core ∧
    (∀ (err : String) (rest : List Message),
      (b.handleAll p (.undecodable err :: rest)).map Process.core =
        (b.handleAll p rest).map Process.core) ∧
    ∃ q h'', b.handleAll procLocal
        [.undecodable "invalid character", .envelope sampleEnvelope] = .ok q ∧
      q.defaultHub.recv unsubOne.ch = .item sampleEvent h'' :=
  ⟨redisPubSubBridge.handleAll_filter b msgs p,
    fun err rest => redisPubSubBridge.handleAll_skip b p err rest, _, _, rfl, rfl⟩

/-! ## The relay round trip -/

theorem charToNat_inj (x y : Char) (h : x.toNat = y.toNat) : x = y := by
  rw [← Char.ofNat_toNat x, ← Char.ofNat_toNat y, h]

theorem charsLess_irrefl (a : List Char) : charsLess a a = false := by
  induction a with
  | nil => rfl
  | cons x xs ih => simp [charsLess, ih]

theorem charsLess_trans (a : List Char) :
    ∀ b c : List Char, charsLess a b = true → charsLess b c = true → charsLess a c = true := by
  induction a with
  | nil =>
    intro b c hab hbc
    cases b with
    | nil => simp [charsLess] at hab
    | cons y ys =>
      cases c with
      | nil => simp [charsLess] at hbc
      | cons z zs => rfl
  | cons x xs ih =>
    intro b c hab hbc
    cases b with
    | nil => simp [charsLess] at hab
    | cons y ys =>
      cases c with
      | nil => simp [charsLess] at hbc
      | cons z zs =>
        simp only [charsLess] at hab hbc ⊢
        by_cases hxy : x.toNat < y.toNat
        · by_cases hyz : y.toNat < z.toNat
          · rw [if_pos (by omega)]
          · rw [if_neg hyz] at hbc
            by_cases hyz2 : y.toNat = z.toNat
            · rw [if_pos (by omega)]
            · rw [if_neg hyz2] at hbc
              cases hbc
        · rw [if_neg hxy] at hab
          by_cases hxy2 : x.toNat = y.toNat
          · rw [if_pos hxy2] at hab
            by_cases hyz : y.toNat < z.toNat
            · rw [if_pos (by omega)]
            · rw [if_neg hyz] at hbc
              by_cases hyz2 : y.toNat = z.toNat
              · rw [if_pos hyz2] at hbc
                rw [if_neg (by omega), if_pos (by omega)]
                exact ih ys zs hab hbc
              · rw [if_neg hyz2] at hbc
                cases hbc
          · rw [if_neg hxy2] at hab
            cases hab

theorem charsLess_total (a : List Char) :
    ∀ b : List Char, a ≠ b → charsLess a b = false → charsLess b a = true := by
  induction a with
  | nil =>
    intro b hne hab
    cases b with
    | nil => exact absurd rfl hne
    | cons y ys => simp [charsLess] at hab
  | cons x xs ih =>
    intro b hne hab
    cases b with
    | nil => rfl
    | cons y ys =>
      simp only [charsLess] at hab ⊢
      by_cases hxy : x.toNat < y.toNat
      · rw [if_pos hxy] at hab
        cases hab
      · rw [if_neg hxy] at hab
        by_cases hxy2 : x.toNat = y.toNat
        · rw [if_pos hxy2] at hab
          rw [if_neg (by omega), if_pos hxy2.symm]
          have hc : x = y := charToNat_inj x y hxy2
          subst hc
          exact ih ys (fun h => hne (by rw [h])) hab
        · rw [if_pos (by omega)]

theorem keyLess_irrefl (a : String) : keyLess a a = false := charsLess_irrefl _

theorem keyLess_trans {a b c : String} (hab : keyLess a b = true) (hbc : keyLess b c = true) :
    keyLess a c = true := charsLess_trans _ _ _ hab hbc

theorem keyLess_total {a b : String} (hne : a ≠ b) (hab : keyLess a b = false) :
    keyLess b a = true :=
  charsLess_total _ _ (fun h => hne (String.toList_inj.mp h)) hab

theorem mem_insertMember {α : Type} (key : String) (value : α) (members : List (String × α))
    (kv : String × α) (h : kv ∈ insertMember key value members) :
    kv.1 = key ∨ kv ∈ members := by
  induction members with
  | nil =>
    simp only [insertMember, List.mem_singleton] at h
    exact Or.inl (by rw [h])
  | cons m rest ih =>
    obtain ⟨k, v⟩ := m
    simp only [insertMember] at h
    split at h
    · exact Or.inr h
    · split at h
      · rcases List.mem_cons.mp h with h | h
        · exact Or.inl (by rw [h])
        · exact Or.inr h
      · rcases List.mem_cons.mp h with h | h
        · exact Or.inr (by rw [h]; exact List.mem_cons_self _ _)
        · rcases ih h with h | h
          · exact Or.inl h
          · exact Or.inr (List.mem_cons_of_mem _ h)

theorem sortedMembers_insertMember {α : Type} (key : String) (value : α)
    (members : List (String × α)) (hs : sortedMembers members) :
    sortedMembers (insertMember key value members) := by
  induction members with
  | nil => simp [insertMember, sortedMembers]
  | cons m rest ih =>
    obtain ⟨k, v⟩ := m
    unfold sortedMembers at hs
    rw [List.pairwise_cons] at hs
    simp only [insertMember]
    split
    · exact List.pairwise_cons.mpr hs
    · rename_i hne
      split
      · rename_i hlt
        refine List.pairwise_cons.mpr ⟨?_, List.pairwise_cons.mpr hs⟩
        intro kv hkv
        rcases List.mem_cons.mp hkv with h | h
        · rw [h]; exact hlt
        · exact keyLess_trans hlt (hs.1 kv h)
      · rename_i hnlt
        refine List.pairwise_cons.mpr ⟨?_, ih hs.2⟩
        intro kv hkv
        rcases mem_insertMember key value rest kv hkv with h | h
        · rw [h]
          exact keyLess_total hne (by simpa using hnlt)
        · exact hs.1 kv h

theorem sortedMembers_sortMembers {α : Type} (members : List (String × α)) :
    sortedMembers (sortMembers members) := by
  induction members with
  | nil => exact List.Pairwise.nil
  | cons m rest ih =>
    obtain ⟨k, v⟩ := m
    exact sortedMembers_insertMember k v _ ih

theorem sortMembers_of_sorted {α : Type} (members : List (String × α))
    (hs : sortedMembers members) : sortMembers members = members := by
  induction members with
  | nil => rfl
  | cons m rest ih =>
    obtain ⟨k, v⟩ := m
    unfold sortedMembers at hs
    rw [List.pairwise_cons] at hs
    simp only [sortMembers]
    rw [ih hs.2]
    cases rest with
    | nil => rfl
    | cons m2 rest2 =>
      obtain ⟨k2, v2⟩ := m2
      have hlt : keyLess k k2 = true := hs.1 (k2, v2) (List.mem_cons_self _ _)
      have hne : k ≠ k2 := by
        intro h
        rw [h, keyLess_irrefl] at hlt
        cases hlt
      simp only [insertMember, if_neg hne, hlt, if_true]

theorem sortMembers_idem {α : Type} (members : List (String × α)) :
    sortMembers (sortMembers members) = sortMembers members :=
  sortMembers_of_sorted _ (sortedMembers_sortMembers members)

theorem insertMember_mapValues {α β : Type} (g : α → β) (key : String) (value : α)
    (members : List (String × α)) :
    insertMember key (g value) (mapValues g members) =
      mapValues g (insertMember key value members) := by
  induction members with
  | nil => rfl
  | cons m rest ih =>
    obtain ⟨k, v⟩ := m
    simp only [mapValues, List.map_cons] at ih ⊢
    simp only [insertMember]
    split
    · rfl
    · split
      · rfl
      · simp only [List.map_cons, ih]

theorem sortMembers_mapValues {α β : Type} (g : α → β) (members : List (String × α)) :
    sortMembers (mapValues g members) = mapValues g (sortMembers members) := by
  induction members with
  | nil => rfl
  | cons m rest ih =>
    obtain ⟨k, v⟩ := m
    have h : mapValues g ((k, v) :: rest) = (k, g v) :: mapValues g rest := rfl
    rw [h]
    simp only [sortMembers]
    rw [ih, insertMember_mapValues]

theorem normMembers_eq (members : List (String × Json)) :
    normMembers members = mapValues Json.norm members := by
  induction members with
  | nil => rfl
  | cons m rest ih =>
    obtain ⟨k, v⟩ := m
    simp only [normMembers, ih]
    rfl

theorem numberValue_norm (r : Json) (v : Int × Int) (h : numberValue r = some v) :
    r.norm = .dec v.1 v.2 := by
  cases r with
  | num n =>
    simp only [numberValue, Option.some.injEq] at h
    rw [← h]
    rfl
  | dec mant exp =>
    simp only [numberValue, Option.some.injEq] at h
    rw [← h]
    rfl
  | null => cases h
  | bool b => cases h
  | str s => cases h
  | time t => cases h
  | arr elems => cases h
  | obj fields => cases h

theorem exactNumber_norm (mant exp : Int) (r : Json) (he : exactNumber mant exp = true)
    (hr : rereadNumber mant exp = some r) :
    r.norm = .dec (normNumber mant exp).1 (normNumber mant exp).2 := by
  simp only [exactNumber, hr, beq_iff_eq] at he
  exact numberValue_norm r _ he

mutual
theorem Json.reread_norm : ∀ (j r : Json), j.exact = true → j.reread = some r →
    r.norm = j.norm
  | .null, r, _, hr => by
    simp only [Json.reread, Option.some.injEq] at hr
    rw [← hr]
  | .bool b, r, _, hr => by
    simp only [Json.reread, Option.some.injEq] at hr
    rw [← hr]
  | .str s, r, _, hr => by
    simp only [Json.reread, Option.some.injEq] at hr
    rw [← hr]
  | .time t, r, _, hr => by
    simp only [Json.reread, Option.some.injEq] at hr
    rw [← hr]
  | .num n, r, he, hr => by
    simp only [Json.exact] at he
    simp only [Json.reread] at hr
    rw [exactNumber_norm n 0 r he hr]
    rfl
  | .dec mant exp, r, he, hr => by
    simp only [Json.exact] at he
    simp only [Json.reread] at hr
    rw [exactNumber_norm mant exp r he hr]
    rfl
  | .arr elems, r, he, hr => by
    simp only [Json.exact] at he
    simp only [Json.reread] at hr
    cases hall : rereadAll elems with
    | none => rw [hall] at hr; cases hr
    | some elems' =>
      rw [hall] at hr
      simp only [Option.some.injEq] at hr
      rw [← hr]
      simp only [Json.norm]
      rw [rereadAll_norm elems elems' he hall]
  | .obj fields, r, he, hr => by
    simp only [Json.exact] at he
    simp only [Json.reread] at hr
    cases hall : rereadMembers fields with
    | none => rw [hall] at hr; cases hr
    | some fields' =>
      rw [hall] at hr
      simp only [Option.some.injEq] at hr
      rw [← hr]
      simp only [Json.norm]
      rw [normMembers_eq, ← sortMembers_mapValues, sortMembers_idem, ← normMembers_eq,
        rereadMembers_norm fields fields' he hall]
theorem rereadAll_norm : ∀ (js rs : List Json), exactAll js = true → rereadAll js = some rs →
    normAll rs = normAll js
  | [], rs, _, hr => by
    simp only [rereadAll, Option.some.injEq] at hr
    rw [← hr]
  | j :: rest, rs, he, hr => by
    simp only [exactAll, Bool.and_eq_true] at he
    simp only [rereadAll] at hr
    cases hj : j.reread with
    | none => rw [hj] at hr; cases hr
    | some j' =>
      cases hrest : rereadAll rest with
      | none => rw [hj, hrest] at hr; cases hr
      | some rest' =>
        rw [hj, hrest] at hr
        simp only [Option.some.injEq] at hr
        rw [← hr]
        simp only [normAll]
        rw [Json.reread_norm j j' he.1 hj, rereadAll_norm rest rest' he.2 hrest]
theorem rereadMembers_norm : ∀ (ms rs : List (String × Json)), exactMembers ms = true →
    rereadMembers ms = some rs → normMembers rs = normMembers ms
  | [], rs, _, hr => by
    simp only [rereadMembers, Option.some.injEq] at hr
    rw [← hr]
  | (k, j) :: rest, rs, he, hr => by
    simp only [exactMembers, Bool.and_eq_true] at he
    simp only [rereadMembers] at hr
    cases hj : j.reread with
    | none => rw [hj] at hr; cases hr
    | some j' =>
      cases hrest : rereadMembers rest with
      | none => rw [hj, hrest] at hr; cases hr
      | some rest' =>
        rw [hj, hrest] at hr
        simp only [Option.some.injEq] at hr
        rw [← hr]
        simp only [normMembers]
        rw [Json.reread_norm j j' he.1 hj, rereadMembers_norm rest rest' he.2 hrest]
end

/-! ### Float64 and its shortest digits -/

theorem log2From_spec (fuel : Nat) : ∀ n : Nat, 0 < n → n < 2 ^ fuel →
    2 ^ log2From fuel n ≤ n ∧ n < 2 ^ (log2From fuel n + 1) := by
  induction fuel with
  | zero =>
    intro n hn hf
    simp at hf
    omega
  | succ fuel ih =>
    intro n hn hf
    unfold log2From
    by_cases h2 : n < 2
    · rw [if_pos h2]
      have : n = 1 := by omega
      subst this
      simp
    · rw [if_neg h2]
      have hhalf : 0 < n / 2 := by omega
      have hlt : n / 2 < 2 ^ fuel := by
        rw [pow_succ] at hf
        omega
      obtain ⟨h1, h3⟩ := ih (n / 2) hhalf hlt
      constructor
      · rw [pow_succ]
        omega
      · rw [pow_succ]
        omega

theorem log2Floor_spec (n : Nat) (hn : 0 < n) :
    2 ^ log2Floor n ≤ n ∧ n < 2 ^ (log2Floor n + 1) :=
  log2From_spec n n hn (Nat.lt_two_pow n)

theorem log2Floor_unique (n k : Nat) (h1 : 2 ^ k ≤ n) (h2 : n < 2 ^ (k + 1)) :
    log2Floor n = k := by
  have hn : 0 < n := lt_of_lt_of_le (pow_pos (by norm_num) k) h1
  obtain ⟨h3, h4⟩ := log2Floor_spec n hn
  by_contra hne
  rcases Nat.lt_or_gt_of_ne hne with hlt | hgt
  · have : 2 ^ (log2Floor n + 1) ≤ 2 ^ k := Nat.pow_le_pow_right (by norm_num) hlt
    omega
  · have : 2 ^ (k + 1) ≤ 2 ^ log2Floor n := Nat.pow_le_pow_right (by norm_num) hgt
    omega

theorem scaled_den_pos (base mant : Nat) (exp : Int) (hb : 0 < base) :
    0 < (scaled base mant exp).den := by
  unfold scaled
  split
  · exact Nat.one_pos
  · exact pow_pos hb _

theorem scaled_value (base mant : Nat) (exp : Int) (hb : 0 < base) :
    (scaled base mant exp).value = (mant : ℚ) * (base : ℚ) ^ exp := by
  have hb0 : (base : ℚ) ≠ 0 := by exact_mod_cast hb.ne'
  unfold scaled Frac.value
  split
  · rename_i h
    obtain ⟨k, rfl⟩ := Int.eq_ofNat_of_zero_le h
    simp
  · rename_i h
    obtain ⟨k, rfl⟩ := Int.exists_eq_neg_ofNat (by omega : exp ≤ 0)
    simp [zpow_neg, div_eq_mul_inv]

theorem Frac.le_iff (a b : Frac) (ha : 0 < a.den) (hb : 0 < b.den) :
    a.le b = true ↔ a.value ≤ b.value := by
  have ha' : (0 : ℚ) < a.den := by exact_mod_cast ha
  have hb' : (0 : ℚ) < b.den := by exact_mod_cast hb
  unfold Frac.le Frac.value
  rw [decide_eq_true_iff, div_le_div_iff₀ ha' hb']
  exact_mod_cast Iff.rfl

theorem intLog_unique (v : ℚ) (e : Int) (hv : 0 < v) (h1 : (2 : ℚ) ^ e ≤ v)
    (h2 : v < (2 : ℚ) ^ (e + 1)) : Int.log 2 v = e := by
  have h3 : e ≤ Int.log 2 v := by
    have := (Int.zpow_le_iff_le_log (b := 2) (by norm_num) (x := e) hv).mp
    apply this
    simpa using h1
  have h4 : Int.log 2 v < e + 1 := by
    have := (Int.lt_zpow_iff_log_lt (b := 2) (by norm_num) (x := e + 1) hv).mp
    apply this
    simpa using h2
  omega

theorem Frac.value_pos (a : Frac) (hn : 0 < a.num) (hd : 0 < a.den) : 0 < a.value := by
  unfold Frac.value
  have h1 : (0 : ℚ) < a.num := by exact_mod_cast hn
  have h2 : (0 : ℚ) < a.den := by exact_mod_cast hd
  exact div_pos h1 h2

theorem Frac.log2_eq (a : Frac) (hn : 0 < a.num) (hd : 0 < a.den) :
    a.log2 = Int.log 2 a.value := by
  obtain ⟨hN1, hN2⟩ := log2Floor_spec a.num hn
  obtain ⟨hD1, hD2⟩ := log2Floor_spec a.den hd
  have hv := Frac.value_pos a hn hd
  have hden : (0 : ℚ) < a.den := by exact_mod_cast hd
  have hN1q : (2 : ℚ) ^ (log2Floor a.num : Int) ≤ a.num := by
    rw [zpow_natCast]; exact_mod_cast hN1
  have hN2q : (a.num : ℚ) < (2 : ℚ) ^ ((log2Floor a.num : Int) + 1) := by
    have : ((log2Floor a.num : Int) + 1) = ((log2Floor a.num + 1 : Nat) : Int) := by push_cast; rfl
    rw [this, zpow_natCast]; exact_mod_cast hN2
  have hD1q : (2 : ℚ) ^ (log2Floor a.den : Int) ≤ a.den := by
    rw [zpow_natCast]; exact_mod_cast hD1
  have hD2q : (a.den : ℚ) < (2 : ℚ) ^ ((log2Floor a.den : Int) + 1) := by
    have : ((log2Floor a.den : Int) + 1) = ((log2Floor a.den + 1 : Nat) : Int) := by push_cast; rfl
    rw [this, zpow_natCast]; exact_mod_cast hD2
  have h2 : (2 : ℚ) ≠ 0 := by norm_num
  have hpos : ∀ z : Int, (0 : ℚ) < (2 : ℚ) ^ z := fun z => zpow_pos (by norm_num) z
  -- upper bound
  have hupper : a.value < (2 : ℚ) ^ ((log2Floor a.num : Int) - (log2Floor a.den : Int) + 1) := by
    unfold Frac.value
    rw [div_lt_iff₀ hden]
    have e1 : (2 : ℚ) ^ ((log2Floor a.num : Int) - (log2Floor a.den : Int) + 1) *
        (2 : ℚ) ^ (log2Floor a.den : Int) = (2 : ℚ) ^ ((log2Floor a.num : Int) + 1) := by
      rw [← zpow_add₀ h2]; congr 1; ring
    calc (a.num : ℚ) < (2 : ℚ) ^ ((log2Floor a.num : Int) + 1) := hN2q
      _ = (2 : ℚ) ^ ((log2Floor a.num : Int) - (log2Floor a.den : Int) + 1) *
            (2 : ℚ) ^ (log2Floor a.den : Int) := e1.symm
      _ ≤ (2 : ℚ) ^ ((log2Floor a.num : Int) - (log2Floor a.den : Int) + 1) * a.den :=
          mul_le_mul_of_nonneg_left hD1q (le_of_lt (hpos _))
  have hlower : (2 : ℚ) ^ ((log2Floor a.num : Int) - (log2Floor a.den : Int) - 1) ≤ a.value := by
    unfold Frac.value
    rw [le_div_iff₀ hden]
    have e1 : (2 : ℚ) ^ ((log2Floor a.num : Int) - (log2Floor a.den : Int) - 1) *
        (2 : ℚ) ^ ((log2Floor a.den : Int) + 1) = (2 : ℚ) ^ (log2Floor a.num : Int) := by
      rw [← zpow_add₀ h2]; congr 1; ring
    calc (2 : ℚ) ^ ((log2Floor a.num : Int) - (log2Floor a.den : Int) - 1) * a.den
        ≤ (2 : ℚ) ^ ((log2Floor a.num : Int) - (log2Floor a.den : Int) - 1) *
            (2 : ℚ) ^ ((log2Floor a.den : Int) + 1) :=
          mul_le_mul_of_nonneg_left (le_of_lt hD2q) (le_of_lt (hpos _))
      _ = (2 : ℚ) ^ (log2Floor a.num : Int) := e1
      _ ≤ a.num := hN1q
  unfold Frac.log2
  simp only
  have hsv : (scaled 2 1 ((log2Floor a.num : Int) - (log2Floor a.den : Int))).value =
      (2 : ℚ) ^ ((log2Floor a.num : Int) - (log2Floor a.den : Int)) := by
    rw [scaled_value 2 1 _ (by norm_num)]
    simp
  split
  · rename_i htest
    rw [Frac.le_iff _ _ (scaled_den_pos 2 1 _ (by norm_num)) hd, hsv] at htest
    exact (intLog_unique _ _ hv htest hupper).symm
  · rename_i htest
    rw [Frac.le_iff _ _ (scaled_den_pos 2 1 _ (by norm_num)) hd, hsv, not_le] at htest
    have := intLog_unique a.value ((log2Floor a.num : Int) - (log2Floor a.den : Int) - 1) hv
      hlower (by rw [sub_add_cancel]; exact htest)
    exact this.symm

theorem roundHalfEven_scale (n d c : Nat) (hc : 0 < c) :
    roundHalfEven (n * c) (d * c) = roundHalfEven n d := by
  unfold roundHalfEven
  simp only
  rw [Nat.mul_div_mul_right n d hc, Nat.mul_mod_mul_right]
  have h1 : d * c < 2 * (n % d * c) ↔ d < 2 * (n % d) := by
    rw [← Nat.mul_assoc]
    exact Nat.mul_lt_mul_right hc
  have h2 : 2 * (n % d * c) = d * c ↔ 2 * (n % d) = d := by
    rw [← Nat.mul_assoc]
    exact Nat.mul_left_inj (by omega)
  simp only [h1, h2]

theorem roundHalfEven_exact (m k : Nat) (hk : 0 < k) : roundHalfEven (m * k) k = m := by
  unfold roundHalfEven
  simp only
  rw [Nat.mul_div_cancel m hk, Nat.mul_mod_left]
  simp
  omega

theorem roundHalfEven_cases (n d : Nat) : roundHalfEven n d = n / d ∨ roundHalfEven n d = n / d + 1 := by
  unfold roundHalfEven
  simp only
  split
  · exact Or.inr rfl
  · exact Or.inl rfl

theorem parseFloat_scale (n d c : Nat) (hd : 0 < d) (hc : 0 < c) :
    parseFloat { num := n * c, den := d * c } = parseFloat { num := n, den := d } := by
  unfold parseFloat
  by_cases hn : n = 0
  · subst hn
    simp
  · have hn' : 0 < n := Nat.pos_of_ne_zero hn
    have hnc : n * c ≠ 0 := by positivity
    have hlog : (Frac.mk (n * c) (d * c)).log2 = (Frac.mk n d).log2 := by
      rw [Frac.log2_eq _ (by positivity) (by positivity), Frac.log2_eq _ hn' hd]
      congr 1
      unfold Frac.value
      push_cast
      have hcq : (c : ℚ) ≠ 0 := by exact_mod_cast hc.ne'
      have hdq : (d : ℚ) ≠ 0 := by exact_mod_cast hd.ne'
      field_simp
      ring
    simp only [hn, hnc, if_false, hlog]
    have hr : roundHalfEven (n * c * (scaled 2 1 (max ((Frac.mk n d).log2 - 52) (-1074))).den)
        (d * c * (scaled 2 1 (max ((Frac.mk n d).log2 - 52) (-1074))).num) =
        roundHalfEven (n * (scaled 2 1 (max ((Frac.mk n d).log2 - 52) (-1074))).den)
        (d * (scaled 2 1 (max ((Frac.mk n d).log2 - 52) (-1074))).num) := by
      rw [Nat.mul_right_comm n c, Nat.mul_right_comm d c]
      exact roundHalfEven_scale _ _ c hc
    rw [hr]

theorem parseFloat_congr (a b : Frac) (ha : 0 < a.den) (hb : 0 < b.den)
    (h : a.num * b.den = b.num * a.den) : parseFloat a = parseFloat b := by
  have h1 := parseFloat_scale a.num a.den b.den ha hb
  have h2 := parseFloat_scale b.num b.den a.den hb ha
  rw [← h1, ← h2, h, Nat.mul_comm a.den b.den]

theorem parseFloat_exact (f : Float64) (hv : f.valid) (hm : f.mant ≠ 0) :
    parseFloat (scaled 2 f.mant f.exp) = some f := by
  obtain ⟨m, e⟩ := f
  obtain ⟨hlt, hlo, hhi, hsub⟩ := hv
  simp only at hlt hlo hhi hsub hm
  have hm' : 0 < m := Nat.pos_of_ne_zero hm
  obtain ⟨hL1, hL2⟩ := log2Floor_spec m hm'
  have hnum : 0 < (scaled 2 m e).num := by
    unfold scaled
    split
    · positivity
    · exact hm'
  have hden := scaled_den_pos 2 m e (by norm_num)
  have hlog : (scaled 2 m e).log2 = (log2Floor m : Int) + e := by
    rw [Frac.log2_eq _ hnum hden, scaled_value 2 m e (by norm_num)]
    have h2 : (2 : ℚ) ≠ 0 := by norm_num
    have hpos : (0 : ℚ) < (2 : ℚ) ^ e := zpow_pos (by norm_num) e
    have hmq : (0 : ℚ) < m := by exact_mod_cast hm'
    apply intLog_unique
    · push_cast
      positivity
    · push_cast
      rw [zpow_add₀ h2, zpow_natCast]
      have : ((2 : ℚ) ^ log2Floor m) ≤ m := by exact_mod_cast hL1
      exact mul_le_mul_of_nonneg_right this (le_of_lt hpos)
    · push_cast
      have e1 : (log2Floor m : Int) + e + 1 = ((log2Floor m + 1 : Nat) : Int) + e := by
        push_cast; ring
      rw [e1, zpow_add₀ h2, zpow_natCast]
      have : (m : ℚ) < (2 : ℚ) ^ (log2Floor m + 1) := by exact_mod_cast hL2
      exact mul_lt_mul_of_pos_right this hpos
  have hmax : max ((log2Floor m : Int) + e - 52) (-1074) = e := by
    by_cases hnorm : m < 2 ^ 52
    · have he := hsub hnorm
      have hL : log2Floor m < 52 := by
        by_contra hge
        have : 2 ^ 52 ≤ 2 ^ log2Floor m := Nat.pow_le_pow_right (by norm_num) (by omega)
        omega
      omega
    · have hL : log2Floor m = 52 := log2Floor_unique m 52 (by omega) hlt
      rw [hL]
      omega
  have hround : roundHalfEven ((scaled 2 m e).num * (scaled 2 1 e).den)
      ((scaled 2 m e).den * (scaled 2 1 e).num) = m := by
    unfold scaled
    split
    · simp only [Nat.mul_one, Nat.one_mul]
      exact roundHalfEven_exact m _ (by positivity)
    · simp only [Nat.mul_one]
      exact roundHalfEven_exact m _ (by positivity)
  have h0 : ¬ (scaled 2 m e).num = 0 := by omega
  have h53 : ¬ m = 2 ^ 53 := by omega
  have h971 : ¬ 971 < e := by omega
  unfold parseFloat
  rw [if_neg h0]
  simp only [hlog, hmax, hround, if_neg h53, if_neg h971]

theorem Frac.cross_of_value (a b : Frac) (ha : 0 < a.den) (hb : 0 < b.den)
    (h : a.value = b.value) : a.num * b.den = b.num * a.den := by
  have ha' : (a.den : ℚ) ≠ 0 := by exact_mod_cast ha.ne'
  have hb' : (b.den : ℚ) ≠ 0 := by exact_mod_cast hb.ne'
  unfold Frac.value at h
  rw [div_eq_div_iff ha' hb'] at h
  exact_mod_cast h

theorem scaled_ten_nonpos (k : Nat) :
    (scaled 10 1 (-(k : Int))).num = 1 ∧ (scaled 10 1 (-(k : Int))).den = 10 ^ k := by
  unfold scaled
  by_cases hk : k = 0
  · subst hk
    simp
  · have : ¬ (0 : Int) ≤ -(k : Int) := by omega
    rw [if_neg this]
    simp

theorem shortest_floor_exact (f : Float64) (hv : f.valid) (hm : f.mant ≠ 0) (x : Int)
    (hx : x ≤ min f.exp 0) :
    parseFloat (scaled 10 (((scaled 2 f.mant f.exp).num * (scaled 10 1 x).den) /
      ((scaled 2 f.mant f.exp).den * (scaled 10 1 x).num)) x) = some f := by
  obtain ⟨k, rfl⟩ := Int.exists_eq_neg_ofNat (by omega : x ≤ 0)
  obtain ⟨hu1, hu2⟩ := scaled_ten_nonpos k
  rw [hu1, hu2, Nat.mul_one]
  have hden := scaled_den_pos 2 f.mant f.exp (by norm_num)
  have hdvd : (scaled 2 f.mant f.exp).den ∣ (scaled 2 f.mant f.exp).num * 10 ^ k := by
    unfold scaled
    split
    · exact one_dvd _
    · rename_i hneg
      simp only
      have hjk : (-f.exp).toNat ≤ k := by omega
      have h1 : (2 : Nat) ^ (-f.exp).toNat ∣ 2 ^ k := pow_dvd_pow 2 hjk
      have h2 : (2 : Nat) ^ k ∣ 10 ^ k := by
        have : (10 : Nat) ^ k = 2 ^ k * 5 ^ k := by rw [← Nat.mul_pow]
        rw [this]
        exact dvd_mul_right _ _
      exact dvd_mul_of_dvd_right (dvd_trans h1 h2) _
  rw [parseFloat_congr _ (scaled 2 f.mant f.exp) (scaled_den_pos 10 _ _ (by norm_num)) hden ?_,
    parseFloat_exact f hv hm]
  apply Frac.cross_of_value _ _ (scaled_den_pos 10 _ _ (by norm_num)) hden
  rw [scaled_value 10 _ _ (by norm_num)]
  have hdq : ((scaled 2 f.mant f.exp).den : ℚ) ≠ 0 := by exact_mod_cast hden.ne'
  rw [Nat.cast_div hdvd hdq]
  unfold Frac.value
  push_cast
  rw [zpow_neg, zpow_natCast]
  have h10 : ((10 : ℚ) ^ k) ≠ 0 := by positivity
  field_simp
  ring

theorem shortestFrom_reads_back (f : Float64) (hv : f.valid) (hm : f.mant ≠ 0) :
    ∀ (fuel : Nat) (x : Int), x - fuel ≤ min f.exp 0 →
      parseFloat (scaled 10 (shortestFrom f (scaled 2 f.mant f.exp) fuel x).1
        (shortestFrom f (scaled 2 f.mant f.exp) fuel x).2) = some f := by
  intro fuel
  induction fuel with
  | zero =>
    intro x hx
    unfold shortestFrom
    exact shortest_floor_exact f hv hm x (by simpa using hx)
  | succ fuel ih =>
    intro x hx
    unfold shortestFrom
    simp only
    split
    · rename_i hboth
      rw [Bool.and_eq_true, beq_iff_eq, beq_iff_eq] at hboth
      rcases roundHalfEven_cases
        ((scaled 2 f.mant f.exp).num * (scaled 10 1 x).den)
        ((scaled 2 f.mant f.exp).den * (scaled 10 1 x).num) with h | h
      · rw [h]; exact hboth.1
      · rw [h]; exact hboth.2
    · split
      · rename_i hdown
        exact beq_iff_eq.mp hdown
      · split
        · rename_i hup
          exact beq_iff_eq.mp hup
        · apply ih
          push_cast at hx
          omega

theorem formatShortest_reads_back (f : Float64) (hv : f.valid) (hm : f.mant ≠ 0) :
    parseFloat (scaled 10 (formatShortest f).1 (formatShortest f).2) = some f := by
  unfold formatShortest
  simp only
  apply shortestFrom_reads_back f hv hm
  have := Int.self_le_toNat
    (((scaled 2 f.mant f.exp).log2 + 1) * 30103 / 100000 + 2 - min f.exp 0)
  omega

theorem parseFloat_zero (x : Int) :
    parseFloat (scaled 10 0 x) = some { mant := 0, exp := -1074 } := by
  have h : (scaled 10 0 x).num = 0 := by
    unfold scaled
    split <;> simp
  unfold parseFloat
  rw [if_pos h]

theorem formatShortest_digits_ne_zero (f : Float64) (hv : f.valid) (hm : f.mant ≠ 0) :
    (formatShortest f).1 ≠ 0 := by
  intro h0
  have hk := formatShortest_reads_back f hv hm
  rw [h0, parseFloat_zero] at hk
  simp only [Option.some.injEq] at hk
  rw [← hk] at hm
  exact hm rfl

theorem formatFloat_cases (neg : Bool) (f : Float64) (hm : f.mant ≠ 0) :
    (0 ≤ (formatShortest f).2 ∧
      formatFloat neg f = .num ((if neg then -1 else 1) *
        (((formatShortest f).1 * 10 ^ (formatShortest f).2.toNat : Nat) : Int))) ∨
    formatFloat neg f =
      .dec ((if neg then -1 else 1) * ((formatShortest f).1 : Int)) (formatShortest f).2 := by
  unfold formatFloat
  rw [if_neg hm]
  simp only
  split
  · rename_i h
    exact Or.inl ⟨h.1, rfl⟩
  · exact Or.inr rfl

theorem signed_natAbs (neg : Bool) (d : Nat) :
    ((if neg then -1 else 1) * (d : Int)).natAbs = d := by
  cases neg <;> simp

theorem signed_neg (neg : Bool) (d : Nat) (hd : d ≠ 0) :
    decide ((if neg then -1 else 1) * (d : Int) < 0) = neg := by
  cases neg
  · simp
  · simp
    omega

/-- What `json.Marshal` writes for a float64 is read back as that float64, so that
writing it again gives the same literal. -/
theorem formatFloat_reread (neg : Bool) (f : Float64) (hv : f.valid) :
    (formatFloat neg f).reread = some (formatFloat neg f) := by
  by_cases hm : f.mant = 0
  · have h : formatFloat neg f = .num 0 := by
      unfold formatFloat
      rw [if_pos hm]
    rw [h]
    rfl
  · have hk := formatShortest_reads_back f hv hm
    have hd := formatShortest_digits_ne_zero f hv hm
    rcases formatFloat_cases neg f hm with ⟨hx, hnum⟩ | hdec
    · have hpos : (formatShortest f).1 * 10 ^ (formatShortest f).2.toNat ≠ 0 := by positivity
      have hparse :
          parseFloat (scaled 10 ((formatShortest f).1 * 10 ^ (formatShortest f).2.toNat) 0) =
            some f := by
        rw [← hk]
        unfold scaled
        rw [if_pos hx]
        simp
      nth_rewrite 1 [hnum]
      simp only [Json.reread, rereadNumber, signed_natAbs, hparse, signed_neg neg _ hpos]
    · nth_rewrite 1 [hdec]
      simp only [Json.reread, rereadNumber, signed_natAbs, hk, signed_neg neg _ hd]

theorem exact_of_reread_self (j : Json) (hnum : (numberValue j).isSome = true)
    (h : j.reread = some j) : j.exact = true := by
  cases j with
  | num n =>
    simp only [Json.reread] at h
    simp only [Json.exact, exactNumber, h, numberValue, beq_self_eq_true]
  | dec mant exp =>
    simp only [Json.reread] at h
    simp only [Json.exact, exactNumber, h, numberValue, beq_self_eq_true]
  | null => rfl
  | bool b => rfl
  | str s => rfl
  | time t => rfl
  | arr elems => cases hnum
  | obj fields => cases hnum

/-- Float64 reproduces every number that `json.Marshal` writes for a float64. -/
theorem formatFloat_exact (neg : Bool) (f : Float64) (hv : f.valid) :
    (formatFloat neg f).exact = true := by
  apply exact_of_reread_self _ _ (formatFloat_reread neg f hv)
  unfold formatFloat
  split
  · rfl
  · simp only
    split <;> rfl

theorem encodeNat_spec (n : Nat) (hn : 0 < n) (hlt : n < 2 ^ 53) :
    log2Floor n ≤ 52 ∧ (encodeNat n).valid ∧ (encodeNat n).mant ≠ 0 ∧
      (scaled 2 (encodeNat n).mant (encodeNat n).exp).value = n := by
  obtain ⟨h1, h2⟩ := log2Floor_spec n hn
  have hL : log2Floor n ≤ 52 := by
    by_contra hgt
    have : 2 ^ 53 ≤ 2 ^ log2Floor n := Nat.pow_le_pow_right (by norm_num) (by omega)
    omega
  have hsplit : 2 ^ 52 = 2 ^ log2Floor n * 2 ^ (52 - log2Floor n) := by
    rw [← pow_add]; congr 1; omega
  have hsplit2 : 2 ^ 53 = 2 ^ (log2Floor n + 1) * 2 ^ (52 - log2Floor n) := by
    rw [← pow_add]; congr 1; omega
  have hpos : 0 < 2 ^ (52 - log2Floor n) := pow_pos (by norm_num) _
  have hge : 2 ^ 52 ≤ n * 2 ^ (52 - log2Floor n) := by
    rw [hsplit]; exact Nat.mul_le_mul_right _ h1
  have hlt2 : n * 2 ^ (52 - log2Floor n) < 2 ^ 53 := by
    rw [hsplit2]; exact Nat.mul_lt_mul_of_pos_right h2 hpos
  refine ⟨hL, ⟨hlt2, ?_, ?_, ?_⟩, ?_, ?_⟩
  · simp only [encodeNat]; omega
  · simp only [encodeNat]; omega
  · intro h; simp only [encodeNat] at h; omega
  · simp only [encodeNat]; omega
  · rw [scaled_value 2 _ _ (by norm_num)]
    simp only [encodeNat]
    have e1 : ((log2Floor n : Int) - 52) = -((52 - log2Floor n : Nat) : Int) := by omega
    rw [e1, zpow_neg, zpow_natCast]
    push_cast
    have : ((2 : ℚ) ^ (52 - log2Floor n)) ≠ 0 := by positivity
    field_simp

theorem parseFloat_nat (c : Nat) (x : Int) (hx : 0 ≤ x) (hpos : 0 < c * 10 ^ x.toNat)
    (hlt : c * 10 ^ x.toNat < 2 ^ 53) :
    parseFloat (scaled 10 c x) = some (encodeNat (c * 10 ^ x.toNat)) := by
  obtain ⟨_, hv, hm, hval⟩ := encodeNat_spec (c * 10 ^ x.toNat) hpos hlt
  rw [← parseFloat_exact _ hv hm]
  apply parseFloat_congr _ _ (scaled_den_pos 10 _ _ (by norm_num))
    (scaled_den_pos 2 _ _ (by norm_num))
  apply Frac.cross_of_value _ _ (scaled_den_pos 10 _ _ (by norm_num))
    (scaled_den_pos 2 _ _ (by norm_num))
  rw [hval]
  unfold scaled Frac.value
  rw [if_pos hx]
  simp

theorem encodeNat_inj (m n : Nat) (hm : 0 < m) (hm2 : m < 2 ^ 53) (hn : 0 < n)
    (hn2 : n < 2 ^ 53) (h : encodeNat m = encodeNat n) : m = n := by
  obtain ⟨_, _, _, h1⟩ := encodeNat_spec m hm hm2
  obtain ⟨_, _, _, h2⟩ := encodeNat_spec n hn hn2
  rw [h, h2] at h1
  exact_mod_cast h1.symm

theorem parseFloat_big (c : Nat) (x : Int) (hx : 0 ≤ x) (hbig : 2 ^ 53 ≤ c * 10 ^ x.toNat)
    (f : Float64) (h : parseFloat (scaled 10 c x) = some f) : 0 < f.exp := by
  have hs : scaled 10 c x = { num := c * 10 ^ x.toNat, den := 1 } := by
    unfold scaled
    rw [if_pos hx]
  rw [hs] at h
  have hnum : 0 < c * 10 ^ x.toNat := lt_of_lt_of_le (by norm_num) hbig
  have hlog : 53 ≤ (Frac.mk (c * 10 ^ x.toNat) 1).log2 := by
    rw [Frac.log2_eq _ hnum Nat.one_pos]
    have hv := Frac.value_pos (Frac.mk (c * 10 ^ x.toNat) 1) hnum Nat.one_pos
    apply (Int.zpow_le_iff_le_log (b := 2) (by norm_num) (x := 53) hv).mp
    unfold Frac.value
    simp only [Nat.cast_one, div_one]
    have : ((2 : ℕ) : ℚ) ^ (53 : ℤ) = ((2 ^ 53 : ℕ) : ℚ) := by norm_num
    rw [this]
    exact_mod_cast hbig
  have hn0 : ¬ (Frac.mk (c * 10 ^ x.toNat) 1).num = 0 := by simp only; omega
  unfold parseFloat at h
  rw [if_neg hn0] at h
  simp only at h
  split at h
  · split at h
    · cases h
    · simp only [Option.some.injEq] at h
      rw [← h]
      simp only
      omega
  · split at h
    · cases h
    · simp only [Option.some.injEq] at h
      rw [← h]
      simp only
      omega

theorem Frac.lt_iff (a b : Frac) (ha : 0 < a.den) (hb : 0 < b.den) :
    a.lt b = true ↔ a.value < b.value := by
  have ha' : (0 : ℚ) < a.den := by exact_mod_cast ha
  have hb' : (0 : ℚ) < b.den := by exact_mod_cast hb
  unfold Frac.lt Frac.value
  rw [decide_eq_true_iff, div_lt_div_iff₀ ha' hb']
  exact_mod_cast Iff.rfl

theorem shortest_floor_nat (n : Nat) (a : Frac) (hden : 0 < a.den) (hval : a.value = n)
    (x : Int) (hx : 0 ≤ x) :
    (a.num * (scaled 10 1 x).den) / (a.den * (scaled 10 1 x).num) = n / 10 ^ x.toNat := by
  have hcross : a.num * 1 = n * a.den := by
    have := Frac.cross_of_value a (Frac.mk n 1) hden Nat.one_pos (by
      rw [hval]; unfold Frac.value; simp)
    simpa using this
  have hs : scaled 10 1 x = { num := 1 * 10 ^ x.toNat, den := 1 } := by
    unfold scaled
    rw [if_pos hx]
  rw [hs]
  simp only [Nat.one_mul]
  rw [hcross, Nat.mul_comm n a.den]
  exact Nat.mul_div_mul_left _ _ hden

theorem shortestFrom_nat (n : Nat) (hn : 0 < n) (hlt : n < 2 ^ 53) :
    ∀ (fuel : Nat) (x : Int), 0 ≤ x → x ≤ fuel →
      0 ≤ (shortestFrom (encodeNat n)
        (scaled 2 (encodeNat n).mant (encodeNat n).exp) fuel x).2 ∧
      (shortestFrom (encodeNat n)
        (scaled 2 (encodeNat n).mant (encodeNat n).exp) fuel x).1 *
        10 ^ (shortestFrom (encodeNat n)
          (scaled 2 (encodeNat n).mant (encodeNat n).exp) fuel x).2.toNat = n := by
  obtain ⟨hL, hv, hm, hval⟩ := encodeNat_spec n hn hlt
  have hden := scaled_den_pos 2 (encodeNat n).mant (encodeNat n).exp (by norm_num)
  have hexp : (encodeNat n).exp ≤ 0 := by simp only [encodeNat]; omega
  have hdown : ∀ x : Int, 0 ≤ x →
      parseFloat (scaled 10 (n / 10 ^ x.toNat) x) = some (encodeNat n) →
      n / 10 ^ x.toNat * 10 ^ x.toNat = n := by
    intro x hx hp
    have hle : n / 10 ^ x.toNat * 10 ^ x.toNat ≤ n := Nat.div_mul_le_self _ _
    by_cases h0 : n / 10 ^ x.toNat = 0
    · rw [h0, parseFloat_zero] at hp
      simp only [Option.some.injEq] at hp
      rw [← hp] at hm
      exact absurd rfl hm
    · have hpos : 0 < n / 10 ^ x.toNat * 10 ^ x.toNat := by positivity
      rw [parseFloat_nat _ x hx hpos (by omega)] at hp
      simp only [Option.some.injEq] at hp
      exact encodeNat_inj _ _ hpos (by omega) hn hlt hp
  have hup : ∀ x : Int, 0 ≤ x →
      parseFloat (scaled 10 (n / 10 ^ x.toNat + 1) x) ≠ some (encodeNat n) := by
    intro x hx hp
    have hgt : n < (n / 10 ^ x.toNat + 1) * 10 ^ x.toNat := by
      have hp10 : 0 < 10 ^ x.toNat := by positivity
      have h1 := Nat.div_add_mod n (10 ^ x.toNat)
      have h2 := Nat.mod_lt n hp10
      rw [Nat.add_mul, Nat.one_mul, Nat.mul_comm]
      omega
    by_cases hsmall : (n / 10 ^ x.toNat + 1) * 10 ^ x.toNat < 2 ^ 53
    · rw [parseFloat_nat _ x hx (by omega) hsmall] at hp
      simp only [Option.some.injEq] at hp
      have := encodeNat_inj _ _ (by omega) hsmall hn hlt hp
      omega
    · have := parseFloat_big _ x hx (by omega) _ hp
      omega
  intro fuel
  induction fuel with
  | zero =>
    intro x hx hxf
    have hx0 : x = 0 := by
      have : x ≤ 0 := by exact_mod_cast hxf
      omega
    subst hx0
    unfold shortestFrom
    simp only [shortest_floor_nat n _ hden hval 0 (le_refl 0)]
    simp
  | succ fuel ih =>
    intro x hx hxf
    unfold shortestFrom
    simp only [shortest_floor_nat n _ hden hval x hx]
    split
    · rename_i hboth
      rw [Bool.and_eq_true, beq_iff_eq, beq_iff_eq] at hboth
      exact absurd hboth.2 (hup x hx)
    · split
      · rename_i hd
        exact ⟨hx, hdown x hx (beq_iff_eq.mp hd)⟩
      · rename_i hnd
        split
        · rename_i hu
          exact absurd (beq_iff_eq.mp hu) (hup x hx)
        · have hx1 : 1 ≤ x := by
            by_contra hlt1
            have hx0 : x = 0 := by omega
            subst hx0
            apply hnd
            rw [beq_iff_eq]
            have h1 : n / 10 ^ (0 : Int).toNat = n := by simp
            rw [h1]
            have := parseFloat_nat n 0 (le_refl 0) (by simpa using hn) (by simpa using hlt)
            simpa using this
          apply ih (x - 1) (by omega)
          push_cast at hxf
          omega

theorem formatShortest_nat (n : Nat) (hn : 0 < n) (hlt : n < 2 ^ 53) :
    0 ≤ (formatShortest (encodeNat n)).2 ∧
    (formatShortest (encodeNat n)).1 * 10 ^ (formatShortest (encodeNat n)).2.toNat = n := by
  obtain ⟨hL, hv, hm, hval⟩ := encodeNat_spec n hn hlt
  have hden := scaled_den_pos 2 (encodeNat n).mant (encodeNat n).exp (by norm_num)
  have hnum : 0 < (scaled 2 (encodeNat n).mant (encodeNat n).exp).num := by
    unfold scaled
    split
    · have := Nat.pos_of_ne_zero hm
      positivity
    · exact Nat.pos_of_ne_zero hm
  have hlog : 0 ≤ (scaled 2 (encodeNat n).mant (encodeNat n).exp).log2 := by
    rw [Frac.log2_eq _ hnum hden, hval]
    have hq : (0 : ℚ) < n := by exact_mod_cast hn
    apply (Int.zpow_le_iff_le_log (b := 2) (by norm_num) (x := 0) hq).mp
    simp only [zpow_zero]
    exact_mod_cast hn
  have hexp : (encodeNat n).exp ≤ 0 := by simp only [encodeNat]; omega
  unfold formatShortest
  simp only
  have hx0 : 0 ≤ ((scaled 2 (encodeNat n).mant (encodeNat n).exp).log2 + 1) * 30103 / 100000 :=
    Int.ediv_nonneg (by positivity) (by norm_num)
  apply shortestFrom_nat n hn hlt
  · omega
  · have := Int.toNat_of_nonneg (a :=
      ((scaled 2 (encodeNat n).mant (encodeNat n).exp).log2 + 1) * 30103 / 100000 + 2 -
        min (encodeNat n).exp 0) (by omega)
    omega

/-- Float64 reproduces every integer of magnitude below 2^53. -/
theorem exactNumber_of_lt (n : Int) (hlt : n.natAbs < 2 ^ 53) : exactNumber n 0 = true := by
  by_cases h0 : n = 0
  · subst h0
    rfl
  · have hn : 0 < n.natAbs := Int.natAbs_pos.mpr h0
    obtain ⟨hL, hv, hm, hval⟩ := encodeNat_spec n.natAbs hn hlt
    obtain ⟨hx, hdigits⟩ := formatShortest_nat n.natAbs hn hlt
    have hden := scaled_den_pos 2 (encodeNat n.natAbs).mant (encodeNat n.natAbs).exp
      (by norm_num)
    have hparse : parseFloat (scaled 10 n.natAbs 0) = some (encodeNat n.natAbs) := by
      have := parseFloat_nat n.natAbs 0 (le_refl 0) (by simpa using hn) (by simpa using hlt)
      simpa using this
    have hplain : (scaled 2 (encodeNat n.natAbs).mant (encodeNat n.natAbs).exp).lt
        (scaled 10 1 21) = true := by
      rw [Frac.lt_iff _ _ hden (scaled_den_pos 10 _ _ (by norm_num)), hval,
        scaled_value 10 1 21 (by norm_num)]
      have : (n.natAbs : ℚ) < 2 ^ 53 := by exact_mod_cast hlt
      norm_num at this ⊢
      linarith
    have hfmt : formatFloat (decide (n < 0)) (encodeNat n.natAbs) = .num n := by
      unfold formatFloat
      rw [if_neg hm]
      simp only
      rw [if_pos ⟨hx, hplain⟩, hdigits]
      congr 1
      by_cases hneg : n < 0
      · simp only [hneg, decide_True, if_true]
        omega
      · simp only [hneg, decide_False, Bool.false_eq_true, if_false]
        omega
    simp only [exactNumber, rereadNumber, hparse, hfmt, numberValue, beq_self_eq_true]

/-! ### Reading back -/

theorem Any.ofJson_marshal (r : Json) : (Any.ofJson r).marshal = .ok r := by
  cases r <;> rfl

/-- Data of which float64 reproduces every number arrives as the same JSON value. -/
theorem Any.reread_same_value (v data : Any) (he : v.exact = true) (hr : v.reread = some data) :
    ∃ j j' : Json, v.marshal = .ok j ∧ data.marshal = .ok j' ∧ j'.norm = j.norm := by
  cases v with
  | unsupported => cases hr
  | nil =>
    cases hr
    exact ⟨.null, .null, rfl, rfl, rfl⟩
  | val j =>
    have hexact : j.exact = true := he
    simp only [Any.reread] at hr
    split at hr
    · cases hr
    · cases hj : j.reread with
      | none =>
        rw [hj] at hr
        cases hr
      | some r =>
        rw [hj] at hr
        simp only [Option.some.injEq] at hr
        rw [← hr]
        exact ⟨j, r, rfl, Any.ofJson_marshal r, Json.reread_norm j r hexact hj⟩

theorem nestedArrays_depth (n : Nat) : (nestedArrays n).depth = n + 1 := by
  induction n with
  | zero => rfl
  | succ n ih => simp [nestedArrays, Json.depth, depthAll, ih]

theorem envelope_depth (u t : String) (j : Json) (time : Time) :
    (Json.obj [("user_uuid", .str u), ("type", .str t), ("data", j),
      ("sent_at", .time time)]).depth = j.depth + 1 := by
  simp [Json.depth, depthMembers]

/-- The decoding of a relay message with a `data` member: an envelope with the data
read back, or an error when the data are nested too deep or hold a number beyond
the range of float64. -/
theorem redisEnvelope.unmarshal_val (u t : String) (j : Json) (time : Time) :
    redisEnvelope.unmarshal
      (.obj [("user_uuid", .str u), ("type", .str t), ("data", j), ("sent_at", .time time)]) =
      match (Any.val j).reread with
      | some v => some (.envelope { UserUUID := u, Type_ := t, Data := v, SentAt := time })
      | none =>
        some (.undecodable (if maxNestingDepth ≤ j.depth then "exceeded max depth"
          else "json: cannot unmarshal value into Go struct field")) := by
  unfold redisEnvelope.unmarshal
  rw [envelope_depth]
  by_cases hdeep : maxNestingDepth ≤ j.depth
  · have h1 : maxNestingDepth < j.depth + 1 := by omega
    rw [if_pos h1]
    simp only [Any.reread, if_pos hdeep]
  · have h1 : ¬ maxNestingDepth < j.depth + 1 := by omega
    rw [if_neg h1]
    simp only [Decoding.members, Decoding.member, readString, readTime, readAny,
      redisEnvelope.zero, Any.reread, if_neg hdeep]
    cases j.reread <;> simp

theorem redisEnvelope.unmarshal_nil (u t : String) (time : Time) :
    redisEnvelope.unmarshal
      (.obj [("user_uuid", .str u), ("type", .str t), ("sent_at", .time time)]) =
      some (.envelope { UserUUID := u, Type_ := t, Data := .nil, SentAt := time }) := by
  simp [redisEnvelope.unmarshal, Json.depth, depthMembers, maxNestingDepth, Decoding.members,
    Decoding.member, readString, readTime, redisEnvelope.zero]

set_option exponentiation.threshold 2048

set_option maxRecDepth 100000

/-- Float64 reproduces every integer of magnitude up to 2^53. -/
theorem exactNumber_of_le (n : Int) (hle : n.natAbs ≤ 2 ^ 53) : exactNumber n 0 = true := by
  rcases Nat.lt_or_eq_of_le hle with hlt | heq
  · exact exactNumber_of_lt n hlt
  · have hcases : n = 9007199254740992 ∨ n = -9007199254740992 := by omega
    rcases hcases with h | h
    · subst h
      rfl
    · subst h
      rfl

theorem redisPubSubBridge.handleMessage_envelope (b : redisPubSubBridge) (p : Process)
    (env : redisEnvelope) (hu : env.UserUUID ≠ "") (ht : env.Type_ ≠ "") :
    b.handleMessage p (.envelope env) =
      (p.defaultHub.Publish env.UserUUID { Type_ := env.Type_, Data := env.Data }).map
        (fun h => { p with
          defaultHub := h
          dispatched := p.dispatched ++
            [.relayPublish env.UserUUID { Type_ := env.Type_, Data := env.Data }] }) := by
  have hgood : ¬ (env.UserUUID = "" ∨ env.Type_ = "") := fun h => h.elim hu ht
  simp only [redisPubSubBridge.handleMessage, if_neg hgood]
  cases p.defaultHub.Publish env.UserUUID { Type_ := env.Type_, Data := env.Data } <;> rfl

/-- C11 as stated fails, in three ways.  The event whose data is the integer 2^1024 is
serialised and published by the bridge, but on the receiving side `json.Unmarshal`
rejects the message (the number fits no float64), the loop logs and skips it, and no
`Hub.Publish` is made.  The event whose data is the integer 2^53 + 1 is published
and decoded, and the loop makes its `Hub.Publish`, but with the data 2^53, the
float64 nearest to it, which is another JSON value.  The event whose data is 10000
arrays one inside the other is published, but inside the envelope object it exceeds
the nesting depth that `json.Unmarshal` accepts, so the message is logged and
skipped as well. -/
theorem relay_round_trip_overflow :
    hugeEvent.Data ≠ Any.unsupported ∧ hugeEvent.Type_ ≠ "" ∧
    (∃ (body : Json) (err : String) (q : Process),
      (sampleBridge.publish sampleWorld procBridged "u1" hugeEvent).published =
        procBridged.published ++ [(sampleBridge.channel, body)] ∧
      redisEnvelope.unmarshal body = some (.undecodable err) ∧
      sampleBridge.handleMessage procLocal (.undecodable err) = .ok q ∧
      q.defaultHub = procLocal.defaultHub ∧ q.dispatched = procLocal.dispatched) ∧
    preciseEvent.Data ≠ Any.unsupported ∧ preciseEvent.Type_ ≠ "" ∧
    (∃ (body : Json) (q : Process),
      (sampleBridge.publish sampleWorld procBridged "u1" preciseEvent).published =
        procBridged.published ++ [(sampleBridge.channel, body)] ∧
      redisEnvelope.unmarshal body = some (.envelope
        { UserUUID := "u1", Type_ := "notification.created",
          Data := .val (.num 9007199254740992), SentAt := sampleWorld.now.UTC }) ∧
      sampleBridge.handleMessage procLocal (.envelope
        { UserUUID := "u1", Type_ := "notification.created",
          Data := .val (.num 9007199254740992), SentAt := sampleWorld.now.UTC }) = .ok q ∧
      q.dispatched = [.relayPublish "u1"
        { Type_ := "notification.created", Data := .val (.num 9007199254740992) }] ∧
      (Json.num 9007199254740992).norm = .dec 9007199254740992 0 ∧
      (Json.num 9007199254740993).norm = .dec 9007199254740993 0 ∧
      (Json.num 9007199254740992).norm ≠ (Json.num 9007199254740993).norm) ∧
    preciseEvent.Data.exact = false ∧
    deepEvent.Data ≠ Any.unsupported ∧ deepEvent.Type_ ≠ "" ∧
    (∃ (body : Json) (err : String) (q : Process),
      (sampleBridge.publish sampleWorld procBridged "u1" deepEvent).published =
        procBridged.published ++ [(sampleBridge.channel, body)] ∧
      redisEnvelope.unmarshal body = some (.undecodable err) ∧
      sampleBridge.handleMessage procLocal (.undecodable err) = .ok q ∧
      q.defaultHub = procLocal.defaultHub ∧ q.dispatched = procLocal.dispatched) := by
  have hdeep : (Any.val (nestedArrays 9999)).reread = none := by
    simp only [Any.reread, nestedArrays_depth, maxNestingDepth]
    rfl
  refine ⟨fun h => Any.noConfusion h, by decide,
    ⟨_, "json: cannot unmarshal value into Go struct field", _, rfl, ?_, rfl, rfl, rfl⟩,
    fun h => Any.noConfusion h, by decide, ⟨_, _, rfl, ?_, rfl, rfl, rfl, rfl, ?_⟩, rfl,
    fun h => Any.noConfusion h, by decide,
    ⟨_, "exceeded max depth", _, rfl, ?_, rfl, rfl, rfl⟩⟩
  · exact (redisEnvelope.unmarshal_val "u1" hugeEvent.Type_ _ sampleWorld.now.UTC).trans rfl
  · exact (redisEnvelope.unmarshal_val "u1" preciseEvent.Type_ _ sampleWorld.now.UTC).trans rfl
  · intro h
    have h2 : Json.dec 9007199254740992 0 = Json.dec 9007199254740993 0 := h
    injection h2 with h3 _
    omega
  · have h := redisEnvelope.unmarshal_val "u1" deepEvent.Type_ (nestedArrays 9999)
      sampleWorld.now.UTC
    rw [hdeep] at h
    simp only [nestedArrays_depth, maxNestingDepth] at h
    exact h

/-- C11, amended: for a non-empty user and an event of non-empty type whose data
`json.Marshal` accepts, the bridge's publish hands one message to the broker, and
the receiving side decodes it as follows.  When no number in the data is beyond the
range of float64 and the data are nested less than 10000 levels deep, the message
decodes into the envelope of the same user and type
with the data as encoding/json reads it back (numbers through float64, objects
through maps, `null` as the nil interface), and the loop body, on a reachable
receiving hub, makes exactly one `Hub.Publish`, for that user, with that type and
those data, and returns; when moreover float64 reproduces every number in the data,
the data published are the same JSON value as the data sent, member order aside.
When some number in the data is beyond the range of float64, or the data are nested
10000 levels deep or more, the message does not decode, and the loop body only
logs: no `Hub.Publish` is made.  Float64 reproduces
every integer of magnitude up to 2^53 and every number that `json.Marshal` writes
for a float64. -/
theorem relay_round_trip (b b2 : redisPubSubBridge) (w : World) (p1 p2 : Process)
    (u : String) (ev : Event) {fs : List (String × Unsubscribe)}
    (hr : Reachable p2.defaultHub fs) (hu : u ≠ "") (ht : ev.Type_ ≠ "")
    (hser : ev.Data ≠ .unsupported) :
    (∃ (body : Json) (msg : Message),
      (b.publish w p1 u ev).published = p1.published ++ [(b.channel, body)] ∧
      redisEnvelope.unmarshal body = some msg ∧
      (∀ data : Any, ev.Data.reread = some data →
        ∃ h' : Hub,
          msg = .envelope
            { UserUUID := u, Type_ := ev.Type_, Data := data, SentAt := w.now.UTC } ∧
          p2.defaultHub.Publish u { Type_ := ev.Type_, Data := data } = .ok h' ∧
          b2.handleMessage p2 msg = .ok { p2 with
            defaultHub := h'
            dispatched := p2.dispatched ++
              [.relayPublish u { Type_ := ev.Type_, Data := data }] } ∧
          (ev.Data.exact = true → ∃ j j' : Json,
            ev.Data.marshal = .ok j ∧ data.marshal = .ok j' ∧ j'.norm = j.norm)) ∧
      (ev.Data.reread = none →
        ∃ err : String, msg = .undecodable err ∧
          b2.handleMessage p2 msg = .ok { p2 with errorLog := p2.errorLog ++
            ["sse: failed to decode redis message channel=" ++ b2.channel ++
              " error=" ++ err] })) ∧
    (∀ n : Int, n.natAbs ≤ 2 ^ 53 → (Json.num n).exact = true) ∧
    (∀ (neg : Bool) (f : Float64), f.valid → (formatFloat neg f).exact = true) := by
  refine ⟨?_, fun n hn => exactNumber_of_le n hn, fun neg f hv => formatFloat_exact neg f hv⟩
  obtain ⟨body, hm, hpub⟩ := redisPubSubBridge.publish_body b w p1 u ev hser
  have hgood : ∀ data : Any, ev.Data.reread = some data →
      redisEnvelope.unmarshal body = some (.envelope
        { UserUUID := u, Type_ := ev.Type_, Data := data, SentAt := w.now.UTC }) →
      ∃ h' : Hub,
        Message.envelope
            { UserUUID := u, Type_ := ev.Type_, Data := data, SentAt := w.now.UTC } =
          .envelope
            { UserUUID := u, Type_ := ev.Type_, Data := data, SentAt := w.now.UTC } ∧
        p2.defaultHub.Publish u { Type_ := ev.Type_, Data := data } = .ok h' ∧
        b2.handleMessage p2 (.envelope
            { UserUUID := u, Type_ := ev.Type_, Data := data, SentAt := w.now.UTC }) =
          .ok { p2 with
            defaultHub := h'
            dispatched := p2.dispatched ++
              [.relayPublish u { Type_ := ev.Type_, Data := data }] } ∧
        (ev.Data.exact = true → ∃ j j' : Json,
          ev.Data.marshal = .ok j ∧ data.marshal = .ok j' ∧ j'.norm = j.norm) := by
    intro data hdata _
    obtain ⟨h', hp, _⟩ := Hub.Publish_spec hr.inv u { Type_ := ev.Type_, Data := data }
    refine ⟨h', rfl, hp, ?_, fun he => Any.reread_same_value ev.Data data he hdata⟩
    rw [redisPubSubBridge.handleMessage_envelope b2 p2 _ hu ht]
    simp only [hp]
    rfl
  cases hd : ev.Data with
  | unsupported => exact absurd hd hser
  | nil =>
    simp only [redisEnvelope.marshal, hd, Except.ok.injEq] at hm
    have hdec := redisEnvelope.unmarshal_nil u ev.Type_ w.now.UTC
    rw [hm] at hdec
    refine ⟨body, _, hpub, hdec, ?_, ?_⟩
    · intro data hdata
      have hnil : data = .nil := by
        simp only [Any.reread, Option.some.injEq] at hdata
        exact hdata.symm
      subst hnil
      have hre : ev.Data.reread = some .nil := by rw [hd]; rfl
      have := hgood .nil hre hdec
      rw [hd] at this
      exact this
    · intro hnone
      cases hnone
  | val j =>
    simp only [redisEnvelope.marshal, hd, Except.ok.injEq] at hm
    have hdec := redisEnvelope.unmarshal_val u ev.Type_ j w.now.UTC
    rw [hm] at hdec
    cases hre : (Any.val j).reread with
    | some v =>
      rw [hre] at hdec
      refine ⟨body, _, hpub, hdec, ?_, ?_⟩
      · intro data hdata
        cases hdata
        have hre2 : ev.Data.reread = some v := by rw [hd]; exact hre
        have := hgood v hre2 hdec
        rw [hd] at this
        exact this
      · intro hnone
        cases hnone
    | none =>
      rw [hre] at hdec
      refine ⟨body, _, hpub, hdec, ?_, ?_⟩
      · intro data hdata
        cases hdata
      · intro _
        exact ⟨_, rfl, rfl⟩

theorem relay_round_trip_witness :
    Reachable procLocal.defaultHub [("u1", unsubOne)] ∧ "u1" ≠ "" ∧
    richEvent.Type_ ≠ "" ∧ richEvent.Data ≠ .unsupported ∧
    richEvent.Data.reread = some (.val richReread) ∧ richEvent.Data.exact = true ∧
    (∃ (body : Json) (msg : Message),
      (sampleBridge.publish sampleWorld procBridged "u1" richEvent).published =
        procBridged.published ++ [(sampleBridge.channel, body)] ∧
      redisEnvelope.unmarshal body = some msg ∧
      (∀ data : Any, richEvent.Data.reread = some data →
        ∃ h' : Hub,
          msg = .envelope
            { UserUUID := "u1", Type_ := richEvent.Type_, Data := data,
              SentAt := sampleWorld.now.UTC } ∧
          procLocal.defaultHub.Publish "u1" { Type_ := richEvent.Type_, Data := data } =
            .ok h' ∧
          sampleBridge.handleMessage procLocal msg = .ok { procLocal with
            defaultHub := h'
            dispatched := procLocal.dispatched ++
              [.relayPublish "u1" { Type_ := richEvent.Type_, Data := data }] } ∧
          (richEvent.Data.exact = true → ∃ j j' : Json,
            richEvent.Data.marshal = .ok j ∧ data.marshal = .ok j' ∧ j'.norm = j.norm)) ∧
      (richEvent.Data.reread = none →
        ∃ err : String, msg = .undecodable err ∧
          sampleBridge.handleMessage procLocal msg = .ok { procLocal with
            errorLog := procLocal.errorLog ++
              ["sse: failed to decode redis message channel=" ++ sampleBridge.channel ++
                " error=" ++ err] })) ∧
    (∀ n : Int, n.natAbs ≤ 2 ^ 53 → (Json.num n).exact = true) ∧
    (∀ (neg : Bool) (f : Float64), f.valid → (formatFloat neg f).exact = true) :=
  ⟨reachable_hubOne, by decide, by decide, fun h => Any.noConfusion h, rfl, rfl,
    relay_round_trip sampleBridge sampleBridge sampleWorld procBridged procLocal "u1"
      richEvent reachable_hubOne (by decide) (by decide) (fun h => Any.noConfusion h)⟩

/-! ## Unsubscribe during a Publish -/

/-- C15 fails on the code: on the hub with one subscriber of `u1`, when `Publish` has
entered the function of `Range` with the subscriber's channel and the unsubscribe
closure then deletes and closes that channel, the select of `Publish` sends on a
closed channel and panics.  Run one after the other, in either order, the two
calls return and agree with `Hub.Publish` and the closure. -/
theorem unsubscribe_publish_race :
    Race.run "u1" sampleEvent unsubOne
      { hub := hubOne, publisher := .loading, unsubscriber := .deleting }
      [.publisher, .publisher, .unsubscriber, .unsubscriber, .publisher] =
        .error .sendOnClosedChannel ∧
    (∃ h1 h2, hubOne.Publish "u1" sampleEvent = .ok h1 ∧ unsubOne.call h1 = .ok h2 ∧
      Race.run "u1" sampleEvent unsubOne
        { hub := hubOne, publisher := .loading, unsubscriber := .deleting }
        [.publisher, .publisher, .publisher, .publisher, .unsubscriber, .unsubscriber] =
          .ok { hub := h2, publisher := .returned, unsubscriber := .returned }) ∧
    (∃ h1 h2, unsubOne.call hubOne = .ok h1 ∧ h1.Publish "u1" sampleEvent = .ok h2 ∧
      Race.run "u1" sampleEvent unsubOne
        { hub := hubOne, publisher := .loading, unsubscriber := .deleting }
        [.unsubscriber, .unsubscriber, .publisher, .publisher] =
          .ok { hub := h2, publisher := .returned, unsubscriber := .returned }) :=
  ⟨rfl, ⟨_, _, rfl, rfl, rfl⟩, ⟨_, _, rfl, rfl, rfl⟩⟩

end sse

namespace cqe

/-- C20, `CreateNotificationReq.Validate`: the result is true if and only if the
request is non-nil and its `UserUUID`, `Type`, `Title` and `Content` are all
non-empty; `ExtraJSON` does not affect the result. -/
theorem validate_required_fields (r : Option CreateNotificationReq) :
    (CreateNotificationReq.Validate r = true ↔
      ∃ q : CreateNotificationReq, r = some q ∧ q.UserUUID ≠ "" ∧ q.Type_ ≠ "" ∧
        q.Title ≠ "" ∧ q.Content ≠ "") ∧
    (∀ (q : CreateNotificationReq) (extra : String),
      CreateNotificationReq.Validate (some { q with ExtraJSON := extra }) =
        CreateNotificationReq.Validate (some q)) := by
  constructor
  · cases r with
    | none => simp [CreateNotificationReq.Validate]
    | some q =>
      simp only [CreateNotificationReq.Validate, Bool.and_eq_true, bne_iff_ne, ne_eq,
        Option.some.injEq, exists_eq_left']
      constructor
      · rintro ⟨⟨⟨h1, h2⟩, h3⟩, h4⟩
        exact ⟨h1, h2, h3, h4⟩
      · rintro ⟨h1, h2, h3, h4⟩
        exact ⟨⟨⟨h1, h2⟩, h3⟩, h4⟩
  · intro q extra
    rfl

end cqe

namespace sse

/-! ## Closed flags -/

theorem Hub.Publish_closed {h h' : Hub} {fs : List (String × Unsubscribe)} (hinv : Inv h fs)
    {u : String} {ev : Event} (hp : h.Publish u ev = .ok h') (k : Nat) :
    h'.closed k = h.closed k := by
  classical
  obtain ⟨h2, hp2, _, _, hsend, hskip⟩ := Hub.Publish_spec hinv u ev
  rw [hp] at hp2
  cases hp2
  by_cases hreg : h.registered u k
  · unfold Hub.closed
    rw [hsend k hreg]
    cases h.chans[k]? with
    | none => rfl
    | some c => simp [Chan.offer_closed]
  · exact Hub.closed_congr (hskip k hreg)

theorem Hub.recv_closed {h h' : Hub} {ch : Nat} {ev : Event}
    (hr : h.recv ch = .item ev h') (k : Nat) : h'.closed k = h.closed k := by
  unfold Hub.recv at hr
  cases hc : h.chans[ch]? with
  | none => rw [hc] at hr; cases hr
  | some c =>
    rw [hc] at hr
    cases hb : c.buf with
    | nil =>
      simp only [hb] at hr
      split at hr <;> cases hr
    | cons e rest =>
      simp only [hb, Recv.item.injEq] at hr
      obtain ⟨_, rfl⟩ := hr
      have hlt : ch < h.chans.length := (List.getElem?_eq_some_iff.mp hc).1
      unfold Hub.closed
      by_cases hk : ch = k
      · subst hk
        simp [List.getElem?_set, hlt, hc]
      · simp [List.getElem?_set, hk]

theorem Hub.recv_open {h : Hub} {ch : Nat} (hopen : h.closed ch = false) :
    h.recv ch ≠ .closed := by
  unfold Hub.recv
  unfold Hub.closed at hopen
  cases hc : h.chans[ch]? with
  | none => simp
  | some c =>
    rw [hc] at hopen
    have hcl : c.closed = false := hopen
    simp only
    cases hb : c.buf with
    | nil => simp [hcl]
    | cons e rest => simp

end sse

namespace http

open sse

/-! ## The stream handler -/

theorem onEvent_hub (c : Conn) (ev : Event) (failingWrite : Option Nat) :
    (onEvent c ev failingWrite).1.hub = c.hub := by
  unfold onEvent
  cases ev.Data.marshal with
  | error e => rfl
  | ok data =>
    simp only
    split
    · rfl
    · split
      · rfl
      · split
        · rfl
        · split <;> rfl

theorem onEvent_exit (c : Conn) (ev : Event) (failingWrite : Option Nat) (reason : Exit)
    (h : (onEvent c ev failingWrite).2 = some reason) : reason = .eventWriteFailed := by
  unfold onEvent at h
  cases hm : ev.Data.marshal with
  | error e => simp [hm] at h
  | ok data =>
    simp only [hm] at h
    split at h
    · simpa using h.symm
    · split at h
      · simpa using h.symm
      · split at h
        · simpa using h.symm
        · split at h
          · simpa using h.symm
          · simp at h

/-- Along the loop the hub stays consistent and no channel changes its closed flag;
the loop exits only for one of its four reasons, and for a closed stream only if
the stream was closed from the start. -/
theorem streamLoop_spec {fs : List (String × Unsubscribe)} (events : Nat)
    (script : List Ready) :
    ∀ c : Conn, Inv c.hub fs →
      Inv (streamLoop events c script).1.hub fs ∧
      (∀ k : Nat, (streamLoop events c script).1.hub.closed k = c.hub.closed k) ∧
      (∀ reason : Exit, (streamLoop events c script).2 = .exit reason →
        reason = .cancelled ∨ reason = .heartbeatWriteFailed ∨
          reason = .eventWriteFailed ∨
          (reason = .streamClosed ∧ c.hub.closed events = true)) := by
  induction script with
  | nil =>
    intro c hinv
    exact ⟨hinv, fun _ => rfl, fun reason h => by simp [streamLoop] at h⟩
  | cons step rest ih =>
    intro c hinv
    cases step with
    | notify =>
      refine ⟨hinv, fun _ => rfl, fun reason h => ?_⟩
      simp only [streamLoop, Loop.exit.injEq] at h
      exact Or.inl h.symm
    | heartbeat writeErr =>
      cases writeErr with
      | true =>
        refine ⟨hinv, fun _ => rfl, fun reason h => ?_⟩
        simp only [streamLoop, if_true, Loop.exit.injEq] at h
        exact Or.inr (Or.inl h.symm)
      | false =>
        simp only [streamLoop, Bool.false_eq_true, if_false]
        exact ih (c.write (.text ": ping\n\n")).flush hinv
    | events failingWrite =>
      simp only [streamLoop]
      cases hrecv : c.hub.recv events with
      | blocked => exact ih c hinv
      | closed =>
        refine ⟨hinv, fun _ => rfl, fun reason h => ?_⟩
        simp only [Loop.exit.injEq] at h
        refine Or.inr (Or.inr (Or.inr ⟨h.symm, ?_⟩))
        cases hcl : c.hub.closed events with
        | true => rfl
        | false => exact absurd hrecv (Hub.recv_open hcl)
      | item ev h' =>
        have hinv' : Inv h' fs := hinv.recv events ev hrecv
        have hcl' : ∀ k : Nat, h'.closed k = c.hub.closed k := Hub.recv_closed hrecv
        have hhub := onEvent_hub { c with hub := h' } ev failingWrite
        have hexit := onEvent_exit { c with hub := h' } ev failingWrite
        cases hoe : onEvent { c with hub := h' } ev failingWrite with
        | mk c' r =>
          rw [hoe] at hhub hexit
          simp only at hhub
          have hinvc : Inv c'.hub fs := by rw [hhub]; exact hinv'
          cases r with
          | some reason =>
            simp only [hoe]
            refine ⟨hinvc, fun k => by rw [hhub]; exact hcl' k, fun reason' h => ?_⟩
            simp only [Loop.exit.injEq] at h
            rw [← h]
            exact Or.inr (Or.inr (Or.inl (hexit reason rfl)))
          | none =>
            simp only [hoe]
            obtain ⟨h1, h2, h3⟩ := ih c' hinvc
            refine ⟨h1, fun k => (h2 k).trans (by rw [hhub]; exact hcl' k), ?_⟩
            intro reason h
            rcases h3 reason h with hr | hr | hr | ⟨hr, hc0⟩
            · exact Or.inl hr
            · exact Or.inr (Or.inl hr)
            · exact Or.inr (Or.inr (Or.inl hr))
            · refine Or.inr (Or.inr (Or.inr ⟨hr, ?_⟩))
              rw [hhub, hcl' events] at hc0
              exact hc0
    | published u ev =>
      simp only [streamLoop]
      cases hp : c.hub.Publish u ev with
      | error e => exact ih c hinv
      | ok h' =>
        simp only
        obtain ⟨h1, h2, h3⟩ := ih { c with hub := h' } (hinv.publish u ev hp)
        refine ⟨h1, fun k => (h2 k).trans (Hub.Publish_closed hinv hp k), ?_⟩
        intro reason h
        rcases h3 reason h with hr | hr | hr | ⟨hr, hc0⟩
        · exact Or.inl hr
        · exact Or.inr (Or.inl hr)
        · exact Or.inr (Or.inr (Or.inl hr))
        · refine Or.inr (Or.inr (Or.inr ⟨hr, ?_⟩))
          have := Hub.Publish_closed hinv hp events
          simp only at hc0
          rw [this] at hc0
          exact hc0

/-- After `Subscribe(u)` on a consistent hub, the rest of `Stream` either waits in
the select, having made no further call on the hub, or has returned from the loop
and called the unsubscribe closure once, which has closed and unregistered the
stream. -/
theorem streamSubscribed_cases {hub : Hub} {fs : List (String × Unsubscribe)}
    (hinv : Inv hub fs) (u : String) (okWriteErr : Bool) (script : List Ready) :
    ((streamSubscribed u (hub.Subscribe u) okWriteErr script).outcome = .waiting ∧
      (streamSubscribed u (hub.Subscribe u) okWriteErr script).calls = [.subscribe u]) ∨
    (∃ reason : Exit,
      (streamSubscribed u (hub.Subscribe u) okWriteErr script).outcome = .returned reason ∧
      reason ≠ .badRequest ∧ reason ≠ .noFlusher ∧
      (streamSubscribed u (hub.Subscribe u) okWriteErr script).calls =
        [.subscribe u, .unsubscribe (hub.Subscribe u).unsubscribe] ∧
      (streamSubscribed u (hub.Subscribe u) okWriteErr script).conn.hub.closed
        (hub.Subscribe u).stream = true ∧
      ∀ V : String, ¬ (streamSubscribed u (hub.Subscribe u) okWriteErr script).conn.hub.registered
        V (hub.Subscribe u).stream) := by
  have hinv1 := hinv.subscribe u
  obtain ⟨hst, hch, _⟩ := Hub.Subscribe_spec hinv u
  have hopen1 : (hub.Subscribe u).hub.closed (hub.Subscribe u).stream = false := by
    unfold Hub.closed
    rw [(Hub.Subscribe_registered hinv u).2]
    rfl
  have hc0 : ((if okWriteErr = true
      then ({ hub := (hub.Subscribe u).hub, writes := [], flushes := 0 } : Conn)
      else (Conn.write { hub := (hub.Subscribe u).hub, writes := [], flushes := 0 }
        (.text ": ok\n\n")).flush)).hub = (hub.Subscribe u).hub := by
    cases okWriteErr <;> rfl
  unfold streamSubscribed
  simp only
  generalize (if okWriteErr = true
      then ({ hub := (hub.Subscribe u).hub, writes := [], flushes := 0 } : Conn)
      else (Conn.write { hub := (hub.Subscribe u).hub, writes := [], flushes := 0 }
        (.text ": ok\n\n")).flush) = c0 at hc0 ⊢
  have hinv0 : Inv c0.hub ((u, (hub.Subscribe u).unsubscribe) :: fs) := by
    rw [hc0]; exact hinv1
  obtain ⟨hinvL, hclL, hexL⟩ := streamLoop_spec (hub.Subscribe u).stream script c0 hinv0
  cases hloop : streamLoop (hub.Subscribe u).stream c0 script with
  | mk c l =>
    rw [hloop] at hinvL hclL hexL
    simp only at hinvL hclL hexL
    cases l with
    | waiting => exact Or.inl ⟨rfl, rfl⟩
    | exit reason =>
      have hopenL : c.hub.closed (hub.Subscribe u).unsubscribe.ch = false := by
        rw [hch, ← hst, hclL, hc0]
        exact hopen1
      obtain ⟨h1, hcall⟩ := Unsubscribe.call_ok hinvL u (hub.Subscribe u).unsubscribe
        (List.mem_cons_self _ _) hopenL
      obtain ⟨hcl1, hgone, _⟩ := Unsubscribe.call_frame hinvL u
        (hub.Subscribe u).unsubscribe (List.mem_cons_self _ _) hcall
      have hreason : reason ≠ .badRequest ∧ reason ≠ .noFlusher := by
        rcases hexL reason rfl with hr | hr | hr | ⟨hr, _⟩ <;>
          (rw [hr]; exact ⟨by decide, by decide⟩)
      refine Or.inr ⟨reason, ?_, hreason.1, hreason.2, ?_, ?_, ?_⟩
      · simp only [hcall]
      · simp only [hcall]
      · simp only [hcall]
        rw [hst, ← hch]
        exact hcl1
      · simp only [hcall]
        intro V
        rw [hst, ← hch]
        exact hgone V

theorem splitLines_append (xs ys cur : List Piece)
    (hxs : ∀ p ∈ xs, p.isLineFeed = false) :
    splitLines (xs ++ ys) cur = splitLines ys (cur ++ xs) := by
  induction xs generalizing cur with
  | nil => simp
  | cons x xs ih =>
    have hx : x.isLineFeed = false := hxs x (List.mem_cons_self _ _)
    have hrest : ∀ p ∈ xs, p.isLineFeed = false :=
      fun p hp => hxs p (List.mem_cons_of_mem _ hp)
    have hstep : splitLines (x :: (xs ++ ys)) cur = splitLines (xs ++ ys) (cur ++ [x]) := by
      simp only [splitLines, hx, Bool.false_eq_true, if_false]
    rw [List.cons_append, hstep, ih (cur ++ [x]) hrest, List.append_assoc]
    rfl

theorem splitLines_line_feed (rest cur : List Piece) :
    splitLines (Piece.char '\n' :: rest) cur =
      (cur :: (splitLines rest []).1, (splitLines rest []).2) := by
  simp only [splitLines, Piece.isLineFeed, beq_self_eq_true, if_true]

theorem text_pieces_no_line_feed (s : String) (hs : '\n' ∉ s.toList) :
    ∀ p ∈ s.toList.map Piece.char, p.isLineFeed = false := by
  intro p hp
  obtain ⟨c, hc, rfl⟩ := List.mem_map.mp hp
  simp only [Piece.isLineFeed, beq_eq_false_iff_ne, ne_eq]
  rintro rfl
  exact hs hc

/-- C13 as stated fails: `PublishNotification("u1", ev)` accepts an event whose type
is `"notification.created\nid: 7"` and the hub queues it; for this event, whose data
is serialisable, with all writes succeeding, the handler writes `"event: " ++ ev.Type
++ "\n"`, `"data: "`, the JSON of the data and `"\n\n"`, and these bytes are four
lines, not three: the type is spread over two of them. -/
theorem stream_event_framing_line_feed :
    PublishNotification sampleWorld procLocal "u1" splitEvent =
      .ok { procLocal with
        defaultHub := hubSplit
        dispatched := [.hubPublish "u1" splitEvent] } ∧
    splitEvent.Data.marshal = .ok (.obj [("unread_count", .num 3)]) ∧
    streamLoop 0 { hub := hubSplit, writes := [], flushes := 0 } [.events none] =
      ({ hub := hubOne
         writes := [.text ("event: " ++ splitEvent.Type_ ++ "\n"), .text "data: ",
           .json (.obj [("unread_count", .num 3)]), .text "\n\n"]
         flushes := 1 }, .waiting) ∧
    linesOf [.text ("event: " ++ splitEvent.Type_ ++ "\n"), .text "data: ",
        .json (.obj [("unread_count", .num 3)]), .text "\n\n"] =
      (["event: notification.created".toList.map Piece.char,
        "id: 7".toList.map Piece.char,
        "data: ".toList.map Piece.char ++ [.json (.obj [("unread_count", .num 3)])],
        []], []) ∧
    (linesOf [.text ("event: " ++ splitEvent.Type_ ++ "\n"), .text "data: ",
        .json (.obj [("unread_count", .num 3)]), .text "\n\n"]).1.length = 4 :=
  ⟨rfl, rfl, rfl, rfl, rfl⟩

/-- C13, amended: when the select takes an event from the stream, the data of the
event is serialisable and all writes succeed, the handler writes for it exactly
`"event: " ++ ev.Type ++ "\n"`, `"data: "`, the JSON of `ev.Data` and `"\n\n"`, in
this order, flushes once, and goes on with the loop; when `ev.Type` holds no line
feed these bytes are three lines, each ended by a line feed and nothing after the
last: the event line `"event: " ++ ev.Type`, the data line `"data: "` followed by
the JSON, and an empty line. -/
theorem stream_event_framing (events : Nat) (c : Conn) (ev : Event) (h' : Hub)
    (data : Json) (rest : List Ready) (hrecv : c.hub.recv events = .item ev h')
    (hdata : ev.Data.marshal = .ok data) :
    streamLoop events c (.events none :: rest) =
      streamLoop events
        { hub := h'
          writes := c.writes ++
            [.text ("event: " ++ ev.Type_ ++ "\n"), .text "data: ", .json data, .text "\n\n"]
          flushes := c.flushes + 1 } rest ∧
    ('\n' ∉ ev.Type_.toList →
      linesOf [.text ("event: " ++ ev.Type_ ++ "\n"), .text "data: ", .json data,
          .text "\n\n"] =
        ([("event: " ++ ev.Type_).toList.map Piece.char,
          "data: ".toList.map Piece.char ++ [.json data],
          []], [])) := by
  refine ⟨by simp [streamLoop, hrecv, onEvent, hdata, Conn.write, Conn.flush], ?_⟩
  intro hlf
  have hline : '\n' ∉ ("event: " ++ ev.Type_).toList := by
    simp only [String.toList, String.data_append, List.mem_append, not_or]
    exact ⟨by decide, hlf⟩
  have hpieces : ([Chunk.text ("event: " ++ ev.Type_ ++ "\n"), .text "data: ", .json data,
      .text "\n\n"].map Chunk.pieces).flatten =
      ("event: " ++ ev.Type_).toList.map Piece.char ++
        (Piece.char '\n' :: ("data: ".toList.map Piece.char ++ [Piece.json data] ++
          [Piece.char '\n', Piece.char '\n'])) := by
    simp [Chunk.pieces, String.toList, String.data_append]
  have hdataLine : ∀ p ∈ "data: ".toList.map Piece.char ++ [Piece.json data],
      p.isLineFeed = false := by
    intro p hp
    rcases List.mem_append.mp hp with hp | hp
    · exact text_pieces_no_line_feed "data: " (by decide) p hp
    · rw [List.mem_singleton.mp hp]
      rfl
  unfold linesOf
  rw [hpieces, splitLines_append _ _ _ (text_pieces_no_line_feed _ hline)]
  rw [splitLines_line_feed, splitLines_append _ _ _ hdataLine, splitLines_line_feed,
    splitLines_line_feed]
  simp only [List.nil_append, splitLines]

theorem stream_event_framing_witness :
    sampleConn.hub.recv 0 = .item sampleEvent hubFullTaken ∧
    sampleEvent.Data.marshal = .ok (.obj [("unread_count", .num 3)]) ∧
    '\n' ∉ sampleEvent.Type_.toList ∧
    (streamLoop 0 sampleConn [.events none] =
      streamLoop 0
        { hub := hubFullTaken
          writes := sampleConn.writes ++
            [.text ("event: " ++ sampleEvent.Type_ ++ "\n"), .text "data: ",
              .json (.obj [("unread_count", .num 3)]), .text "\n\n"]
          flushes := sampleConn.flushes + 1 } [] ∧
    ('\n' ∉ sampleEvent.Type_.toList →
      linesOf [.text ("event: " ++ sampleEvent.Type_ ++ "\n"), .text "data: ",
          .json (.obj [("unread_count", .num 3)]), .text "\n\n"] =
        ([("event: " ++ sampleEvent.Type_).toList.map Piece.char,
          "data: ".toList.map Piece.char ++ [.json (.obj [("unread_count", .num 3)])],
          []], []))) :=
  ⟨rfl, rfl, by decide, stream_event_framing 0 sampleConn sampleEvent hubFullTaken
    (.obj [("unread_count", .num 3)]) [] rfl rfl⟩

/-- C14, guaranteed release in the stream writer: on a reachable hub no execution of
`Stream` panics; an execution still waiting in its select has subscribed and not
unsubscribed; an execution that has returned either returned before subscribing
(bad request, or a writer that cannot flush) and made no call on the hub, or
returned from the loop, for whatever reason, after exactly one `Subscribe` and
exactly one call of the closure it returned, made last, which left the stream
closed and unregistered. -/
theorem stream_releases_once {hub : Hub} {fs : List (String × Unsubscribe)}
    (hr : Reachable hub fs) (req : Request) (okWriteErr : Bool) (script : List Ready) :
    (∀ p : Panic, (Stream req hub okWriteErr script).outcome ≠ .panicked p) ∧
    ((Stream req hub okWriteErr script).outcome = .waiting →
      ∃ u : String, (Stream req hub okWriteErr script).calls = [.subscribe u]) ∧
    (∀ reason : Exit, (Stream req hub okWriteErr script).outcome = .returned reason →
      ((reason = .badRequest ∨ reason = .noFlusher) ∧
        (Stream req hub okWriteErr script).calls = []) ∨
      (reason ≠ .badRequest ∧ reason ≠ .noFlusher ∧
        ∃ u : String,
          (Stream req hub okWriteErr script).calls =
            [.subscribe u, .unsubscribe (hub.Subscribe u).unsubscribe] ∧
          (Stream req hub okWriteErr script).conn.hub.closed (hub.Subscribe u).stream = true ∧
          ∀ V : String,
            ¬ (Stream req hub okWriteErr script).conn.hub.registered V
              (hub.Subscribe u).stream)) := by
  unfold Stream
  cases hx : extractUserUUID req with
  | none =>
    refine ⟨fun p h => by simp at h, fun h => by simp at h, fun reason h => ?_⟩
    simp only [Outcome.returned.injEq] at h
    exact Or.inl ⟨Or.inl h.symm, rfl⟩
  | some u =>
    cases hfl : req.flusher with
    | false =>
      refine ⟨fun p h => by simp at h, fun h => by simp at h, fun reason h => ?_⟩
      simp only [Bool.not_false, if_true, Outcome.returned.injEq] at h
      exact Or.inl ⟨Or.inr h.symm, rfl⟩
    | true =>
      simp only [Bool.not_true, Bool.false_eq_true, if_false]
      rcases streamSubscribed_cases hr.inv u okWriteErr script with
        ⟨hout, hcalls⟩ | ⟨reason, hout, hne1, hne2, hcalls, hcl, hgone⟩
      · refine ⟨fun p h => ?_, fun _ => ⟨u, hcalls⟩, fun reason h => ?_⟩
        · rw [hout] at h; cases h
        · rw [hout] at h; cases h
      · refine ⟨fun p h => ?_, fun h => ?_, fun reason' h => ?_⟩
        · rw [hout] at h; cases h
        · rw [hout] at h; cases h
        · rw [hout] at h
          simp only [Outcome.returned.injEq] at h
          subst h
          exact Or.inr ⟨hne1, hne2, u, hcalls, hcl, hgone⟩

theorem stream_releases_once_witness :
    Reachable hubOne [("u1", unsubOne)] ∧
    (Stream sampleRequest hubOne false sampleScript).outcome = .returned .cancelled ∧
    (Stream sampleRequest hubOne false sampleScript).conn.writes =
      [.text ": ok\n\n", .text "event: notification.created\n", .text "data: ",
        .json (.obj [("unread_count", .num 3)]), .text "\n\n"] ∧
    ((∀ p : Panic, (Stream sampleRequest hubOne false sampleScript).outcome ≠ .panicked p) ∧
    ((Stream sampleRequest hubOne false sampleScript).outcome = .waiting →
      ∃ u : String, (Stream sampleRequest hubOne false sampleScript).calls = [.subscribe u]) ∧
    (∀ reason : Exit,
      (Stream sampleRequest hubOne false sampleScript).outcome = .returned reason →
      ((reason = .badRequest ∨ reason = .noFlusher) ∧
        (Stream sampleRequest hubOne false sampleScript).calls = []) ∨
      (reason ≠ .badRequest ∧ reason ≠ .noFlusher ∧
        ∃ u : String,
          (Stream sampleRequest hubOne false sampleScript).calls =
            [.subscribe u, .unsubscribe (hubOne.Subscribe u).unsubscribe] ∧
          (Stream sampleRequest hubOne false sampleScript).conn.hub.closed
            (hubOne.Subscribe u).stream = true ∧
          ∀ V : String,
            ¬ (Stream sampleRequest hubOne false sampleScript).conn.hub.registered V
              (hubOne.Subscribe u).stream))) :=
  ⟨reachable_hubOne, rfl, rfl,
    stream_releases_once reachable_hubOne sampleRequest false sampleScript⟩

end http

namespace sse

/-! ## Unsubscribe twice -/

theorem Unsubscribe.call_closed {h : Hub} {f : Unsubscribe} (hcl : h.closed f.ch = true) :
    f.call h = .error .closeOfClosedChannel := by
  unfold Hub.closed at hcl
  cases hc : h.chans[f.ch]? with
  | none => rw [hc] at hcl; cases hcl
  | some c =>
    rw [hc] at hcl
    have hcc : c.closed = true := hcl
    simp only [Unsubscribe.call, hc, Chan.close, hcc, if_true]

/-- C22, unsubscribe is not idempotent: in every reachable hub state, the call of
the unsubscribe closure of a live subscription returns and leaves its channel
closed, and a second call of the same closure, right then or in any later state
where the channel is closed, panics with a close of a closed channel instead of
doing nothing. -/
theorem unsubscribe_twice_panics {h : Hub} {fs : List (String × Unsubscribe)}
    (hr : Reachable h fs) (U : String) (f : Unsubscribe) (hsub : (U, f) ∈ fs) :
    (h.closed f.ch = false →
      ∃ h1, f.call h = .ok h1 ∧ h1.closed f.ch = true ∧
        f.call h1 = .error .closeOfClosedChannel) ∧
    (h.closed f.ch = true → f.call h = .error .closeOfClosedChannel) := by
  have hinv := hr.inv
  refine ⟨fun hlive => ?_, fun hcl => Unsubscribe.call_closed hcl⟩
  obtain ⟨h1, hcall⟩ := Unsubscribe.call_ok hinv U f hsub hlive
  obtain ⟨hcl1, _, _⟩ := Unsubscribe.call_frame hinv U f hsub hcall
  exact ⟨h1, hcall, hcl1, Unsubscribe.call_closed hcl1⟩

theorem unsubscribe_twice_panics_witness :
    Reachable hubOne [("u1", unsubOne)] ∧ ("u1", unsubOne) ∈ [("u1", unsubOne)] ∧
    hubOne.closed unsubOne.ch = false ∧ unsubOne.call hubOne = .ok hubGone ∧
    ((hubOne.closed unsubOne.ch = false →
      ∃ h1, unsubOne.call hubOne = .ok h1 ∧ h1.closed unsubOne.ch = true ∧
        unsubOne.call h1 = .error .closeOfClosedChannel) ∧
    (hubOne.closed unsubOne.ch = true →
      unsubOne.call hubOne = .error .closeOfClosedChannel)) :=
  ⟨reachable_hubOne, List.mem_singleton.mpr rfl, rfl, rfl,
    unsubscribe_twice_panics reachable_hubOne "u1" unsubOne (List.mem_singleton.mpr rfl)⟩

/-! ## Incomplete envelopes -/

/-- C23, the subscriber loop filters incomplete envelopes: for a message that decodes
to an envelope with an empty `user_uuid` or an empty `type`, the loop body leaves
the process as it is, making no `Hub.Publish`, and the loop goes on with the next
message; for an envelope with both fields non-empty, on a reachable hub, it makes
exactly one call `DefaultHub().Publish(user_uuid, Event{type, data})`, which
returns, and the loop goes on from the hub that call left. -/
theorem subscriber_filters_incomplete (b : redisPubSubBridge) (p : Process)
    (env : redisEnvelope) (rest : List Message) {fs : List (String × Unsubscribe)}
    (hr : Reachable p.defaultHub fs) :
    ((env.UserUUID = "" ∨ env.Type_ = "") →
      b.handleMessage p (.envelope env) = .ok p ∧
      b.handleAll p (.envelope env :: rest) = b.handleAll p rest) ∧
    ((env.UserUUID ≠ "" ∧ env.Type_ ≠ "") →
      ∃ h' : Hub,
        p.defaultHub.Publish env.UserUUID { Type_ := env.Type_, Data := env.Data } = .ok h' ∧
        b.handleMessage p (.envelope env) = .ok { p with
          defaultHub := h'
          dispatched := p.dispatched ++
            [.relayPublish env.UserUUID { Type_ := env.Type_, Data := env.Data }] } ∧
        b.handleAll p (.envelope env :: rest) = b.handleAll { p with
          defaultHub := h'
          dispatched := p.dispatched ++
            [.relayPublish env.UserUUID { Type_ := env.Type_, Data := env.Data }] } rest) := by
  constructor
  · intro hbad
    have hm : b.handleMessage p (.envelope env) = .ok p := by
      simp only [redisPubSubBridge.handleMessage, if_pos hbad]
    refine ⟨hm, ?_⟩
    simp only [redisPubSubBridge.handleAll, hm]
  · rintro ⟨hu, ht⟩
    obtain ⟨h', hp, _⟩ :=
      Hub.Publish_spec hr.inv env.UserUUID { Type_ := env.Type_, Data := env.Data }
    have hm : b.handleMessage p (.envelope env) = .ok { p with
        defaultHub := h'
        dispatched := p.dispatched ++
          [.relayPublish env.UserUUID { Type_ := env.Type_, Data := env.Data }] } := by
      rw [redisPubSubBridge.handleMessage_envelope b p env hu ht, hp]
      rfl
    refine ⟨h', hp, hm, ?_⟩
    simp only [redisPubSubBridge.handleAll, hm]

theorem subscriber_filters_incomplete_witness :
    Reachable procLocal.defaultHub [("u1", unsubOne)] ∧
    ((sampleEnvelope.UserUUID = "" ∨ sampleEnvelope.Type_ = "") →
      sampleBridge.handleMessage procLocal (.envelope sampleEnvelope) = .ok procLocal ∧
      sampleBridge.handleAll procLocal (.envelope sampleEnvelope :: []) =
        sampleBridge.handleAll procLocal []) ∧
    ((sampleEnvelope.UserUUID ≠ "" ∧ sampleEnvelope.Type_ ≠ "") →
      ∃ h' : Hub,
        procLocal.defaultHub.Publish sampleEnvelope.UserUUID
          { Type_ := sampleEnvelope.Type_, Data := sampleEnvelope.Data } = .ok h' ∧
        sampleBridge.handleMessage procLocal (.envelope sampleEnvelope) = .ok { procLocal with
          defaultHub := h'
          dispatched := procLocal.dispatched ++
            [.relayPublish sampleEnvelope.UserUUID
              { Type_ := sampleEnvelope.Type_, Data := sampleEnvelope.Data }] } ∧
        sampleBridge.handleAll procLocal (.envelope sampleEnvelope :: []) =
          sampleBridge.handleAll { procLocal with
            defaultHub := h'
            dispatched := procLocal.dispatched ++
              [.relayPublish sampleEnvelope.UserUUID
                { Type_ := sampleEnvelope.Type_, Data := sampleEnvelope.Data }] } []) :=
  ⟨reachable_hubOne,
    subscriber_filters_incomplete sampleBridge procLocal sampleEnvelope [] reachable_hubOne⟩

end sse

namespace assert

/-! ## NotCircular -/

theorem notCircularLoop_next (current : String) (frames : List String) :
    notCircularLoop current true frames =
      if current = (framesNext frames).1 then .error "found circular dependency"
      else notCircularLoop current (framesNext frames).2.1 (framesNext frames).2.2 := by
  cases frames with
  | nil => simp only [notCircularLoop, framesNext]
  | cons next rest => simp only [notCircularLoop, framesNext]

/-- What the loop does: with further frames to come it panics exactly when the
first frame's function is among them. -/
theorem notCircularLoop_spec (current : String) (frames : List String) (hne : frames ≠ []) :
    (current ∈ frames → notCircularLoop current true frames =
      .error "found circular dependency") ∧
    (current ∉ frames → notCircularLoop current true frames = .ok ()) := by
  induction frames with
  | nil => exact absurd rfl hne
  | cons next rest ih =>
    by_cases hcur : current = next
    · subst hcur
      refine ⟨fun _ => by simp [notCircularLoop], fun h => absurd (List.mem_cons_self _ _) h⟩
    · cases rest with
      | nil =>
        refine ⟨fun h => ?_, fun _ => by simp [notCircularLoop, hcur]⟩
        simp [hcur] at h
      | cons n2 r2 =>
        obtain ⟨ih1, ih2⟩ := ih (List.cons_ne_nil _ _)
        have hstep : notCircularLoop current true (next :: n2 :: r2) =
            notCircularLoop current true (n2 :: r2) := by
          rw [notCircularLoop]
          simp [hcur]
        rw [hstep]
        constructor
        · intro h
          rcases List.mem_cons.mp h with h | h
          · exact absurd h hcur
          · exact ih1 h
        · intro h
          exact ih2 (fun hm => h (List.mem_cons_of_mem _ hm))

/-- What `NotCircular` does: it panics exactly when the function of the first frame
occurs again among the frames it looks at. -/
theorem NotCircular_spec (stack : List String) :
    NotCircular stack = .error "found circular dependency" ↔
      ∃ (first : String) (rest : List String), stack.take 100 = first :: rest ∧ first ∈ rest := by
  unfold NotCircular
  cases hfr : stack.take 100 with
  | nil => simp [framesNext, notCircularLoop]
  | cons first rest =>
    cases rest with
    | nil => simp [framesNext, notCircularLoop]
    | cons n r =>
      obtain ⟨h1, h2⟩ := notCircularLoop_spec first (n :: r) (List.cons_ne_nil _ _)
      simp only [framesNext, List.isEmpty_cons, Bool.not_false]
      constructor
      · intro h
        refine ⟨first, n :: r, rfl, ?_⟩
        by_contra hnot
        rw [h2 hnot] at h
        cases h
      · rintro ⟨f, rs, heq, hmem⟩
        simp only [List.cons.injEq] at heq
        obtain ⟨hf, hrs⟩ := heq
        subst hf
        subst hrs
        exact h1 hmem

/-- C21 fails on the code: in the stack `main.initHub`, `main.build`, `main.build`,
`main.main` two adjacent frames have the same function, yet `NotCircular` returns
without panic, since it compares every frame with the first one only. -/
theorem not_circular_misses_adjacent :
    adjacentRepeat recursiveStack = true ∧ NotCircular recursiveStack = .ok () :=
  ⟨rfl, rfl⟩

end assert

namespace cqe

/-! ## Pagination -/

theorem wrapInt_of_isInt (x : Int) (hx : isInt x) : wrapInt x = x := by
  unfold isInt at hx
  unfold wrapInt
  have h : (x + 2 ^ 63) % 2 ^ 64 = x + 2 ^ 63 :=
    Int.emod_eq_of_lt (by omega) (by omega)
  rw [h]
  omega

theorem ListNotificationsReq.Normalize_spec (r : ListNotificationsReq) :
    r.Normalize.Page = (if r.Page ≤ 0 then 1 else r.Page) ∧
    r.Normalize.PageSize = (if r.PageSize ≤ 0 ∨ r.PageSize > 100 then 20 else r.PageSize) := by
  unfold ListNotificationsReq.Normalize
  by_cases hp : r.Page ≤ 0 <;> by_cases hs : r.PageSize ≤ 0 ∨ r.PageSize > 100 <;>
    simp [hp, hs]

end cqe

namespace app

open cqe

/-- C24 as stated fails: for page 2^62 + 1 with page size 2, both left as they are
by `Normalize`, the offset `(Page - 1) * PageSize` passed to the repository is the
Go `int` product 2^63 wrapped around, which is -2^63, a negative offset. -/
theorem pagination_offset_overflow :
    isInt farPage.Page ∧ isInt farPage.PageSize ∧
    farPage.Normalize.Page = farPage.Page ∧ farPage.Normalize.PageSize = farPage.PageSize ∧
    ListNotifications "u1" farPage = some (-(2 ^ 63), 2) ∧
    ¬ ∃ offset limit : Int, ListNotifications "u1" farPage = some (offset, limit) ∧
      0 ≤ offset := by
  have hq : ListNotifications "u1" farPage = some (-(2 ^ 63), 2) := by
    simp [ListNotifications, ListNotificationsReq.Normalize, farPage, wrapInt]
  refine ⟨by unfold isInt farPage; norm_num, by unfold isInt farPage; norm_num, ?_, ?_,
    hq, ?_⟩
  · simp [ListNotificationsReq.Normalize, farPage]
  · simp [ListNotificationsReq.Normalize, farPage]
  · rintro ⟨offset, limit, h, hpos⟩
    rw [hq] at h
    simp only [Option.some.injEq, Prod.mk.injEq] at h
    omega

/-- C24, amended: for every request whose page is a Go `int`, and a non-empty user, after
`Normalize` the page is at least 1 and the page size is between 1 and 100 (values
in range unchanged, the others page 1 and size 20); `ListNotifications` passes the
page size as limit, so `1 ≤ limit ≤ 100`, and as offset the Go `int` product
`(Page - 1) * PageSize`, which is the exact product, and not negative, whenever
that product is below 2^63 (beyond that it wraps around). -/
theorem pagination_bounds (userUUID : String) (r : ListNotificationsReq)
    (hu : userUUID ≠ "") (hp : isInt r.Page) :
    1 ≤ r.Normalize.Page ∧ 1 ≤ r.Normalize.PageSize ∧ r.Normalize.PageSize ≤ 100 ∧
    (1 ≤ r.Page → r.Normalize.Page = r.Page) ∧
    (r.Page ≤ 0 → r.Normalize.Page = 1) ∧
    (1 ≤ r.PageSize → r.PageSize ≤ 100 → r.Normalize.PageSize = r.PageSize) ∧
    (r.PageSize ≤ 0 ∨ 100 < r.PageSize → r.Normalize.PageSize = 20) ∧
    ∃ offset limit : Int,
      ListNotifications userUUID r = some (offset, limit) ∧
      limit = r.Normalize.PageSize ∧ 1 ≤ limit ∧ limit ≤ 100 ∧
      offset = wrapInt ((r.Normalize.Page - 1) * r.Normalize.PageSize) ∧
      ((r.Normalize.Page - 1) * r.Normalize.PageSize < 2 ^ 63 →
        offset = (r.Normalize.Page - 1) * r.Normalize.PageSize ∧ 0 ≤ offset) := by
  obtain ⟨hpage, hsize⟩ := ListNotificationsReq.Normalize_spec r
  have h1 : 1 ≤ r.Normalize.Page := by
    rw [hpage]; split <;> omega
  have h2 : 1 ≤ r.Normalize.PageSize ∧ r.Normalize.PageSize ≤ 100 := by
    rw [hsize]; split <;> omega
  have h3 : r.Normalize.Page < 2 ^ 63 := by
    rw [hpage]
    unfold isInt at hp
    split <;> omega
  have hminus : wrapInt (r.Normalize.Page - 1) = r.Normalize.Page - 1 :=
    wrapInt_of_isInt _ ⟨by omega, by omega⟩
  refine ⟨h1, h2.1, h2.2, ?_, ?_, ?_, ?_, ?_⟩
  · intro h
    rw [hpage, if_neg (by omega)]
  · intro h
    rw [hpage, if_pos h]
  · intro ha hb
    rw [hsize, if_neg (by omega)]
  · intro h
    rw [hsize, if_pos (by omega)]
  · refine ⟨wrapInt ((r.Normalize.Page - 1) * r.Normalize.PageSize), r.Normalize.PageSize,
      ?_, rfl, h2.1, h2.2, rfl, ?_⟩
    · simp only [ListNotifications, if_neg hu, hminus]
    · intro hlt
      have hnn : 0 ≤ (r.Normalize.Page - 1) * r.Normalize.PageSize :=
        Int.mul_nonneg (by omega) (by omega)
      have hw := wrapInt_of_isInt ((r.Normalize.Page - 1) * r.Normalize.PageSize)
        ⟨by omega, hlt⟩
      rw [hw]
      exact ⟨rfl, hnn⟩

theorem pagination_bounds_witness :
    "u1" ≠ "" ∧ isInt sloppyPage.Page ∧
    ListNotifications "u1" sloppyPage = some (0, 20) ∧
    (1 ≤ sloppyPage.Normalize.Page ∧ 1 ≤ sloppyPage.Normalize.PageSize ∧
    sloppyPage.Normalize.PageSize ≤ 100 ∧
    (1 ≤ sloppyPage.Page → sloppyPage.Normalize.Page = sloppyPage.Page) ∧
    (sloppyPage.Page ≤ 0 → sloppyPage.Normalize.Page = 1) ∧
    (1 ≤ sloppyPage.PageSize → sloppyPage.PageSize ≤ 100 →
      sloppyPage.Normalize.PageSize = sloppyPage.PageSize) ∧
    (sloppyPage.PageSize ≤ 0 ∨ 100 < sloppyPage.PageSize →
      sloppyPage.Normalize.PageSize = 20) ∧
    ∃ offset limit : Int,
      ListNotifications "u1" sloppyPage = some (offset, limit) ∧
      limit = sloppyPage.Normalize.PageSize ∧ 1 ≤ limit ∧ limit ≤ 100 ∧
      offset = wrapInt ((sloppyPage.Normalize.Page - 1) * sloppyPage.Normalize.PageSize) ∧
      ((sloppyPage.Normalize.Page - 1) * sloppyPage.Normalize.PageSize < 2 ^ 63 →
        offset = (sloppyPage.Normalize.Page - 1) * sloppyPage.Normalize.PageSize ∧
          0 ≤ offset)) :=
  have hp : isInt sloppyPage.Page := by unfold isInt sloppyPage; norm_num
  have hq : ListNotifications "u1" sloppyPage = some (0, 20) := by
    simp [ListNotifications, ListNotificationsReq.Normalize, sloppyPage, wrapInt]
  ⟨by decide, hp, hq, pagination_bounds "u1" sloppyPage (by decide) hp⟩

end app
